import Mathlib

/-!
A shallow embedding of `main.go` of `cpwn`, and proofs about it.

`cpwn` retargets an executable to another glibc build: it looks the requested
version up in a cache directory, falls back to two download manifests, runs
`patchelf` and `ldd`, and finally moves debug symbols where a debugger looks
for them.

The file has three layers.

* A model of the parts of the Go standard library the program calls
  (`strings`, `strconv`, `path/filepath`, the `os` file operations, and
  `filepath.Walk`).  Go strings are lists of characters, one character standing
  for one code point of valid UTF-8 text.  The file system is a finite tree of
  directories and regular files, without symbolic links or permissions, so a
  path names at most one node and lexical path resolution agrees with the
  operating system.
* The program itself, function by function, in the order of `main.go`.
  Every function that prints, reads, or runs a process is a state transformer
  on `St` (the file system together with the trace of observable events);
  `os.Exit` is the `Res.exit` outcome.
* The theorems.
-/

namespace Cpwn

/-- Go `string`, as the list of its characters. -/
abbrev Str := List Char

/-! ## `strings` -/

namespace Strings

/-- Model of `strings.HasPrefix(s, p)`. -/
def HasPrefix (s p : Str) : Bool := p.isPrefixOf s

/-- Model of `strings.HasSuffix(s, p)`. -/
def HasSuffix (s p : Str) : Bool := p.isSuffixOf s

/-- Model of `strings.Contains(s, sub)`: `sub` starts at some position of `s`. -/
def Contains : Str → Str → Bool
  | [], sub => sub.isPrefixOf []
  | c :: cs, sub => sub.isPrefixOf (c :: cs) || Contains cs sub

/-- Model of `strings.Split(s, sep)` for a separator of one character (the
program only splits on `"."` and on a newline): the pieces between the
occurrences of `sep`; one more piece than there are separators. -/
def Split (sep : Char) : Str → List Str
  | [] => [[]]
  | c :: cs =>
    if c = sep then [] :: Split sep cs
    else
      match Split sep cs with
      | [] => [[c]]
      | w :: ws => (c :: w) :: ws

/-- Model of `unicode.IsSpace`: the code points with the White_Space property. -/
def isSpace (c : Char) : Bool :=
  let n := c.toNat
  (9 ≤ n && n ≤ 13) || n = 32 || n = 0x85 || n = 0xA0 || n = 0x1680 ||
    (0x2000 ≤ n && n ≤ 0x200a) || n = 0x2028 || n = 0x2029 || n = 0x202f ||
    n = 0x205f || n = 0x3000

/-- Model of `strings.TrimSpace`: leading and trailing white space removed. -/
def TrimSpace (s : Str) : Str :=
  ((s.dropWhile isSpace).reverse.dropWhile isSpace).reverse

/-- Model of `strings.Join(elems, "/")`. -/
def joinSlash : List Str → Str
  | [] => []
  | [e] => e
  | e :: es => e ++ '/' :: joinSlash es

end Strings

/-! ## `strconv` -/

namespace Strconv

/-- The two errors of `strconv`: `ErrSyntax` and `ErrRange`. -/
inductive NumError
  | ErrSyntax
  | ErrRange
deriving DecidableEq, Repr

/-- Number of bytes of the UTF-8 encoding, Go's `len(s)`. -/
def byteLen (s : Str) : Nat := (s.map Char.utf8Size).sum

/-- Value of an ASCII decimal digit, `none` for any other character. -/
def digit? (c : Char) : Option Nat :=
  if 48 ≤ c.toNat ∧ c.toNat ≤ 57 then some (c.toNat - 48) else none

/-- The digit loop of the fast path of `strconv.Atoi`: `n = n*10 + int(ch)`,
with a syntax error at the first byte that is not a digit. -/
def fastLoop : Nat → Str → Option Nat
  | n, [] => some n
  | n, c :: cs =>
    match digit? c with
    | none => none
    | some d => fastLoop (n * 10 + d) cs

/-- The digit loop of `strconv.ParseUint(s, 10, 64)`.  The result is `ok n`,
`error ErrSyntax` at a byte that is not a digit, or `error ErrRange` as soon as
the next digit would not fit in 64 bits: the loop returns at that digit, before
it has looked at the bytes after it. -/
def parseUintLoop : Nat → Str → Except NumError Nat
  | n, [] => .ok n
  | n, c :: cs =>
    match digit? c with
    | none => .error .ErrSyntax
    | some d =>
      -- `cutoff = maxUint64/10 + 1`: `n*10` overflows
      if n ≥ (2 ^ 64 - 1) / 10 + 1 then .error .ErrRange
      -- `n1 < n || n1 > maxVal`: `n*10 + d` overflows
      else if n * 10 + d > 2 ^ 64 - 1 then .error .ErrRange
      else parseUintLoop (n * 10 + d) cs

/-- Model of `strconv.ParseUint(s, 10, 0)` on a 64-bit platform: the value
(`maxUint64` on a range error, `0` on a syntax error) and the error. -/
def ParseUint (s : Str) : Nat × Option NumError :=
  if s = [] then (0, some .ErrSyntax)
  else
    match parseUintLoop 0 s with
    | .ok n => (n, none)
    | .error .ErrRange => (2 ^ 64 - 1, some .ErrRange)
    | .error .ErrSyntax => (0, some .ErrSyntax)

/-- Model of `strconv.ParseInt(s, 10, 0)` on a 64-bit platform. -/
def ParseInt (s : Str) : Int × Option NumError :=
  match s with
  | [] => (0, some .ErrSyntax)
  | c :: cs =>
    let neg : Bool := c = '-'
    let body : Str := if c = '+' ∨ c = '-' then cs else c :: cs
    match ParseUint body with
    | (_, some .ErrSyntax) => (0, some .ErrSyntax)
    | (un, _) =>
      if !neg && un ≥ 2 ^ 63 then ((2 : Int) ^ 63 - 1, some .ErrRange)
      else if neg && un > 2 ^ 63 then (-(2 : Int) ^ 63, some .ErrRange)
      else (if neg then -(un : Int) else (un : Int), none)

/-- Model of `strconv.Atoi` on a 64-bit platform: strings of 1 to 18 bytes take
the fast path, every other string goes through `ParseInt`. -/
def Atoi (s : Str) : Int × Option NumError :=
  if 0 < byteLen s ∧ byteLen s < 19 then
    match s with
    | [] => (0, some .ErrSyntax)
    | c :: cs =>
      let body : Str := if c = '-' ∨ c = '+' then cs else c :: cs
      if body.length < 1 then (0, some .ErrSyntax)
      else
        match fastLoop 0 body with
        | none => (0, some .ErrSyntax)
        | some n => (if c = '-' then -(n : Int) else (n : Int), none)
  else ParseInt s

/-- Model of `strconv.Itoa` on a natural number (the `%d` of an index). -/
def Itoa (n : Nat) : Str := Nat.toDigits 10 n

end Strconv

/-! ## `path/filepath` -/

namespace Filepath

/-- Whether the path starts with the separator. -/
def IsAbs (p : Str) : Bool := p.head? = some '/'

/-- One element of the path read by `filepath.Clean`; the stack holds the
elements written so far, last written first.  Empty elements and `.` are
dropped; `..` removes the last written element when that is a name, is kept in
front of a relative path, and is dropped at the root. -/
def cleanStep (rooted : Bool) (st : List Str) (c : Str) : List Str :=
  if c = [] ∨ c = ['.'] then st
  else if c = ['.', '.'] then
    match st with
    | top :: rest =>
      if top = ['.', '.'] then (if rooted then st else c :: st) else rest
    | [] => if rooted then [] else [c]
  else c :: st

/-- The elements `filepath.Clean` keeps, in path order. -/
def cleanElems (rooted : Bool) (elems : List Str) : List Str :=
  (elems.foldl (cleanStep rooted) []).reverse

/-- The string `filepath.Clean` writes for the kept elements. -/
def render (rooted : Bool) (elems : List Str) : Str :=
  if rooted then '/' :: Strings.joinSlash elems
  else if elems = [] then ['.'] else Strings.joinSlash elems

/-- Model of `filepath.Clean` on Unix. -/
def Clean (p : Str) : Str :=
  if p = [] then ['.']
  else render (IsAbs p) (cleanElems (IsAbs p) (Strings.Split '/' p))

/-- Model of `filepath.Join`: the elements from the first non-empty one on,
joined with the separator and cleaned; the empty string when all are empty. -/
def Join (elems : List Str) : Str :=
  match elems.dropWhile (fun e => e = []) with
  | [] => []
  | es => Clean (Strings.joinSlash es)

/-- Model of `filepath.Dir`: the path up to and including its last separator,
cleaned. -/
def Dir (p : Str) : Str :=
  Clean (p.reverse.dropWhile (fun c => c ≠ '/')).reverse

/-- Model of `filepath.Abs`, given the result of `os.Getwd`. -/
def Abs (getwd : Except Str Str) (p : Str) : Except Str Str :=
  if IsAbs p then .ok (Clean p)
  else
    match getwd with
    | .error e => .error e
    | .ok wd => .ok (Join [wd, p])

end Filepath

/-! ## The file system -/

/-- The entries of a directory: regular files with their content and
directories with their own entries. -/
inductive Forest
  | nil
  | file (name : Str) (content : Str) (rest : Forest)
  | dir (name : Str) (sub : Forest) (rest : Forest)
deriving DecidableEq, Repr

/-- What a path names: a regular file or a directory. -/
inductive Node
  | file (content : Str)
  | dir (entries : Forest)
deriving DecidableEq, Repr

namespace Forest

/-- An entry put in front of others. -/
def cons (n : Str) (x : Node) (rest : Forest) : Forest :=
  match x with
  | .file c => .file n c rest
  | .dir sub => .dir n sub rest

/-- The entry called `n`. -/
def find (n : Str) : Forest → Option Node
  | nil => none
  | file m c rest => if m = n then some (.file c) else find n rest
  | dir m sub rest => if m = n then some (.dir sub) else find n rest

/-- The entry called `n` replaced where it stands, or added after the others. -/
def put (n : Str) (x : Node) : Forest → Forest
  | nil => cons n x nil
  | file m c rest => if m = n then cons n x rest else file m c (put n x rest)
  | dir m sub rest => if m = n then cons n x rest else dir m sub (put n x rest)

/-- The names of the entries. -/
def names : Forest → List Str
  | nil => []
  | file m _ rest => m :: names rest
  | dir m _ rest => m :: names rest

/-- Longest chain of nested directories. -/
def height : Forest → Nat
  | nil => 0
  | file _ _ rest => height rest
  | dir _ sub rest => max (height sub + 1) (height rest)

end Forest

/-- The three ways a path operation fails in this model. -/
inductive Errno
  | ENOENT
  | ENOTDIR
  | EISDIR
deriving DecidableEq, Repr

/-- The text of an error number. -/
def Errno.text : Errno → Str
  | .ENOENT => "no such file or directory".toList
  | .ENOTDIR => "not a directory".toList
  | .EISDIR => "is a directory".toList

/-- Go's `*fs.PathError`. -/
structure PathError where
  op : Str
  path : Str
  errno : Errno
deriving DecidableEq, Repr

/-- Model of `(*PathError).Error()`. -/
def PathError.Error (e : PathError) : Str :=
  e.op ++ " ".toList ++ e.path ++ ": ".toList ++ e.errno.text

/-- A path as the kernel sees it: the names from the root down. -/
abbrev Path := List Str

namespace Forest

/-- The node at a path below a directory with entries `f`. -/
def lookup : Path → Forest → Except Errno Node
  | [], f => .ok (.dir f)
  | n :: rest, f =>
    match f.find n with
    | none => .error .ENOENT
    | some (.file c) => if rest = [] then .ok (.file c) else .error .ENOTDIR
    | some (.dir sub) => lookup rest sub

/-- The directories of a path created where they are missing, as `os.MkdirAll`
does; fails when a name on the path is a regular file. -/
def mkdirAll : Path → Forest → Except Errno Forest
  | [], f => .ok f
  | n :: rest, f =>
    match f.find n with
    | none =>
      match mkdirAll rest .nil with
      | .ok sub => .ok (f.put n (.dir sub))
      | .error e => .error e
    | some (.file _) => .error .ENOTDIR
    | some (.dir sub) =>
      match mkdirAll rest sub with
      | .ok sub1 => .ok (f.put n (.dir sub1))
      | .error e => .error e

/-- A regular file created or overwritten at a path, as opening it with
`O_CREATE|O_TRUNC` and writing `c` does. -/
def writeAt : Path → Str → Forest → Except Errno Forest
  | [], _, _ => .error .EISDIR
  | [n], c, f =>
    match f.find n with
    | some (.dir _) => .error .EISDIR
    | _ => .ok (f.put n (.file c))
  | n :: m :: rest, c, f =>
    match f.find n with
    | none => .error .ENOENT
    | some (.file _) => .error .ENOTDIR
    | some (.dir sub) =>
      match writeAt (m :: rest) c sub with
      | .ok sub1 => .ok (f.put n (.dir sub1))
      | .error e => .error e

end Forest

/-- The state of the file system: the entries of the root directory and the
working directory of the process. -/
structure FS where
  root : Forest
  cwd : Path
deriving DecidableEq, Repr

/-- Order of strings, character by character. -/
def strLe : Str → Str → Bool
  | [], _ => true
  | _ :: _, [] => false
  | a :: as, b :: bs => a.toNat < b.toNat || (a = b && strLe as bs)

/-- A name inserted in a sorted list. -/
def insertName (n : Str) : List Str → List Str
  | [] => [n]
  | m :: ms => if strLe n m then n :: m :: ms else m :: insertName n ms

/-- Model of `sort.Strings`. -/
def sortNames : List Str → List Str
  | [] => []
  | n :: ns => insertName n (sortNames ns)

namespace Os

/-- The names from the root down that a path string stands for, relative
paths starting at the working directory. -/
def resolve (fs : FS) (p : Str) : Path :=
  Filepath.cleanElems true
    (if Filepath.IsAbs p then Strings.Split '/' p else fs.cwd ++ Strings.Split '/' p)

/-- The node a path string names; the empty path names nothing. -/
def node (fs : FS) (p : Str) : Except Errno Node :=
  if p = [] then .error .ENOENT else fs.root.lookup (resolve fs p)

/-- Model of `os.Stat` and `os.Lstat` (there are no symbolic links). -/
def Stat (op : Str) (fs : FS) (p : Str) : Except PathError Node :=
  match node fs p with
  | .ok x => .ok x
  | .error e => .error ⟨op, p, e⟩

/-- Model of `os.IsNotExist`. -/
def IsNotExist (e : PathError) : Bool := e.errno = .ENOENT

/-- Model of `os.Open`: succeeds on files and on directories. -/
def Open (fs : FS) (p : Str) : Except PathError Node := Stat "open".toList fs p

/-- Model of reading an open file to its end. -/
def read (fs : FS) (p : Str) : Except PathError Str :=
  match node fs p with
  | .ok (.file c) => .ok c
  | .ok (.dir _) => .error ⟨"read".toList, p, .EISDIR⟩
  | .error e => .error ⟨"read".toList, p, e⟩

/-- Model of `os.ReadFile`. -/
def ReadFile (fs : FS) (p : Str) : Except PathError Str :=
  match Open fs p with
  | .error e => .error e
  | .ok _ => read fs p

/-- Model of `os.MkdirAll`. -/
def MkdirAll (fs : FS) (p : Str) : Except PathError FS :=
  if p = [] then .error ⟨"mkdir".toList, p, .ENOENT⟩
  else
    match fs.root.mkdirAll (resolve fs p) with
    | .ok r => .ok { fs with root := r }
    | .error e => .error ⟨"mkdir".toList, p, e⟩

/-- Model of `os.Create` followed by writing `data`, and of `os.WriteFile`. -/
def WriteFile (fs : FS) (p : Str) (data : Str) : Except PathError FS :=
  if p = [] then .error ⟨"open".toList, p, .ENOENT⟩
  else
    match fs.root.writeAt (resolve fs p) data with
    | .ok r => .ok { fs with root := r }
    | .error e => .error ⟨"open".toList, p, e⟩

/-- Model of `os.Create`: the file exists and is empty afterwards. -/
def Create (fs : FS) (p : Str) : Except PathError FS := WriteFile fs p []

/-- Model of `os.ReadDir` and of `readDirNames`: the names of a directory,
sorted. -/
def ReadDir (fs : FS) (p : Str) : Except PathError (List Str) :=
  match node fs p with
  | .ok (.dir f) => .ok (sortNames f.names)
  | .ok (.file _) => .error ⟨"readdirent".toList, p, .ENOTDIR⟩
  | .error e => .error ⟨"open".toList, p, e⟩

/-- Model of the `basename` behind `FileInfo.Name()`: trailing separators
dropped, then what follows the last separator. -/
def basename (p : Str) : Str :=
  match p.reverse.dropWhile (fun c => c = '/') with
  | [] => if p = [] then [] else ['/']
  | r => (r.takeWhile (fun c => c ≠ '/')).reverse

end Os

/-! ## Processes, events, and the state of a run -/

/-- What a run does that can be observed from outside, in order. -/
inductive Event
  /-- Text written to standard output by `fmt.Print`, `Println` or `Printf`. -/
  | print (s : Str)
  /-- A line written by `logSuccess`. -/
  | logSuccess (msg : Str)
  /-- A line written by `logFail`. -/
  | logFail (msg : Str)
  /-- A line written by `logInfo`. -/
  | logInfo (msg : Str)
  /-- A line written by `logPrompt`. -/
  | logPrompt (msg : Str)
  /-- A child process started with this name and these arguments. -/
  | exec (argv : List Str)
  /-- The process ended by `os.Exit(code)`. -/
  | exit (code : Nat)
deriving DecidableEq, Repr

/-- What running a child process gives: the error of starting it, what it
wrote, the error of waiting for it (a non-zero exit status), and the file
system it leaves. -/
structure ProcResult where
  startErr : Option Str
  output : Str
  waitErr : Option Str
  fs : FS

/-- Everything the program reads from its surroundings and does not own. -/
structure Env where
  /-- `os.Args`. -/
  args : List Str
  /-- Result of `os.UserHomeDir()`. -/
  home : Except Str Str
  /-- Result of `os.Getwd()`. -/
  getwd : Except Str Str
  /-- `os.Getenv("SHELL")`. -/
  shell : Str
  /-- Standard input. -/
  stdin : Str
  /-- The machine field `debug/elf` reads from the bytes of a file, or the
  text of its error. -/
  elfMachine : Str → Except Str Nat
  /-- The behaviour of external programs. -/
  run : List Str → FS → ProcResult

/-- The state a run threads through: the file system and the events so far. -/
structure St where
  fs : FS
  out : List Event
deriving DecidableEq, Repr

/-- A step either goes on with a value or has ended the process. -/
inductive Res (α : Type)
  | ok (a : α) (s : St)
  | exit (s : St)
deriving DecidableEq, Repr

/-- The state a step leaves. -/
def Res.st {α : Type} : Res α → St
  | .ok _ s => s
  | .exit s => s

/-- A computation of the program. -/
def Prog (α : Type) : Type := St → Res α

/-- Sequencing: nothing runs after `os.Exit`. -/
def Prog.bind {α β : Type} (m : Prog α) (f : α → Prog β) : Prog β := fun s =>
  match m s with
  | .ok a s1 => f a s1
  | .exit s1 => .exit s1

instance : Monad Prog where
  pure a := fun s => .ok a s
  bind := Prog.bind

/-- The current state. -/
def getSt : Prog St := fun s => .ok s s

/-- The file system replaced. -/
def setFS (fs : FS) : Prog Unit := fun s => .ok () { s with fs := fs }

/-- One event added to the trace. -/
def emit (e : Event) : Prog Unit := fun s => .ok () { s with out := s.out ++ [e] }

/-- Model of `exec.Command(argv...)` run to its end with its output collected
(`CombinedOutput`): the output and the error, if any. -/
def CombinedOutput (env : Env) (argv : List Str) : Prog (Str × Option Str) := fun s =>
  let r := env.run argv s.fs
  match r.startErr with
  | some e => .ok ([], some e) { s with out := s.out ++ [.exec argv] }
  | none => .ok (r.output, r.waitErr) { fs := r.fs, out := s.out ++ [.exec argv] }

/-- Model of `bufio.ScanLines` over a whole input: the lines without their
terminators; an empty last line is not a line. -/
def scanLines (data : Str) : List Str :=
  let parts := Strings.Split (Char.ofNat 10) data
  let kept := if parts.getLast? = some [] then parts.dropLast else parts
  kept.map (fun l => if l.getLast? = some (Char.ofNat 13) then l.dropLast else l)

/-- Model of `bufio.Reader.ReadString` with a newline delimiter: the input up to and
including the first newline, or all of it. -/
def ReadString : Str → Str
  | [] => []
  | c :: cs => if c = Char.ofNat 10 then [c] else c :: ReadString cs

/-! ## The program -/

/-- Source: `logSuccess`. -/
def logSuccess (msg : Str) : Prog Unit := emit (.logSuccess msg)

/-- Source: `logFail`. -/
def logFail (msg : Str) : Prog Unit := emit (.logFail msg)

/-- Source: `logInfo`. -/
def logInfo (msg : Str) : Prog Unit := emit (.logInfo msg)

/-- Source: `logPrompt`. -/
def logPrompt (msg : Str) : Prog Unit := emit (.logPrompt msg)

/-- Source: `checkErr`, applied to a result: on an error it reports
`msg: err` and exits with status 1, otherwise the run goes on with the value. -/
def checkErr {α : Type} (msg : Str) (r : Except Str α) : Prog α :=
  match r with
  | .ok a => pure a
  | .error e => fun s =>
    .exit { s with out := s.out ++ [.logFail (msg ++ ": ".toList ++ e), .exit 1] }

/-- An `os` result with its error as text. -/
def errText {α : Type} (r : Except PathError α) : Except Str α :=
  match r with
  | .ok a => .ok a
  | .error e => .error e.Error

/-- Source: `copyFile`. -/
def copyFile (src dst : Str) (fs : FS) : Option PathError × FS :=
  match Os.Open fs src with
  | .error e => (some e, fs)
  | .ok _ =>
    match Os.MkdirAll fs (Filepath.Dir dst) with
    | .error e => (some e, fs)
    | .ok fs1 =>
      match Os.Create fs1 dst with
      | .error e => (some e, fs1)
      | .ok fs2 =>
        -- `io.Copy` reads the source as it is after `dst` was truncated
        match Os.read fs2 src with
        | .error e => (some e, fs2)
        | .ok data =>
          match Os.WriteFile fs2 dst data with
          | .error e => (some e, fs2)
          | .ok fs3 => (none, fs3)

/-- Source: `detectArch`. -/
def detectArch (glibPath : Str) : Str :=
  if Strings.Contains glibPath "i386".toList then "i386".toList
  else if Strings.Contains glibPath "amd64".toList ∨ Strings.Contains glibPath "x86_64".toList then
    "x86_64".toList
  else []

/-- What `os.Lstat` tells `filepath.Walk` about a file. -/
structure FileInfo where
  name : Str
  isDir : Bool
deriving DecidableEq, Repr

/-- Model of `os.Lstat`. -/
def Os.Lstat (fs : FS) (p : Str) : Except PathError FileInfo :=
  match Os.node fs p with
  | .ok (.file _) => .ok ⟨Os.basename p, false⟩
  | .ok (.dir _) => .ok ⟨Os.basename p, true⟩
  | .error e => .error ⟨"lstat".toList, p, e⟩

/-- A callback of `filepath.Walk` that always returns `nil`. -/
abbrev WalkFunc := Str → Option FileInfo → Option PathError → Prog Unit

/-- The steps of a loop over a list, in order. -/
def forEach {α : Type} : List α → (α → Prog Unit) → Prog Unit
  | [], _ => pure ()
  | a :: as, f => Prog.bind (f a) (fun _ => forEach as f)

/-- Model of the recursive `walk` of `path/filepath`, for a callback that
always returns `nil`.  The first argument bounds the depth of the recursion. -/
def walk (fn : WalkFunc) : Nat → Str → FileInfo → Prog Unit
  | 0, _, _ => pure ()
  | fuel + 1, path, info =>
    if !info.isDir then fn path (some info) none
    else do
      let s ← getSt
      match Os.ReadDir s.fs path with
      | .error e => fn path (some info) (some e)
      | .ok names =>
        fn path (some info) none
        forEach names (fun name => do
          let filename := Filepath.Join [path, name]
          let s1 ← getSt
          match Os.Lstat s1.fs filename with
          | .error e => fn filename none (some e)
          | .ok fileInfo => walk fn fuel filename fileInfo)

/-- Depth the recursion of `walk` needs below a node. -/
def walkFuel : Except Errno Node → Nat
  | .ok (.dir f) => f.height + 2
  | _ => 1

/-- Model of `filepath.Walk`. -/
def Walk (root : Str) (fn : WalkFunc) : Prog Unit := do
  let s ← getSt
  match Os.Lstat s.fs root with
  | .error e => fn root none (some e)
  | .ok info => walk fn (walkFuel (Os.node s.fs root)) root info

/-- The callback `fixDebugSymbols` gives to `filepath.Walk`. -/
def flattenFn (debugDir : Str) : WalkFunc := fun path info err =>
  match err, info with
  | some _, _ => pure ()
  | none, none => pure ()
  | none, some fi =>
    if fi.isDir then pure ()
    else do
      let dst := Filepath.Join [debugDir, fi.name]
      let s ← getSt
      let r := copyFile path dst s.fs
      setFS r.2
      match r.1 with
      | some _ => logFail ("Failed copying: ".toList ++ path)
      | none => pure ()

/-- Source: `fixDebugSymbols`, lines 317 to 325: the branch for versions before
2.30, which copies the one file `lib/<arch>-linux-gnu/libc-<version>.so` of the
debug directory to the top of it. -/
def copyNested (version debugDir arch : Str) : Prog Unit := do
  let libDir := "lib/".toList ++ arch ++ "-linux-gnu".toList
  let libc := "libc-".toList ++ version ++ ".so".toList
  let src := Filepath.Join [debugDir, libDir, libc]
  let dst := Filepath.Join [debugDir, libc]
  let s ← getSt
  let r := copyFile src dst s.fs
  setFS r.2
  match r.1 with
  | some e => logFail ("Error copying debug symbol: ".toList ++ e.Error)
  | none => logSuccess ("Copied debug symbol to: ".toList ++ dst)

/-- Source: `fixDebugSymbols`, lines 327 to 338: the branch for versions from
2.30 on, which copies every regular file below `.build-id` to the top of the
debug directory. -/
def flattenBuildId (debugDir : Str) : Prog Unit := do
  Walk (debugDir ++ "/.build-id".toList) (flattenFn debugDir)
  logSuccess "Flattened .build-id symbols into .debug/".toList

/-- Source: `fixDebugSymbols`. -/
def fixDebugSymbols (version glibPath : Str) : Prog Unit :=
  let verParts := Strings.Split '.' version
  if verParts.length < 2 then
    logFail ("Invalid version string: ".toList ++ version)
  else
    let major := (Strconv.Atoi (verParts.getD 0 [])).1
    let minor := (Strconv.Atoi (verParts.getD 1 [])).1
    let debugDir := Filepath.Join [glibPath, ".debug".toList]
    let arch := detectArch glibPath
    if arch = [] then
      logInfo "Unknown architecture, skip fixing debug symbols.".toList
    else if major < 2 ∨ (major = 2 ∧ minor < 30) then
      copyNested version debugDir arch
    else
      flattenBuildId debugDir

/-- Source: `executePatchelf`. -/
def executePatchelf (env : Env) (file ld glibPath : Str) : Prog Unit := do
  logInfo "Applying patchelf...".toList
  let r ← CombinedOutput env
    ["patchelf".toList, "--set-interpreter".toList, ld, "--set-rpath".toList, glibPath, file]
  match r.2 with
  | some err =>
    logFail ("Error executing patchelf: ".toList ++ err ++ [Char.ofNat 10] ++ r.1)
  | none => do
    logSuccess "Patchelf patched successfully.".toList
    emit (.print (r.1 ++ [Char.ofNat 10]))
    logInfo "Running ldd on patched file:".toList
    let l ← CombinedOutput env ["ldd".toList, file]
    match l.2 with
    | some err =>
      logFail ("Error executing ldd: ".toList ++ err ++ [Char.ofNat 10] ++ l.1)
    | none => emit (.print (l.1 ++ [Char.ofNat 10]))

/-- Source: `getLdPath`. -/
def getLdPath (glibPath arch : Str) : Str :=
  if arch = "amd64".toList then Filepath.Join [glibPath, "ld-linux-x86-64.so.2".toList]
  else Filepath.Join [glibPath, "ld-linux.so.2".toList]

/-- Source: `getArchitecture`.  `EM_386` is 3 and `EM_X86_64` is 62. -/
def getArchitecture (env : Env) (file : Str) : Prog Str := do
  let s ← getSt
  let machine ← checkErr "Error opening ELF file".toList
    (match Os.ReadFile s.fs file with
     | .error e => .error e.Error
     | .ok data => env.elfMachine data)
  if machine = 3 then pure "i386".toList
  else if machine = 62 then pure "amd64".toList
  else pure "unknown".toList

/-- Source: `getCpwnPath`. -/
def getCpwnPath (env : Env) : Prog Str := do
  let home ← checkErr "Error getting home directory".toList env.home
  pure (Filepath.Join [home, ".cpwn".toList])

/-- Source: `saveToCpwnFile`. -/
def saveToCpwnFile (env : Env) (content : Str) : Prog Unit := do
  let path ← getCpwnPath env
  let s ← getSt
  match Os.WriteFile s.fs path content with
  | .error e => logFail ("Failed to save cpwn path: ".toList ++ e.Error)
  | .ok fs1 => do
    setFS fs1
    let path1 ← getCpwnPath env
    logSuccess ("Saved cpwn base path to: ".toList ++ path1)

/-- Source: `readCpwnBasePath`. -/
def readCpwnBasePath (env : Env) : Prog Str := do
  let path ← getCpwnPath env
  let s ← getSt
  let data ← checkErr "Error reading .cpwn".toList (errText (Os.ReadFile s.fs path))
  pure (Strings.TrimSpace data)

/-- The loop of `glib` over the entries of the cache directory: the path of
the first entry whose name starts with the version and ends with the
architecture. -/
def glibScan (libPath version arch : Str) : List Str → Option Str
  | [] => none
  | e :: es =>
    if Strings.HasPrefix e version && Strings.HasSuffix e arch then
      some (Filepath.Join [libPath, e])
    else glibScan libPath version arch es

/-- Source: `glib`. -/
def glib (env : Env) (version arch : Str) : Prog Str := do
  let base ← readCpwnBasePath env
  let libPath := Filepath.Join [base, "libs".toList]
  let s ← getSt
  (match Os.Stat "stat".toList s.fs libPath with
   | .error e =>
     if Os.IsNotExist e then do
       let fs1 ← checkErr "Error creating libs directory".toList
         (errText (Os.MkdirAll s.fs libPath))
       setFS fs1
     else pure ()
   | .ok _ => pure ())
  let s1 ← getSt
  let entries ← checkErr "Error reading libs directory".toList
    (errText (Os.ReadDir s1.fs libPath))
  match glibScan libPath version arch entries with
  | some found => pure found
  | none => do
    logFail "No matching glibc found.".toList
    pure []

/-- Source: `executeDownloadCommand`. -/
def executeDownloadCommand (env : Env) (base command selected file version : Str) :
    Prog Unit := do
  let shell := if env.shell = [] then "bash".toList else env.shell
  let shellCmd := if Strings.HasSuffix shell "zsh".toList then "zsh".toList else "bash".toList
  let cmdPath := Filepath.Join [base, command]
  let cmdStr := cmdPath ++ " ".toList ++ selected
  logInfo ("Executing: ".toList ++ cmdStr)
  let r ← CombinedOutput env [shellCmd, "-c".toList, cmdStr]
  match r.2 with
  | some err =>
    logFail ("Error executing download command: ".toList ++ err ++ [Char.ofNat 10] ++ r.1)
  | none => do
    logSuccess "Download completed.".toList
    emit (.print (r.1 ++ [Char.ofNat 10]))
    let arch ← getArchitecture env file
    let glibPath ← glib env version arch
    if glibPath = [] then
      logFail "No suitable glib path found, cannot execute patchelf.".toList
    else do
      let ld := getLdPath glibPath arch
      executePatchelf env file ld glibPath
      fixDebugSymbols version glibPath

/-- The lines `selectVersion` prints for the candidates, numbered from `i`. -/
def menu : Nat → List Str → List Event
  | _, [] => []
  | i, v :: vs =>
    .print ("  ".toList ++ [Char.ofNat 27] ++ "[1;32m[".toList ++ Strconv.Itoa i ++
      "]".toList ++ [Char.ofNat 27] ++ "[0m ".toList ++ v ++ [Char.ofNat 10]) :: menu (i + 1) vs

/-- Source: `selectVersion`. -/
def selectVersion (env : Env) (versions : List Str) (base command file version : Str) :
    Prog Unit := do
  logPrompt "Select glibc version:".toList
  forEach (menu 0 versions) emit
  emit (.print ([Char.ofNat 27] ++ "[36mEnter your choice number: ".toList ++
    [Char.ofNat 27] ++ "[0m".toList))
  let input := Strings.TrimSpace (ReadString env.stdin)
  let r := Strconv.Atoi input
  if r.2 ≠ none ∨ r.1 < 0 ∨ r.1 ≥ versions.length then
    logFail "Invalid selection.".toList
  else do
    let selected := versions.getD r.1.toNat []
    logInfo ("You selected: ".toList ++ selected)
    executeDownloadCommand env base command selected file version

/-- Source: `filterLines`. -/
def filterLines (lines : List Str) (version arch : Str) : List Str :=
  lines.filter (fun line => Strings.HasPrefix line version && Strings.HasSuffix line arch)

/-- Source: `handleVersionSelection`. -/
def handleVersionSelection (env : Env) (base version arch file : Str) : Prog Unit := do
  logInfo "Searching for matching version...".toList
  let listPath := Filepath.Join [base, "list".toList]
  let oldListPath := Filepath.Join [base, "old_list".toList]
  let s ← getSt
  match Os.ReadFile s.fs listPath with
  | .error e => logFail ("Error reading list: ".toList ++ e.Error)
  | .ok listContent =>
    match Os.ReadFile s.fs oldListPath with
    | .error e => logFail ("Error reading old_list: ".toList ++ e.Error)
    | .ok oldListContent =>
      let lines := Strings.Split (Char.ofNat 10) listContent
      let oldLines := Strings.Split (Char.ofNat 10) oldListContent
      let filteredLines := filterLines lines version arch
      let filteredOldLines := filterLines oldLines version arch
      if filteredLines.length > 0 then
        selectVersion env filteredLines base "download".toList file version
      else if filteredOldLines.length > 0 then do
        logInfo "New version not found, trying old version:".toList
        selectVersion env filteredOldLines base "download_old".toList file version
      else
        logFail "No matching versions found.".toList

/-- Source: `executeLdd`. -/
def executeLdd (env : Env) (file version : Str) : Prog Unit := do
  let s ← getSt
  let missing : Bool :=
    match Os.Stat "stat".toList s.fs file with
    | .error e => Os.IsNotExist e
    | .ok _ => false
  if missing then
    logFail ("No file found: ".toList ++ file)
  else do
    let base ← readCpwnBasePath env
    let arch ← getArchitecture env file
    logInfo ("File architecture: ".toList ++ arch)
    let glibPath ← glib env version arch
    if glibPath = [] then
      handleVersionSelection env base version arch file
    else do
      let ld := getLdPath glibPath arch
      executePatchelf env file ld glibPath
      fixDebugSymbols version glibPath

/-- Source: `Putv`. -/
def Putv (env : Env) (libPath : Str) : Prog Unit := fun s =>
  let argv := ["strings".toList, libPath]
  let r := env.run argv s.fs
  let s1 : St := { s with out := s.out ++ [.exec argv] }
  match r.startErr with
  | some e => logFail ("Error starting strings: ".toList ++ e) s1
  | none =>
    let hits := (scanLines r.output).filter
      (fun line => Strings.Contains line "Ubuntu GLIBC".toList)
    let s2 : St :=
      { fs := r.fs, out := s1.out ++ hits.map (fun line => .print (line ++ [Char.ofNat 10])) }
    let s3 : St :=
      match r.waitErr with
      | some e => { s2 with out := s2.out ++ [.logFail ("Error waiting for strings: ".toList ++ e)] }
      | none => s2
    if hits = [] then logInfo ("No Ubuntu GLIBC string found in ".toList ++ libPath) s3
    else .ok () s3

/-- Source: `main`, lines 38 to 47: the retarget of `os.Args[1]`. -/
def mainRetarget (env : Env) : Prog Unit := do
  let file := env.args.getD 1 []
  let version := if env.args.length > 2 then env.args.getD 2 [] else "0".toList
  let fullPath ← checkErr "Error getting absolute path".toList (Filepath.Abs env.getwd file)
  executeLdd env fullPath version

/-- Source: `main`. -/
def main (env : Env) : Prog Unit :=
  if env.args.length < 2 then
    emit (.print "Usage: cpwn [-s <path>] | <file> [<version>]\n".toList)
  else if env.args.getD 1 [] = "-s".toList then
    if env.args.length < 3 then emit (.print "Usage: cpwn -s <path>\n".toList)
    else saveToCpwnFile env (env.args.getD 2 [])
  else if env.args.getD 1 [] = "-l".toList then
    if env.args.length < 3 then emit (.print "Usage: cpwn -l <lib>\n".toList)
    else do
      let libpath ← checkErr "libpath".toList (Filepath.Abs env.getwd (env.args.getD 2 []))
      Putv env libpath
      -- the branch does not return: the run goes on below it
      mainRetarget env
  else mainRetarget env

section

namespace Spec

/-! ## Specification-side definitions -/

/-- An ASCII decimal digit. -/
def isDigit (c : Char) : Bool := 48 ≤ c.toNat ∧ c.toNat ≤ 57

/-- The number a string of digits writes in base ten. -/
def natValue (ds : Str) : Nat := ds.foldl (fun n c => n * 10 + (c.toNat - 48)) 0

/-- A string without its sign. -/
def unsigned : Str → Str
  | [] => []
  | c :: cs => if c = '+' ∨ c = '-' then cs else c :: cs

/-- Whether a string starts with a minus sign. -/
def negative (s : Str) : Bool := s.head? = some '-'

/-- A decimal integer: an optional sign and at least one digit, nothing else. -/
def isInteger (s : Str) : Bool := unsigned s ≠ [] ∧ (unsigned s).all isDigit

/-- The integer a decimal integer writes. -/
def intValue (s : Str) : Int :=
  if negative s then -(natValue (unsigned s) : Int) else (natValue (unsigned s) : Int)

/-- What `strconv.Atoi` returns, said without its loops: digits that overflow
64 bits give a range error and a saturated value whatever follows them, any
other string that is not a decimal integer gives a syntax error and zero, and a
decimal integer gives its value, saturated with a range error outside the
64-bit signed range. -/
def atoiSpec (s : Str) : Int × Option Strconv.NumError :=
  if natValue ((unsigned s).takeWhile isDigit) > 2 ^ 64 - 1 then
    (if negative s then -(2 : Int) ^ 63 else (2 : Int) ^ 63 - 1, some .ErrRange)
  else if isInteger s = false then (0, some .ErrSyntax)
  else if negative s = false ∧ natValue (unsigned s) ≥ 2 ^ 63 then ((2 : Int) ^ 63 - 1, some .ErrRange)
  else if negative s = true ∧ natValue (unsigned s) > 2 ^ 63 then (-(2 : Int) ^ 63, some .ErrRange)
  else (intValue s, none)

end Spec

end

section

open Strconv Spec

/-- The state in which `selectVersion` reads the answer: the prompt, the
numbered candidates and the request for a number have been printed. -/
def promptState (versions : List Str) (s : St) : St :=
  { s with out := s.out ++ [.logPrompt "Select glibc version:".toList] ++ menu 0 versions ++
      [.print ([Char.ofNat 27] ++ "[36mEnter your choice number: ".toList ++
        [Char.ofNat 27] ++ "[0m".toList)] }

/-- The input, trimmed, is a decimal integer in `[0, n)`. -/
def validChoice (input : Str) (n : Nat) : Prop :=
  isInteger input = true ∧ 0 ≤ intValue input ∧ intValue input < n

end

section

open Strconv Spec

/-! ## What the walk over `.build-id` prints -/

/-- A step that goes on, and adds to the trace only reports of failed copies. -/
def Quiet (m : Prog Unit) : Prop :=
  ∀ s : St, ∃ s1 : St, m s = .ok () s1 ∧
    ∃ evs : List Event, s1.out = s.out ++ evs ∧
      ∀ e ∈ evs, ∃ p : Str, e = .logFail ("Failed copying: ".toList ++ p)

end

section

open Strconv Spec

/-! ## The version epoch -/

/-- The value of a version component as the claim words it: the integer it
writes, zero when it is not a decimal integer. -/
def Spec.claimedValue (c : Str) : Int := if isInteger c then intValue c else 0

/-- The value of a version component as the program takes it: the integer it
writes; when it is not a decimal integer, zero, unless its leading digits
overflow 64 bits, which counts as the largest 64-bit integer, or the smallest
after a minus sign. -/
def Spec.componentValue (c : Str) : Int :=
  if isInteger c then intValue c
  else if natValue ((unsigned c).takeWhile isDigit) > 2 ^ 64 - 1 then
    (if negative c then -(2 : Int) ^ 63 else (2 : Int) ^ 63 - 1)
  else 0

/-- The pair is below (2, 30) in lexicographic order. -/
def Spec.below230 (major minor : Int) : Prop := major < 2 ∨ (major = 2 ∧ minor < 30)

instance (major minor : Int) : Decidable (Spec.below230 major minor) := by
  unfold Spec.below230; infer_instance

/-- The report that ends the flattening branch. -/
def flattenedReport : Event := .logSuccess "Flattened .build-id symbols into .debug/".toList

end

section

open Strings Filepath

/-! ## Paths -/

/-- A name a directory entry can have: not empty, not `.` or `..`, and without
a separator. -/
def Name (n : Str) : Prop := n ≠ [] ∧ n ≠ ['.'] ∧ n ≠ ['.', '.'] ∧ '/' ∉ n

instance (n : Str) : Decidable (Name n) := by unfold Name; infer_instance

end

section

open Strings Filepath

/-- An element `filepath.Clean` keeps as a name. -/
def Normal (c : Str) : Prop := c ≠ [] ∧ c ≠ ['.'] ∧ c ≠ ['.', '.']

instance (c : Str) : Decidable (Normal c) := by unfold Normal; infer_instance

end

section

open Strings Filepath

/-- A cleaned path with at least one element: what `filepath.Join` returns when
its last argument is a name. -/
def CleanPath (x : Str) : Prop :=
  ∃ (r : Bool) (E : List Str), E ≠ [] ∧ x = render r E ∧ (∀ c ∈ E, '/' ∉ c) ∧ cleanElems r E = E

end

section

open Strings Filepath

/-! ## Paths in the tree -/

/-- Whether a node is a directory. -/
def Node.isDir : Node → Bool
  | .file _ => false
  | .dir _ => true

end

section

open Strings Filepath

namespace Forest

/-! ## Changes inside one directory -/

/-- The entries of the directory at a path changed by `h`; nothing changes
when the path is not a directory. -/
def modifyAt : Path → (Forest → Forest) → Forest → Forest
  | [], h, f => h f
  | n :: rest, h, f =>
    match f.find n with
    | some (.dir sub) => f.put n (.dir (modifyAt rest h sub))
    | _ => f

/-- Whether the entry `b` is a directory. -/
def isDirAt (g : Forest) (b : Str) : Bool :=
  match g.find b with
  | some (.dir _) => true
  | _ => false

/-- One copy into a directory: the entry `b` becomes a file with content `c`,
unless it is a directory. -/
def wr (g : Forest) (w : Str × Str) : Forest :=
  if g.isDirAt w.1 then g else g.put w.1 (.file w.2)

end Forest

end

section

open Strings Filepath

/-! ## Well-formed trees -/

/-- Every name in the tree is a name a directory entry can have. -/
def Forest.WF : Forest → Prop
  | .nil => True
  | .file m _ rest => Name m ∧ Forest.WF rest
  | .dir m sub rest => Name m ∧ Forest.WF sub ∧ Forest.WF rest

/-- Every name below the node is a name a directory entry can have. -/
def Node.WF : Node → Prop
  | .file _ => True
  | .dir f => f.WF

/-! ## The walk over `.build-id`, as a list of copies -/

/-- The lists for the names of a directory, one after the other. -/
def gather (g : Str → List (Str × Str)) : List Str → List (Str × Str)
  | [] => []
  | m :: ms => g m ++ gather g ms

/-- The regular files `filepath.Walk` visits below a node, in the order of the
walk, each with its name and its content; the first argument bounds the
depth. -/
def found : Nat → Node → Str → List (Str × Str)
  | 0, _, _ => []
  | _ + 1, .file c, name => [(name, c)]
  | n + 1, .dir f, _ =>
    gather (fun m => match f.find m with
      | some y => found n y m
      | none => []) (sortNames f.names)

/-- The directory at `d` has a directory `b` that holds `sub`. -/
def HasSub (d : Path) (b : Str) (sub : Forest) (root : Forest) : Prop :=
  ∃ g, Forest.lookup d root = .ok (.dir g) ∧ g.find b = some (.dir sub)

/-- The build-id directory of the debug directory `d` holds `sub`. -/
abbrev HasBuildId (d : Path) (sub : Forest) (root : Forest) : Prop :=
  HasSub d ".build-id".toList sub root

end

section

open Strings Filepath

/-- Depth that is enough below a node. -/
def Node.depth : Node → Nat
  | .file _ => 1
  | .dir f => f.height + 2

end

section

open Strings Filepath

/-! ## The stages of a run -/

/-- The arguments `executePatchelf` starts the patch tool with. -/
def patchArgv (file ld glibPath : Str) : List Str :=
  ["patchelf".toList, "--set-interpreter".toList, ld, "--set-rpath".toList, glibPath, file]

/-- The last two calls of `executeLdd` and of `executeDownloadCommand`: the
patch and diagnostic tools, then the relocation of debug symbols. -/
def patchThenFix (env : Env) (file version arch glibPath : Str) : Prog Unit :=
  Prog.bind (executePatchelf env file (getLdPath glibPath arch) glibPath)
    (fun _ => fixDebugSymbols version glibPath)

/-- The error `CombinedOutput` reports for a process. -/
def procError (r : ProcResult) : Option Str :=
  match r.startErr with
  | some e => some e
  | none => r.waitErr

/-- What the process wrote, as `CombinedOutput` returns it. -/
def procOutput (r : ProcResult) : Str :=
  match r.startErr with
  | some _ => []
  | none => r.output

/-- The file system after `CombinedOutput`. -/
def procFS (r : ProcResult) (fs : FS) : FS :=
  match r.startErr with
  | some _ => fs
  | none => r.fs

/-- The state in which `executePatchelf` starts the diagnostic tool. -/
def afterPatch (env : Env) (file ld glibPath : Str) (s : St) : St :=
  { fs := procFS (env.run (patchArgv file ld glibPath) s.fs) s.fs,
    out := s.out ++ [.logInfo "Applying patchelf...".toList,
      .exec (patchArgv file ld glibPath),
      .logSuccess "Patchelf patched successfully.".toList,
      .print (procOutput (env.run (patchArgv file ld glibPath) s.fs) ++ [Char.ofNat 10]),
      .logInfo "Running ldd on patched file:".toList] }

/-- The state `executePatchelf` leaves when it has run the diagnostic tool in
state `s1`: its output printed, or its failure reported. -/
def afterLdd (env : Env) (file : Str) (s1 : St) : St :=
  { fs := procFS (env.run ["ldd".toList, file] s1.fs) s1.fs,
    out := s1.out ++ [.exec ["ldd".toList, file],
      match procError (env.run ["ldd".toList, file] s1.fs) with
      | some err => .logFail ("Error executing ldd: ".toList ++ err ++ [Char.ofNat 10] ++
          procOutput (env.run ["ldd".toList, file] s1.fs))
      | none => .print (procOutput (env.run ["ldd".toList, file] s1.fs) ++ [Char.ofNat 10])] }

end

section

open Strings Filepath

/-- The architecture `getArchitecture` names for a machine number. -/
def archOf (machine : Nat) : Str :=
  if machine = 3 then "i386".toList
  else if machine = 62 then "amd64".toList
  else "unknown".toList

/-- The command line `executeDownloadCommand` runs. -/
def downloadArgv (env : Env) (base command selected : Str) : List Str :=
  [if HasSuffix (if env.shell = [] then "bash".toList else env.shell) "zsh".toList then
      "zsh".toList else "bash".toList,
    "-c".toList, Join [base, command] ++ " ".toList ++ selected]

/-- The file system a download that succeeded leaves. -/
def downloadFS (env : Env) (base command selected : Str) (s : St) : FS :=
  procFS (env.run (downloadArgv env base command selected) s.fs) s.fs

end

section

/-! ## Sample worlds -/

deriving instance DecidableEq for Except

namespace Sample

/-- A file added to a file system, with the directories above it. -/
def addFile (p c : String) (fs : FS) : FS :=
  match Os.MkdirAll fs (Filepath.Dir p.toList) with
  | .error _ => fs
  | .ok fs1 =>
    match Os.WriteFile fs1 p.toList c.toList with
    | .error _ => fs1
    | .ok fs2 => fs2

/-- A home directory with a configuration that names `/opt/g`, and a 64-bit
target `a.out`. -/
def homeFS : FS :=
  addFile "/home/u/a.out" "ELF64" <|
  addFile "/home/u/.cpwn" "/opt/g\n" ⟨.nil, ["home".toList, "u".toList]⟩

/-- The cache holds glibc 2.27 and 2.31 for amd64, with the debug symbols of
2.27 in the nested layout and those of 2.31 below `.build-id`. -/
def cacheFS : FS :=
  addFile "/opt/g/libs/2.31-amd64/.debug/.build-id/ab/cdef.debug" "D1" <|
  addFile "/opt/g/libs/2.31-amd64/.debug/.build-id/12/3456.debug" "D2" <|
  addFile "/opt/g/libs/2.31-amd64/.debug/.build-id/zz/cdef.debug" "D3" <|
  addFile "/opt/g/libs/2.27-amd64/.debug/lib/x86_64-linux-gnu/libc-2.27.so" "SYM" homeFS

/-- The two manifests, and an empty cache. -/
def manifestFS : FS :=
  addFile "/opt/g/old_list" "2.23-0ubuntu11_amd64\n2.23-0ubuntu11_i386\n" <|
  addFile "/opt/g/list" "2.35-0ubuntu3_amd64\n2.35-0ubuntu3_i386\n2.36-0ubuntu4_amd64\n" homeFS

/-- The machine field of the sample targets. -/
def machineOf (bytes : Str) : Except Str Nat :=
  if bytes = "ELF64".toList then .ok 62
  else if bytes = "ELF32".toList then .ok 3
  else .error "bad magic number".toList

/-- External programs that write `out` and leave the file system alone; the
programs named in `failing` exit with status 1. -/
def runner (failing : List String) : List Str → FS → ProcResult :=
  fun argv fs =>
    ⟨none, "out".toList,
      if (failing.map String.toList).contains (argv.headD []) then some "exit status 1".toList
      else none, fs⟩

/-- A run of `cpwn` with these arguments and this input. -/
def env (args : List String) (stdin : String) (failing : List String) : Env :=
  { args := args.map String.toList
    home := .ok "/home/u".toList
    getwd := .ok "/home/u".toList
    shell := "/bin/bash".toList
    stdin := stdin.toList
    elfMachine := machineOf
    run := runner failing }

end Sample

end

section

open Strings Filepath

/-- Source: `fixDebugSymbols`, lines 321 to 325: the report of the nested copy
to `dst`, for what `copyFile` returned. -/
def copyReport (r : Option PathError) (dst : Str) : Event :=
  match r with
  | some e => .logFail ("Error copying debug symbol: ".toList ++ e.Error)
  | none => .logSuccess ("Copied debug symbol to: ".toList ++ dst)

end

section

open Strings Filepath

/-! ## Computations only add to the trace -/

/-- The computation keeps the trace it starts with and writes after it. -/
def Grows {α : Type} (m : Prog α) : Prop :=
  ∀ s : St, ∃ evs : List Event, (m s).st.out = s.out ++ evs

end

section

open Strings Filepath Strconv Spec

/-! ## What the selection presents -/

/-- The lines of a manifest that start with the version and end with the
architecture, in the order of the manifest. -/
def Spec.candidates (content version arch : Str) : List Str :=
  (Split (Char.ofNat 10) content).filter (fun l => version <+: l ∧ arch <:+ l)

/-- What the selection writes for the candidates `vs`: the prompt, one line
with the index and the text of each candidate, in order, and the request for a
number. -/
def Spec.presented (vs : List Str) : List Event :=
  [Event.logPrompt "Select glibc version:".toList] ++
  (List.range vs.length).map (fun i =>
    Event.print ("  ".toList ++ [Char.ofNat 27] ++ "[1;32m[".toList ++ Nat.toDigits 10 i ++
      "]".toList ++ [Char.ofNat 27] ++ "[0m ".toList ++ vs.getD i [] ++ [Char.ofNat 10])) ++
  [Event.print ([Char.ofNat 27] ++ "[36mEnter your choice number: ".toList ++
    [Char.ofNat 27] ++ "[0m".toList)]

end

section

/-- Whether every name in the tree is a name a directory entry can have. -/
instance Forest.decWF : (f : Forest) → Decidable f.WF
  | .nil => isTrue trivial
  | .file m _ rest =>
    have := Forest.decWF rest
    inferInstanceAs (Decidable (Name m ∧ Forest.WF rest))
  | .dir m sub rest =>
    have := Forest.decWF sub
    have := Forest.decWF rest
    inferInstanceAs (Decidable (Name m ∧ Forest.WF sub ∧ Forest.WF rest))

namespace Sample

/-- A cache below a directory whose own name holds `i386`: a configuration
that names `/srv/i386box`, a 64-bit target, and glibc 2.27 for amd64 with its
debug symbols in the nested layout. -/
def oddFS : FS :=
  addFile "/srv/i386box/libs/2.27-amd64/.debug/lib/x86_64-linux-gnu/libc-2.27.so" "SYM" <|
  addFile "/home/u/a.out" "ELF64" <|
  addFile "/home/u/.cpwn" "/srv/i386box\n" ⟨.nil, ["home".toList, "u".toList]⟩

end Sample

end

/-! ## Theorems -/

section

open Strconv Spec

/-! ## Running a computation -/

@[simp] theorem Prog.bind_apply {α β : Type} (m : Prog α) (f : α → Prog β) (s : St) :
    (m >>= f) s = match m s with
      | .ok a s1 => f a s1
      | .exit s1 => .exit s1 := rfl

@[simp] theorem Prog.pure_apply {α : Type} (a : α) (s : St) :
    (pure a : Prog α) s = .ok a s := rfl

@[simp] theorem getSt_apply (s : St) : getSt s = .ok s s := rfl

@[simp] theorem setFS_apply (fs : FS) (s : St) : setFS fs s = .ok () { s with fs := fs } := rfl

@[simp] theorem emit_apply (e : Event) (s : St) :
    emit e s = .ok () { s with out := s.out ++ [e] } := rfl

theorem HasPrefix_iff (s p : Str) : Strings.HasPrefix s p = true ↔ p <+: s := by
  simp [Strings.HasPrefix]

theorem HasSuffix_iff (s p : Str) : Strings.HasSuffix s p = true ↔ p <:+ s := by
  simp [Strings.HasSuffix]

theorem matches_eq_decide (l v a : Str) :
    (Strings.HasPrefix l v && Strings.HasSuffix l a) = decide (v <+: l ∧ a <:+ l) := by
  rw [Bool.eq_iff_iff]; simp [HasPrefix_iff, HasSuffix_iff]

theorem filterLines_sublist_shorter (lines : List Str) (v w a : Str) (h : w <+: v) :
    (filterLines lines v a).Sublist (filterLines lines w a) := by
  unfold filterLines
  apply List.monotone_filter_right
  intro l hl
  simp only [Bool.and_eq_true, HasPrefix_iff, HasSuffix_iff] at hl ⊢
  exact ⟨h.trans hl.1, hl.2⟩

/-! ## `strconv.Atoi` -/

theorem digit?_eq (c : Char) :
    digit? c = if isDigit c then some (c.toNat - 48) else none := by
  simp [digit?, isDigit]

theorem digit?_lt {c : Char} {d : Nat} (h : digit? c = some d) : d ≤ 9 := by
  simp only [digit?] at h
  split at h
  · cases h; omega
  · cases h

/-- Value of the digits read after `n`. -/
theorem natValue_foldl (n : Nat) (ds : Str) :
    ds.foldl (fun n c => n * 10 + (c.toNat - 48)) n = n * 10 ^ ds.length + natValue ds := by
  induction ds generalizing n with
  | nil => simp [natValue]
  | cons c cs ih =>
    simp only [List.foldl_cons, natValue, List.length_cons]
    rw [ih, ih (0 * 10 + _)]
    ring

theorem natValue_cons (c : Char) (cs : Str) :
    natValue (c :: cs) = (c.toNat - 48) * 10 ^ cs.length + natValue cs := by
  simp only [natValue, List.foldl_cons]
  rw [natValue_foldl]; simp [natValue]

theorem natValue_append_single (ds : Str) (c : Char) :
    natValue (ds ++ [c]) = natValue ds * 10 + (c.toNat - 48) := by
  simp [natValue, List.foldl_append]

theorem natValue_lt (ds : Str) (h : ds.all isDigit = true) : natValue ds < 10 ^ ds.length := by
  induction ds using List.reverseRecOn with
  | nil => simp [natValue]
  | append_singleton ds c ih =>
    simp only [List.all_append, Bool.and_eq_true, List.all_cons, List.all_nil, Bool.and_true] at h
    have := ih h.1
    have hc : c.toNat - 48 ≤ 9 := by
      have := h.2; simp [isDigit] at this; omega
    rw [natValue_append_single, List.length_append, List.length_singleton, pow_succ]
    omega

/-- The fast loop reads a string of digits and nothing else. -/
theorem fastLoop_eq (n : Nat) (s : Str) :
    fastLoop n s = if s.all isDigit then some (n * 10 ^ s.length + natValue s) else none := by
  induction s generalizing n with
  | nil => simp [fastLoop, natValue]
  | cons c cs ih =>
    simp only [fastLoop, digit?_eq, List.all_cons]
    by_cases hc : isDigit c = true
    · simp only [hc, if_true, ih, Bool.true_and, natValue_cons, List.length_cons]
      split
      · congr 1; ring
      · rfl
    · simp [hc]

/-- The loop of `ParseUint`: a range error as soon as the digits read so far
exceed 64 bits, a syntax error at the first other character. -/
theorem parseUintLoop_eq (n : Nat) (s : Str) (hn : n ≤ 2 ^ 64 - 1) :
    parseUintLoop n s =
      if n * 10 ^ (s.takeWhile isDigit).length + natValue (s.takeWhile isDigit) > 2 ^ 64 - 1 then
        .error .ErrRange
      else if s.all isDigit then .ok (n * 10 ^ s.length + natValue s)
      else .error .ErrSyntax := by
  induction s generalizing n with
  | nil =>
    simp only [parseUintLoop, natValue, List.takeWhile_nil, List.length_nil, pow_zero, mul_one, List.foldl_nil, add_zero, List.all_nil, if_true]
    rw [if_neg]; omega
  | cons c cs ih =>
    simp only [parseUintLoop, digit?_eq, List.all_cons, List.takeWhile_cons]
    by_cases hc : isDigit c = true
    · simp only [hc, if_true, Bool.true_and, List.length_cons, natValue_cons]
      have hd : c.toNat - 48 ≤ 9 := by simp [isDigit] at hc; omega
      have hpow : 1 ≤ 10 ^ (List.takeWhile isDigit cs).length := Nat.one_le_pow _ _ (by norm_num)
      by_cases h1 : n ≥ (2 ^ 64 - 1) / 10 + 1
      · have : n * 10 ^ ((List.takeWhile isDigit cs).length + 1) ≥ n * 10 := by
          rw [pow_succ]; nlinarith
        rw [if_pos h1, if_pos]
        norm_num at h1 ⊢; omega
      · rw [if_neg h1]
        by_cases h2 : n * 10 + (c.toNat - 48) > 2 ^ 64 - 1
        · have : n * 10 ^ ((List.takeWhile isDigit cs).length + 1) + (c.toNat - 48) * 10 ^ (List.takeWhile isDigit cs).length ≥ n * 10 + (c.toNat - 48) := by
            rw [pow_succ]; nlinarith
          rw [if_pos h2, if_pos]
          omega
        · rw [if_neg h2, ih _ (by omega)]
          have e1 : ∀ k, (n * 10 + (c.toNat - 48)) * 10 ^ k = n * 10 ^ (k + 1) + (c.toNat - 48) * 10 ^ k := by
            intro k; ring
          simp only [e1, Nat.add_assoc]
    · simp only [hc, Bool.false_and]
      simp only [natValue, List.length_nil, pow_zero, mul_one, List.foldl_nil, add_zero]
      have hn2 : ¬ (18446744073709551615 < n) := by norm_num at hn; omega
      simp [hn2]

theorem length_le_byteLen (s : Str) : s.length ≤ byteLen s := by
  induction s with
  | nil => simp [byteLen]
  | cons c cs ih =>
    have := Char.utf8Size_pos c
    simp only [byteLen, List.map_cons, List.sum_cons, List.length_cons] at ih ⊢
    omega

theorem takeWhile_all (p : Char → Bool) (s : Str) : (s.takeWhile p).all p = true := by
  induction s with
  | nil => simp
  | cons c cs ih =>
    simp only [List.takeWhile_cons]
    split <;> simp_all

theorem takeWhile_of_all (p : Char → Bool) (s : Str) (h : s.all p = true) : s.takeWhile p = s := by
  induction s with
  | nil => simp
  | cons c cs ih => simp_all

theorem unsigned_length_le (s : Str) : (unsigned s).length ≤ s.length := by
  cases s with
  | nil => simp [unsigned]
  | cons c cs => simp only [unsigned]; split <;> simp

theorem ParseInt_eq (s : Str) : ParseInt s = atoiSpec s := by
  cases s with
  | nil => simp [ParseInt, atoiSpec, unsigned, natValue, isInteger]
  | cons c cs =>
    have hneg : negative (c :: cs) = decide (c = '-') := by simp [negative]
    have hbody : (if c = '+' ∨ c = '-' then cs else c :: cs) = unsigned (c :: cs) := by
      simp [unsigned]
    simp only [ParseInt, hbody]
    generalize hb : unsigned (c :: cs) = body
    unfold ParseUint
    by_cases hbe : body = []
    · simp [hbe, atoiSpec, hb, natValue, isInteger]
    · rw [if_neg hbe, parseUintLoop_eq 0 body (by norm_num)]
      simp only [Nat.zero_mul, Nat.zero_add]
      unfold atoiSpec
      rw [hb]
      by_cases h1 : natValue (List.takeWhile isDigit body) > 2 ^ 64 - 1
      · rw [if_pos h1, if_pos h1]
        rw [hneg]
        by_cases hc : c = '-' <;> simp [hc]
      · rw [if_neg h1, if_neg h1]
        by_cases h2 : body.all isDigit = true
        · have hi : isInteger (c :: cs) = true := by simp [isInteger, hb, hbe]; simpa using h2
          rw [if_pos h2]
          simp only [hi, hneg, intValue, hb]
          by_cases hc : c = '-' <;> simp [hc]
        · have hi : isInteger (c :: cs) = false := by
            simp only [isInteger, hb]; simp; intro _; simpa using h2
          simp [h2, hi]

theorem Atoi_eq (s : Str) : Atoi s = atoiSpec s := by
  unfold Atoi
  by_cases hlen : 0 < byteLen s ∧ byteLen s < 19
  · rw [if_pos hlen]
    cases s with
    | nil => simp [byteLen] at hlen
    | cons c cs =>
      have hneg : negative (c :: cs) = decide (c = '-') := by simp [negative]
      have hbody : (if c = '-' ∨ c = '+' then cs else c :: cs) = unsigned (c :: cs) := by
        simp [unsigned, or_comm]
      simp only [hbody]
      have hl : (unsigned (c :: cs)).length ≤ 18 := by
        have := unsigned_length_le (c :: cs)
        have := length_le_byteLen (c :: cs)
        omega
      unfold atoiSpec isInteger intValue
      generalize unsigned (c :: cs) = body at hl ⊢
      have hp : natValue (List.takeWhile isDigit body) < 10 ^ 18 := by
        have h1 := natValue_lt _ (takeWhile_all isDigit body)
        have h2 : (List.takeWhile isDigit body).length ≤ 18 :=
          le_trans (List.takeWhile_sublist _).length_le hl
        exact lt_of_lt_of_le h1 (Nat.pow_le_pow_right (by norm_num) h2)
      have hp2 : ¬ natValue (List.takeWhile isDigit body) > 2 ^ 64 - 1 := by omega
      rw [if_neg hp2]
      by_cases hbe : body = []
      · subst hbe; simp
      · have : ¬ body.length < 1 := by
          cases body with
          | nil => exact absurd rfl hbe
          | cons _ _ => simp
        rw [if_neg this, fastLoop_eq]
        by_cases h2 : body.all isDigit = true
        · have hv : natValue body < 10 ^ 18 := by
            rw [takeWhile_of_all _ _ h2] at hp; exact hp
          have e1 : ¬ (negative (c :: cs) = false ∧ natValue body ≥ 2 ^ 63) := by omega
          have e2 : ¬ (negative (c :: cs) = true ∧ natValue body > 2 ^ 63) := by omega
          simp only [h2, if_true, Nat.zero_mul, Nat.zero_add]
          rw [if_neg e1, if_neg e2]
          simp only [hneg]
          by_cases hc : c = '-' <;> simp [hc, hbe]
        · simp [h2, hbe]
  · rw [if_neg hlen]; exact ParseInt_eq s

end

section

open Strconv Spec

/-! ## Selection -/

theorem forEach_emit (evs : List Event) (s : St) :
    forEach evs emit s = .ok () { s with out := s.out ++ evs } := by
  induction evs generalizing s with
  | nil => simp [forEach]
  | cons e es ih => simp [forEach, Prog.bind, ih]

theorem selectVersion_eq (env : Env) (versions : List Str) (base command file version : Str)
    (s : St) :
    selectVersion env versions base command file version s =
      let r := Atoi (Strings.TrimSpace (ReadString env.stdin))
      if r.2 ≠ none ∨ r.1 < 0 ∨ r.1 ≥ versions.length then
        .ok () { promptState versions s with
          out := (promptState versions s).out ++ [.logFail "Invalid selection.".toList] }
      else
        executeDownloadCommand env base command (versions.getD r.1.toNat []) file version
          { promptState versions s with
            out := (promptState versions s).out ++
              [.logInfo ("You selected: ".toList ++ versions.getD r.1.toNat [])] } := by
  simp only [selectVersion, logPrompt, logFail, logInfo, Prog.bind_apply, emit_apply,
    forEach_emit, promptState]
  split <;> simp [List.append_assoc]

theorem atoi_accepts_iff (input : Str) (n : Nat) (hn : n ≤ 2 ^ 63) :
    ((Atoi input).2 = none ∧ 0 ≤ (Atoi input).1 ∧ (Atoi input).1 < n) ↔ validChoice input n := by
  rw [Atoi_eq]
  unfold atoiSpec validChoice
  have hv : intValue input = if negative input then -(natValue (unsigned input) : Int)
      else (natValue (unsigned input) : Int) := rfl
  have hn' : (n : Int) ≤ 2 ^ 63 := by exact_mod_cast hn
  by_cases h1 : natValue ((unsigned input).takeWhile isDigit) > 2 ^ 64 - 1
  · rw [if_pos h1]
    constructor
    · rintro ⟨h, -⟩; cases h
    · rintro ⟨hi, h0, hlt⟩
      exfalso
      simp only [isInteger, decide_eq_true_eq] at hi
      rw [takeWhile_of_all _ _ hi.2] at h1
      rw [hv] at h0 hlt
      by_cases hneg : negative input = true
      · simp only [hneg, if_true] at h0; omega
      · simp only [hneg] at hlt; simp at hlt; omega
  · rw [if_neg h1]
    by_cases h2 : isInteger input = false
    · rw [if_pos h2]; simp [h2]
    · rw [if_neg h2]
      by_cases h3 : negative input = false ∧ natValue (unsigned input) ≥ 2 ^ 63
      · rw [if_pos h3]
        constructor
        · rintro ⟨h, -⟩; cases h
        · rintro ⟨hi, h0, hlt⟩
          exfalso
          rw [hv] at hlt
          simp only [h3.1] at hlt
          have := h3.2
          simp at hlt; omega
      · rw [if_neg h3]
        by_cases h4 : negative input = true ∧ natValue (unsigned input) > 2 ^ 63
        · rw [if_pos h4]
          constructor
          · rintro ⟨h, -⟩; cases h
          · rintro ⟨hi, h0, hlt⟩
            exfalso
            rw [hv] at h0
            simp only [h4.1, if_true] at h0
            have := h4.2
            omega
        · rw [if_neg h4]
          simp only [Bool.not_eq_false] at h2
          simp [h2]

theorem atoi_value_of_valid (input : Str) (n : Nat) (hn : n ≤ 2 ^ 63)
    (h : validChoice input n) : Atoi input = (intValue input, none) := by
  have hacc := (atoi_accepts_iff input n hn).mpr h
  rw [Atoi_eq] at hacc ⊢
  unfold atoiSpec at hacc ⊢
  split_ifs at hacc ⊢ <;> first | rfl | (exfalso; simp at hacc)

end

section

open Strconv Spec

theorem Quiet.pure : Quiet (pure ()) := by
  intro s; exact ⟨s, rfl, [], by simp, by simp⟩

theorem Quiet.bind {m : Prog Unit} {f : Unit → Prog Unit} (hm : Quiet m) (hf : ∀ u, Quiet (f u)) :
    Quiet (m >>= f) := by
  intro s
  obtain ⟨s1, h1, e1, ho1, he1⟩ := hm s
  obtain ⟨s2, h2, e2, ho2, he2⟩ := hf () s1
  refine ⟨s2, by simp [h1, h2], e1 ++ e2, by simp [ho2, ho1], ?_⟩
  intro e he
  rcases List.mem_append.mp he with h | h
  · exact he1 e h
  · exact he2 e h

theorem Quiet.bind' {m : Prog Unit} {f : Unit → Prog Unit} (hm : Quiet m) (hf : ∀ u, Quiet (f u)) :
    Quiet (Prog.bind m f) := Quiet.bind hm hf

theorem flattenFn_quiet (d path : Str) (info : Option FileInfo) (err : Option PathError) :
    Quiet (flattenFn d path info err) := by
  unfold flattenFn
  cases err with
  | some e => exact Quiet.pure
  | none =>
    cases info with
    | none => exact Quiet.pure
    | some fi =>
      simp only
      split
      · exact Quiet.pure
      · intro s
        simp only [Prog.bind_apply, getSt_apply, setFS_apply, logFail]
        cases h : (copyFile path (Filepath.Join [d, fi.name]) s.fs).1 with
        | none => exact ⟨_, rfl, [], by simp, by simp⟩
        | some e => exact ⟨_, rfl, [_], rfl, by simp⟩

theorem forEach_quiet {α : Type} (l : List α) (f : α → Prog Unit) (hf : ∀ a, Quiet (f a)) :
    Quiet (forEach l f) := by
  induction l with
  | nil => exact Quiet.pure
  | cons a as ih => exact Quiet.bind' (hf a) (fun _ => ih)

theorem walk_quiet (d : Str) (fuel : Nat) (path : Str) (info : FileInfo) :
    Quiet (walk (flattenFn d) fuel path info) := by
  induction fuel generalizing path info with
  | zero => exact Quiet.pure
  | succ n ih =>
    unfold walk
    split
    · exact flattenFn_quiet _ _ _ _
    · intro s
      simp only [Prog.bind_apply, getSt_apply]
      cases hrd : Os.ReadDir s.fs path with
      | error e => exact flattenFn_quiet _ _ _ _ s
      | ok names =>
        simp only
        refine Quiet.bind (flattenFn_quiet _ _ _ _) (fun _ => forEach_quiet _ _ ?_) s
        intro name s1
        simp only [Prog.bind_apply, getSt_apply]
        cases hl : Os.Lstat s1.fs (Filepath.Join [path, name]) with
        | error e => exact flattenFn_quiet _ _ _ _ s1
        | ok fi => exact ih _ _ s1

theorem Walk_quiet (d root : Str) : Quiet (Walk root (flattenFn d)) := by
  intro s
  simp only [Walk, Prog.bind_apply, getSt_apply]
  cases hl : Os.Lstat s.fs root with
  | error e => exact flattenFn_quiet _ _ _ _ s
  | ok fi => exact walk_quiet _ _ _ _ s

end

section

open Strconv Spec

theorem atoi_lt_iff (c : Str) (k : Int) (h1 : -(2 : Int) ^ 63 < k) (h2 : k ≤ (2 : Int) ^ 63 - 1) :
    (Atoi c).1 < k ↔ componentValue c < k := by
  rw [Atoi_eq]
  unfold atoiSpec componentValue
  have hv : intValue c = if negative c then -(natValue (unsigned c) : Int)
      else (natValue (unsigned c) : Int) := rfl
  by_cases hi : isInteger c = true
  · have hall : (unsigned c).all isDigit = true := by
      simp only [isInteger, decide_eq_true_eq] at hi; exact hi.2
    rw [takeWhile_of_all _ _ hall]
    simp only [hi, if_true, Bool.true_eq_false, if_false]
    rw [hv]
    by_cases hneg : negative c = true
    · simp only [hneg, if_true, Bool.true_eq_false, false_and, if_false, true_and]
      split_ifs <;> constructor <;> intro _ <;> omega
    · simp only [Bool.not_eq_true] at hneg
      simp only [hneg, Bool.false_eq_true, if_false, true_and, false_and]
      split_ifs <;> constructor <;> intro _ <;> omega
  · simp only [Bool.not_eq_true] at hi
    simp only [hi, Bool.false_eq_true, if_false, if_true]
    split_ifs <;> rfl

theorem atoi_eq_two_iff (c : Str) : (Atoi c).1 = 2 ↔ componentValue c = 2 := by
  have h2 := atoi_lt_iff c 2 (by norm_num) (by norm_num)
  have h3 := atoi_lt_iff c 3 (by norm_num) (by norm_num)
  constructor <;> intro h <;> omega

theorem below_iff (a b : Str) :
    ((Atoi a).1 < 2 ∨ ((Atoi a).1 = 2 ∧ (Atoi b).1 < 30)) ↔
      below230 (componentValue a) (componentValue b) := by
  unfold below230
  rw [atoi_lt_iff a 2 (by norm_num) (by norm_num), atoi_eq_two_iff,
    atoi_lt_iff b 30 (by norm_num) (by norm_num)]

theorem fixDebugSymbols_malformed (version glibPath : Str) (s : St)
    (h : (Strings.Split '.' version).length < 2) :
    fixDebugSymbols version glibPath s =
      .ok () { s with out := s.out ++ [.logFail ("Invalid version string: ".toList ++ version)] } := by
  simp [fixDebugSymbols, h, logFail]

theorem fixDebugSymbols_epoch (version glibPath : Str)
    (hlen : 2 ≤ (Strings.Split '.' version).length) (harch : detectArch glibPath ≠ []) :
    fixDebugSymbols version glibPath =
      if below230 (componentValue ((Strings.Split '.' version).getD 0 []))
          (componentValue ((Strings.Split '.' version).getD 1 [])) then
        copyNested version (Filepath.Join [glibPath, ".debug".toList]) (detectArch glibPath)
      else flattenBuildId (Filepath.Join [glibPath, ".debug".toList]) := by
  unfold fixDebugSymbols
  have : ¬ (Strings.Split '.' version).length < 2 := by omega
  simp only [this, if_false, harch, below_iff]

theorem flattenBuildId_last (d : Str) (s : St) :
    ∃ s1, flattenBuildId d s = .ok () s1 ∧ s1.fs = (Walk (d ++ "/.build-id".toList) (flattenFn d) s).st.fs ∧
      s1.out.getLast? = some flattenedReport := by
  obtain ⟨s1, h1, -⟩ := Walk_quiet d (d ++ "/.build-id".toList) s
  refine ⟨{ s1 with out := s1.out ++ [flattenedReport] }, ?_, ?_, ?_⟩
  · simp only [flattenBuildId, Prog.bind_apply, h1, logSuccess, emit_apply, flattenedReport]
  · rw [h1]; rfl
  · simp

theorem copyNested_last (version d arch : Str) (s : St) :
    ∃ s1, copyNested version d arch s = .ok () s1 ∧ s1.out.getLast? ≠ some flattenedReport := by
  simp only [copyNested, Prog.bind_apply, getSt_apply, setFS_apply, logFail, logSuccess]
  cases (copyFile (Filepath.Join [d, "lib/".toList ++ arch ++ "-linux-gnu".toList,
      "libc-".toList ++ version ++ ".so".toList])
    (Filepath.Join [d, "libc-".toList ++ version ++ ".so".toList]) s.fs).1 with
  | some e =>
    refine ⟨_, rfl, ?_⟩
    simp [flattenedReport]
  | none =>
    refine ⟨_, rfl, ?_⟩
    simp only [List.getLast?_append, List.getLast?_singleton, Option.or, ne_eq,
      Option.some.injEq, flattenedReport, Event.logSuccess.injEq]
    intro h
    have := congrArg List.head? h
    revert this
    simp

end

section

open Strings Filepath

theorem Split_ne_nil (sep : Char) (s : Str) : Split sep s ≠ [] := by
  cases s with
  | nil => simp [Split]
  | cons c cs =>
    simp only [Split]
    split
    · simp
    · split <;> simp

theorem Split_cons_sep (sep : Char) (cs : Str) : Split sep (sep :: cs) = [] :: Split sep cs := by
  simp [Split]

theorem Split_cons_ne (sep c : Char) (cs : Str) (h : c ≠ sep) :
    Split sep (c :: cs) =
      (c :: (Split sep cs).headD []) :: (Split sep cs).tail := by
  simp only [Split, h, if_false]
  cases Split sep cs with
  | nil => rfl
  | cons w ws => rfl

theorem Split_nosep (sep : Char) (s : Str) (h : sep ∉ s) : Split sep s = [s] := by
  induction s with
  | nil => rfl
  | cons c cs ih =>
    simp only [List.mem_cons, not_or] at h
    have hc : c ≠ sep := fun e => h.1 e.symm
    rw [Split_cons_ne _ _ _ hc]
    simp [ih h.2]

theorem Split_append_sep (sep : Char) (a b : Str) :
    Split sep (a ++ sep :: b) = Split sep a ++ Split sep b := by
  induction a with
  | nil => rw [List.nil_append, Split_cons_sep]; rfl
  | cons c cs ih =>
    rw [List.cons_append]
    by_cases hc : c = sep
    · subst hc
      rw [Split_cons_sep, Split_cons_sep, ih]; rfl
    · rw [Split_cons_ne _ _ _ hc, Split_cons_ne _ _ _ hc]
      simp only [ih]
      cases h : Split sep cs with
      | nil => exact absurd h (Split_ne_nil _ _)
      | cons w ws => simp

theorem Split_elems_nosep (sep : Char) (s : Str) : ∀ e ∈ Split sep s, sep ∉ e := by
  induction s with
  | nil => simp [Split]
  | cons c cs ih =>
    by_cases hc : c = sep
    · subst hc
      rw [Split_cons_sep]
      intro e he
      rcases List.mem_cons.mp he with h | h
      · simp [h]
      · exact ih e h
    · rw [Split_cons_ne _ _ _ hc]
      intro e he
      rcases List.mem_cons.mp he with h | h
      · subst h
        have : sep ∉ (Split sep cs).headD [] := by
          cases h2 : Split sep cs with
          | nil => simp
          | cons w ws => rw [h2] at ih; exact ih w (by simp)
        simp only [List.mem_cons, not_or]
        exact ⟨fun e => hc e.symm, this⟩
      · exact ih e (List.mem_of_mem_tail h)

theorem joinSlash_cons (e : Str) (es : List Str) (h : es ≠ []) :
    joinSlash (e :: es) = e ++ '/' :: joinSlash es := by
  cases es with
  | nil => exact absurd rfl h
  | cons _ _ => rfl

theorem joinSlash_append (es fs : List Str) (h1 : es ≠ []) (h2 : fs ≠ []) :
    joinSlash (es ++ fs) = joinSlash es ++ '/' :: joinSlash fs := by
  induction es with
  | nil => exact absurd rfl h1
  | cons e es ih =>
    cases es with
    | nil =>
      rw [List.singleton_append, joinSlash_cons _ _ h2]; rfl
    | cons e2 es2 =>
      have := ih (List.cons_ne_nil _ _)
      rw [List.cons_append, joinSlash_cons _ _ (by simp), this,
        joinSlash_cons e _ (List.cons_ne_nil _ _), List.append_assoc]
      rfl

theorem joinSlash_append_single (es : List Str) (n : Str) (h : es ≠ []) :
    joinSlash (es ++ [n]) = joinSlash es ++ '/' :: n :=
  joinSlash_append es [n] h (by simp)

theorem joinSlash_Split (s : Str) : joinSlash (Split '/' s) = s := by
  induction s with
  | nil => rfl
  | cons c cs ih =>
    by_cases hc : c = '/'
    · subst hc
      rw [Split_cons_sep, joinSlash_cons _ _ (Split_ne_nil _ _), ih]; rfl
    · rw [Split_cons_ne _ _ _ hc]
      cases h2 : Split '/' cs with
      | nil => exact absurd h2 (Split_ne_nil _ _)
      | cons w ws =>
        rw [h2] at ih
        simp only [List.headD_cons, List.tail_cons]
        cases ws with
        | nil =>
          simp only [joinSlash] at ih ⊢; rw [ih]
        | cons w2 ws2 =>
          rw [joinSlash_cons _ _ (List.cons_ne_nil _ _)] at ih ⊢
          rw [← ih]; rfl

theorem Split_joinSlash (es : List Str) (h : es ≠ []) (hs : ∀ e ∈ es, '/' ∉ e) :
    Split '/' (joinSlash es) = es := by
  induction es with
  | nil => exact absurd rfl h
  | cons e es ih =>
    cases es with
    | nil => simp [joinSlash, Split_nosep '/' e (hs e (by simp))]
    | cons e2 es2 =>
      rw [joinSlash_cons _ _ (List.cons_ne_nil _ _), Split_append_sep, Split_nosep '/' e (hs e (by simp)),
        ih (List.cons_ne_nil _ _) (fun x hx => hs x (by simp [hx]))]
      rfl

end

section

open Strings Filepath

theorem Name.normal {n : Str} (h : Name n) : Normal n := ⟨h.1, h.2.1, h.2.2.1⟩

theorem cleanStep_empty (r : Bool) (st : List Str) : cleanStep r st [] = st := by
  simp [cleanStep]

theorem cleanStep_dot (r : Bool) (st : List Str) : cleanStep r st ['.'] = st := by
  simp [cleanStep]

theorem cleanStep_normal (r : Bool) (st : List Str) (c : Str) (h : Normal c) :
    cleanStep r st c = c :: st := by
  obtain ⟨h1, h2, h3⟩ := h
  simp [cleanStep, h1, h2, h3]

theorem cleanStep_dotdot_nil (r : Bool) :
    cleanStep r [] ['.', '.'] = if r then [] else [['.', '.']] := by
  simp [cleanStep]

theorem cleanStep_dotdot_cons (r : Bool) (top : Str) (rest : List Str) :
    cleanStep r (top :: rest) ['.', '.'] =
      if top = ['.', '.'] then (if r then top :: rest else ['.', '.'] :: top :: rest) else rest := by
  simp [cleanStep]

/-- The four kinds of element. -/
theorem elem_cases (c : Str) : c = [] ∨ c = ['.'] ∨ c = ['.', '.'] ∨ Normal c := by
  by_cases h1 : c = []
  · exact Or.inl h1
  by_cases h2 : c = ['.']
  · exact Or.inr (Or.inl h2)
  by_cases h3 : c = ['.', '.']
  · exact Or.inr (Or.inr (Or.inl h3))
  exact Or.inr (Or.inr (Or.inr ⟨h1, h2, h3⟩))

theorem foldl_normal (r : Bool) (st : List Str) (l : List Str) (h : ∀ n ∈ l, Normal n) :
    l.foldl (cleanStep r) st = l.reverse ++ st := by
  induction l generalizing st with
  | nil => rfl
  | cons n ns ih =>
    rw [List.foldl_cons, cleanStep_normal r st n (h n (by simp)),
      ih _ (fun x hx => h x (by simp [hx]))]
    simp

theorem cleanElems_append_normal (r : Bool) (xs l : List Str) (h : ∀ n ∈ l, Normal n) :
    cleanElems r (xs ++ l) = cleanElems r xs ++ l := by
  simp [cleanElems, List.foldl_append, foldl_normal r _ l h]

theorem cleanElems_cons_empty (r : Bool) (xs : List Str) :
    cleanElems r ([] :: xs) = cleanElems r xs := by
  simp [cleanElems, cleanStep_empty]

theorem cleanElems_append_empty (r : Bool) (xs : List Str) :
    cleanElems r (xs ++ [[]]) = cleanElems r xs := by
  simp [cleanElems, List.foldl_append, cleanStep_empty]

/-- Every element on the stack was on it before or was read. -/
theorem mem_cleanStep (r : Bool) (st : List Str) (c x : Str) (h : x ∈ cleanStep r st c) :
    x ∈ st ∨ x = c := by
  rcases elem_cases c with hc | hc | hc | hc
  · subst hc; rw [cleanStep_empty] at h; exact Or.inl h
  · subst hc; rw [cleanStep_dot] at h; exact Or.inl h
  · subst hc
    cases st with
    | nil =>
      rw [cleanStep_dotdot_nil] at h
      cases r <;> simp at h
      exact Or.inr h
    | cons top rest =>
      rw [cleanStep_dotdot_cons] at h
      split at h
      · cases r
        · simp only [Bool.false_eq_true, if_false] at h
          rcases List.mem_cons.mp h with h | h
          · exact Or.inr h
          · exact Or.inl h
        · exact Or.inl h
      · exact Or.inl (List.mem_cons_of_mem _ h)
  · rw [cleanStep_normal _ _ _ hc] at h
    rcases List.mem_cons.mp h with h | h
    · exact Or.inr h
    · exact Or.inl h

theorem mem_foldl_cleanStep (r : Bool) (st xs : List Str) (x : Str)
    (h : x ∈ xs.foldl (cleanStep r) st) : x ∈ st ∨ x ∈ xs := by
  induction xs generalizing st with
  | nil => exact Or.inl h
  | cons c cs ih =>
    rcases ih _ h with h1 | h1
    · rcases mem_cleanStep _ _ _ _ h1 with h2 | h2
      · exact Or.inl h2
      · exact Or.inr (by simp [h2])
    · exact Or.inr (by simp [h1])

theorem mem_cleanElems (r : Bool) (xs : List Str) (x : Str) (h : x ∈ cleanElems r xs) : x ∈ xs := by
  simp only [cleanElems, List.mem_reverse] at h
  rcases mem_foldl_cleanStep _ _ _ _ h with h1 | h1
  · simp at h1
  · exact h1

/-- What stays on the stack is not empty and not `.`; from the root it is
not `..` either. -/
theorem kept_cleanStep (r : Bool) (st : List Str) (c : Str)
    (h : ∀ x ∈ st, x ≠ [] ∧ x ≠ ['.'] ∧ (r = true → x ≠ ['.', '.'])) :
    ∀ x ∈ cleanStep r st c, x ≠ [] ∧ x ≠ ['.'] ∧ (r = true → x ≠ ['.', '.']) := by
  intro x hx
  rcases elem_cases c with hc | hc | hc | hc
  · subst hc; rw [cleanStep_empty] at hx; exact h x hx
  · subst hc; rw [cleanStep_dot] at hx; exact h x hx
  · subst hc
    cases st with
    | nil =>
      rw [cleanStep_dotdot_nil] at hx
      cases r <;> simp at hx
      subst hx; simp
    | cons top rest =>
      rw [cleanStep_dotdot_cons] at hx
      split at hx
      · cases r
        · simp only [Bool.false_eq_true, if_false] at hx
          rcases List.mem_cons.mp hx with hx | hx
          · subst hx; simp
          · exact h x hx
        · exact h x hx
      · exact h x (List.mem_cons_of_mem _ hx)
  · rw [cleanStep_normal _ _ _ hc] at hx
    rcases List.mem_cons.mp hx with hx | hx
    · subst hx; exact ⟨hc.1, hc.2.1, fun _ => hc.2.2⟩
    · exact h x hx

theorem kept_foldl (r : Bool) (st xs : List Str)
    (h : ∀ x ∈ st, x ≠ [] ∧ x ≠ ['.'] ∧ (r = true → x ≠ ['.', '.'])) :
    ∀ x ∈ xs.foldl (cleanStep r) st, x ≠ [] ∧ x ≠ ['.'] ∧ (r = true → x ≠ ['.', '.']) := by
  induction xs generalizing st with
  | nil => exact h
  | cons c cs ih => exact ih _ (kept_cleanStep r st c h)

theorem kept_cleanElems (r : Bool) (xs : List Str) :
    ∀ x ∈ cleanElems r xs, x ≠ [] ∧ x ≠ ['.'] ∧ (r = true → x ≠ ['.', '.']) := by
  intro x hx
  simp only [cleanElems, List.mem_reverse] at hx
  exact kept_foldl r [] xs (by simp) x hx

theorem cleanElems_true_normal (xs : List Str) : ∀ x ∈ cleanElems true xs, Normal x := by
  intro x hx
  obtain ⟨h1, h2, h3⟩ := kept_cleanElems true xs x hx
  exact ⟨h1, h2, h3 rfl⟩

/-- Cleaning a relative path first does not change what it resolves to. -/
theorem foldl_cleanElems_false (r : Bool) (st xs : List Str) :
    (cleanElems false xs).foldl (cleanStep r) st = xs.foldl (cleanStep r) st := by
  induction xs using List.reverseRecOn with
  | nil => rfl
  | append_singleton xs c ih =>
    have hkept := kept_foldl false [] xs (by simp)
    simp only [cleanElems, List.foldl_append, List.foldl_cons, List.foldl_nil] at ih ⊢
    generalize hN : xs.foldl (cleanStep false) [] = N at ih hkept
    rcases elem_cases c with hc | hc | hc | hc
    · subst hc; simp only [cleanStep_empty]; exact ih
    · subst hc; simp only [cleanStep_dot]; exact ih
    · subst hc
      cases N with
      | nil =>
        simp only [cleanStep_dotdot_nil, Bool.false_eq_true, if_false, List.reverse_cons,
          List.reverse_nil, List.nil_append, List.foldl_cons, List.foldl_nil]
        rw [← ih]; rfl
      | cons top rest =>
        rw [cleanStep_dotdot_cons]
        by_cases ht : top = ['.', '.']
        · simp only [ht, if_true, Bool.false_eq_true, if_false, List.reverse_cons,
            List.foldl_append, List.foldl_cons, List.foldl_nil]
          rw [← ih]
          simp [ht]
        · simp only [ht, if_false]
          rw [← ih]
          simp only [List.reverse_cons, List.foldl_append, List.foldl_cons, List.foldl_nil]
          have htn : Normal top := by
            obtain ⟨h1, h2, -⟩ := hkept top (by simp)
            exact ⟨h1, h2, ht⟩
          rw [cleanStep_normal _ _ _ htn, cleanStep_dotdot_cons, if_neg ht]
    · rw [cleanStep_normal _ _ _ hc, ← ih, cleanStep_normal _ _ _ hc]
      simp only [List.reverse_cons, List.foldl_append, List.foldl_cons, List.foldl_nil]
      rw [cleanStep_normal _ _ _ hc]

theorem cleanElems_idem (r : Bool) (xs : List Str) :
    cleanElems r (cleanElems r xs) = cleanElems r xs := by
  cases r with
  | false =>
    show ((cleanElems false xs).foldl (cleanStep false) []).reverse = _
    rw [foldl_cleanElems_false]; rfl
  | true =>
    show ((cleanElems true xs).foldl (cleanStep true) []).reverse = _
    rw [foldl_normal true [] _ (cleanElems_true_normal xs)]
    simp

end

section

open Strings Filepath

theorem joinSlash_ne_nil (e : Str) (es : List Str) (h : e ≠ []) : joinSlash (e :: es) ≠ [] := by
  cases es with
  | nil => exact h
  | cons e2 es2 =>
    rw [joinSlash_cons _ _ (List.cons_ne_nil _ _)]
    cases e with
    | nil => exact absurd rfl h
    | cons _ _ => simp

theorem joinSlash_head (e : Str) (es : List Str) (h : e ≠ []) :
    (joinSlash (e :: es)).head? = e.head? := by
  cases es with
  | nil => rfl
  | cons e2 es2 =>
    rw [joinSlash_cons _ _ (List.cons_ne_nil _ _)]
    cases e with
    | nil => exact absurd rfl h
    | cons _ _ => rfl

theorem render_ne_nil (r : Bool) (E : List Str) (h : ∀ x ∈ E, x ≠ []) : render r E ≠ [] := by
  unfold render
  cases r with
  | true => simp
  | false =>
    cases E with
    | nil => simp
    | cons e es =>
      simp only [Bool.false_eq_true, if_false]
      exact joinSlash_ne_nil e es (h e (by simp))

theorem Clean_ne_nil (p : Str) : Clean p ≠ [] := by
  unfold Clean
  split
  · simp
  · exact render_ne_nil _ _ (fun x hx => (kept_cleanElems _ _ x hx).1)

theorem Join_ne_nil (elems : List Str) (h : ∃ e ∈ elems, e ≠ []) : Join elems ≠ [] := by
  unfold Join
  split
  · next hd =>
    exfalso
    obtain ⟨e, he, hne⟩ := h
    have := List.dropWhile_eq_nil_iff.mp hd e he
    simp at this
    exact hne this
  · exact Clean_ne_nil _

theorem IsAbs_render (r : Bool) (E : List Str) (h1 : ∀ x ∈ E, x ≠ []) (h2 : ∀ x ∈ E, '/' ∉ x) :
    IsAbs (render r E) = r := by
  unfold render IsAbs
  cases r with
  | true => simp
  | false =>
    cases E with
    | nil => simp
    | cons e es =>
      simp only [Bool.false_eq_true, if_false]
      rw [if_neg (List.cons_ne_nil _ _), joinSlash_head e es (h1 e (by simp))]
      have := h2 e (by simp)
      cases e with
      | nil => simp
      | cons c cs =>
        simp only [List.mem_cons, not_or] at this
        simp only [List.head?_cons, Option.some.injEq, decide_eq_false_iff_not]
        exact fun e => this.1 e.symm

theorem Split_render (r : Bool) (E : List Str) (h1 : E ≠ []) (h2 : ∀ x ∈ E, '/' ∉ x) :
    Split '/' (render r E) = if r then [] :: E else E := by
  unfold render
  cases r with
  | true => simp only [if_true]; rw [Split_cons_sep, Split_joinSlash E h1 h2]
  | false => simp only [Bool.false_eq_true, if_false, h1]; exact Split_joinSlash E h1 h2

theorem render_append (r : Bool) (E F : List Str) (h1 : E ≠ []) (h2 : F ≠ []) :
    render r (E ++ F) = render r E ++ '/' :: joinSlash F := by
  unfold render
  cases r with
  | true => simp only [if_true]; rw [joinSlash_append E F h1 h2]; rfl
  | false =>
    have : E ++ F ≠ [] := by simp [h1]
    simp only [Bool.false_eq_true, if_false, h1, this]
    exact joinSlash_append E F h1 h2

theorem CleanPath.ne_nil {x : Str} (h : CleanPath x) : x ≠ [] := by
  obtain ⟨r, E, -, hx, -, hE⟩ := h
  rw [hx]
  exact render_ne_nil r E (fun c hc => by rw [← hE] at hc; exact (kept_cleanElems _ _ c hc).1)

/-- Names appended to a cleaned path: cleaning changes nothing. -/
theorem Clean_append (x t : Str) (hx : CleanPath x) (ht : ∀ n ∈ Split '/' t, Normal n) :
    Clean (x ++ '/' :: t) = x ++ '/' :: t ∧ CleanPath (x ++ '/' :: t) := by
  obtain ⟨r, E, hE, hxe, hs, hfix⟩ := hx
  have hne : ∀ c ∈ E, c ≠ [] := fun c hc => by
    rw [← hfix] at hc; exact (kept_cleanElems _ _ c hc).1
  have hxne : x ≠ [] := by rw [hxe]; exact render_ne_nil r E hne
  have habs : IsAbs (x ++ '/' :: t) = r := by
    have : IsAbs (x ++ '/' :: t) = IsAbs x := by
      cases x with
      | nil => exact absurd rfl hxne
      | cons _ _ => rfl
    rw [this, hxe, IsAbs_render r E hne hs]
  have hsplit : cleanElems r (Split '/' (x ++ '/' :: t)) = E ++ Split '/' t := by
    rw [Split_append_sep, cleanElems_append_normal _ _ _ ht, hxe, Split_render r E hE hs]
    cases r with
    | true => simp only [if_true]; rw [cleanElems_cons_empty, hfix]
    | false => simp only [Bool.false_eq_true, if_false]; rw [hfix]
  have hrender : render r (E ++ Split '/' t) = x ++ '/' :: t := by
    rw [render_append r E _ hE (Split_ne_nil _ _), joinSlash_Split, hxe]
  constructor
  · unfold Clean
    rw [if_neg (by simp), habs, hsplit, hrender]
  · refine ⟨r, E ++ Split '/' t, by simp [hE], hrender.symm, ?_, ?_⟩
    · intro c hc
      rcases List.mem_append.mp hc with h | h
      · exact hs c h
      · exact Split_elems_nosep '/' t c h
    · rw [cleanElems_append_normal _ _ _ ht, hfix]

theorem Split_name (n : Str) (h : Name n) : ∀ m ∈ Split '/' n, Normal m := by
  rw [Split_nosep '/' n h.2.2.2]
  intro m hm
  simp only [List.mem_singleton] at hm
  subst hm
  exact h.normal

/-- The form of `filepath.Join` of anything and a name. -/
theorem Join_name_form (a n : Str) (hn : Name n) :
    ∃ (r : Bool) (E : List Str), Join [a, n] = render r (E ++ [n]) ∧
      (∀ c ∈ E, '/' ∉ c) ∧ cleanElems r E = E := by
  by_cases ha : a = []
  · subst ha
    refine ⟨false, [], ?_, by simp, rfl⟩
    have hne : n ≠ [] := hn.1
    have habs : IsAbs n = false := by
      have := hn.2.2.2
      cases n with
      | nil => rfl
      | cons c cs =>
        simp only [List.mem_cons, not_or] at this
        simp only [IsAbs, List.head?_cons, Option.some.injEq, decide_eq_false_iff_not]
        exact fun e => this.1 e.symm
    simp only [Join, List.dropWhile, decide_True, hne, decide_False, joinSlash, Clean, if_false,
      habs, List.nil_append]
    rw [Split_nosep '/' n hn.2.2.2]
    simp [cleanElems, cleanStep_normal _ _ _ hn.normal]
  · have habs : IsAbs (a ++ '/' :: n) = IsAbs a := by
      cases a with
      | nil => exact absurd rfl ha
      | cons _ _ => rfl
    refine ⟨IsAbs a, cleanElems (IsAbs a) (Split '/' a), ?_, ?_, cleanElems_idem _ _⟩
    · simp only [Join, List.dropWhile, ha, decide_False]
      rw [joinSlash_cons _ _ (List.cons_ne_nil _ _)]
      simp only [joinSlash, Clean]
      rw [if_neg (by simp), habs, Split_append_sep, Split_nosep '/' n hn.2.2.2,
        cleanElems_append_normal _ _ _ (by simpa using hn.normal)]
    · intro c hc
      exact Split_elems_nosep '/' a c (mem_cleanElems _ _ _ hc)

theorem Join_name_cleanPath (a n : Str) (hn : Name n) : CleanPath (Join [a, n]) := by
  obtain ⟨r, E, hj, hs, hfix⟩ := Join_name_form a n hn
  refine ⟨r, E ++ [n], by simp, hj, ?_, ?_⟩
  · intro c hc
    rcases List.mem_append.mp hc with h | h
    · exact hs c h
    · simp only [List.mem_singleton] at h; subst h; exact hn.2.2.2
  · rw [cleanElems_append_normal _ _ _ (by simpa using hn.normal), hfix]

/-- Joining a cleaned path and a name writes the name after a separator. -/
theorem Join_cleanPath_name (x n : Str) (hx : CleanPath x) (hn : Name n) :
    Join [x, n] = x ++ '/' :: n := by
  have hne := hx.ne_nil
  simp only [Join, List.dropWhile, hne, decide_False]
  rw [joinSlash_cons _ _ (List.cons_ne_nil _ _)]
  exact (Clean_append x n hx (Split_name n hn)).1

end

section

open Strings Filepath

/-! ## The cache index -/

theorem checkErr_ok {α : Type} (msg : Str) (a : α) (s : St) :
    checkErr msg (.ok a) s = .ok a s := rfl

theorem checkErr_error {α : Type} (msg e : Str) (s : St) :
    (checkErr msg (.error e : Except Str α)) s =
      .exit { s with out := s.out ++ [.logFail (msg ++ ": ".toList ++ e), .exit 1] } := rfl

theorem readCpwnBasePath_ok (env : Env) (s : St) (home data : Str) (hhome : env.home = .ok home)
    (hcfg : Os.ReadFile s.fs (Join [home, ".cpwn".toList]) = .ok data) :
    readCpwnBasePath env s = .ok (TrimSpace data) s := by
  simp only [readCpwnBasePath, getCpwnPath, Prog.bind_apply, hhome, checkErr_ok, Prog.pure_apply,
    getSt_apply, hcfg, errText]

theorem glibScan_eq (libPath version arch : Str) (entries : List Str) :
    glibScan libPath version arch entries =
      (entries.find? (fun e => version <+: e ∧ arch <:+ e)).map (fun e => Join [libPath, e]) := by
  induction entries with
  | nil => rfl
  | cons e es ih =>
    simp only [glibScan, List.find?_cons, matches_eq_decide]
    by_cases h : version <+: e ∧ arch <:+ e
    · simp [h]
    · simp only [h, decide_False, Bool.false_eq_true, if_false]
      exact ih

theorem ReadDir_ok_Stat (fs : FS) (p : Str) (entries : List Str) (op : Str)
    (h : Os.ReadDir fs p = .ok entries) : ∃ x, Os.Stat op fs p = .ok x := by
  unfold Os.ReadDir at h
  unfold Os.Stat
  cases hn : Os.node fs p with
  | error e => rw [hn] at h; cases h
  | ok x => exact ⟨x, rfl⟩

theorem glib_eq (env : Env) (version arch : Str) (s : St) (home data : Str) (entries : List Str)
    (hhome : env.home = .ok home)
    (hcfg : Os.ReadFile s.fs (Join [home, ".cpwn".toList]) = .ok data)
    (hdir : Os.ReadDir s.fs (Join [TrimSpace data, "libs".toList]) = .ok entries) :
    glib env version arch s =
      match glibScan (Join [TrimSpace data, "libs".toList]) version arch entries with
      | some found => .ok found s
      | none => .ok [] { s with out := s.out ++ [.logFail "No matching glibc found.".toList] } := by
  obtain ⟨x, hx⟩ := ReadDir_ok_Stat s.fs _ entries "stat".toList hdir
  simp only [glib, Prog.bind_apply, readCpwnBasePath_ok env s home data hhome hcfg, getSt_apply, hx,
    Prog.pure_apply, hdir, errText, checkErr_ok, logFail, emit_apply]
  cases glibScan (Join [TrimSpace data, "libs".toList]) version arch entries <;> rfl

/-! ## Substrings -/

theorem Contains_iff (s sub : Str) : Contains s sub = true ↔ sub <:+: s := by
  induction s with
  | nil =>
    simp only [Contains, List.isPrefixOf_iff_prefix]
    constructor
    · intro h; exact h.isInfix
    · intro h
      have := List.eq_nil_of_infix_nil h
      subst this; exact List.prefix_refl _
  | cons c cs ih =>
    simp only [Contains, Bool.or_eq_true, List.isPrefixOf_iff_prefix, ih]
    constructor
    · rintro (h | h)
      · exact h.isInfix
      · exact h.trans (List.suffix_cons c cs).isInfix
    · intro h
      rcases List.infix_cons_iff.mp h with h | h
      · exact Or.inl h
      · exact Or.inr h

end

section

open Strings Filepath

namespace Forest

/-! ## Entries of a directory -/

theorem find_cons (n m : Str) (x : Node) (rest : Forest) :
    (cons m x rest).find n = if m = n then some x else rest.find n := by
  cases x <;> rfl

theorem find_put_same (n : Str) (x : Node) (f : Forest) : (f.put n x).find n = some x := by
  induction f with
  | nil => simp [put, find_cons]
  | file m c rest ih =>
    simp only [put]
    split
    · simp [find_cons]
    · next h => simp [find, h, ih]
  | dir m sub rest _ ih =>
    simp only [put]
    split
    · simp [find_cons]
    · next h => simp [find, h, ih]

theorem find_put_ne (n m : Str) (x : Node) (f : Forest) (h : m ≠ n) :
    (f.put n x).find m = f.find m := by
  induction f with
  | nil => simp [put, find_cons, find, Ne.symm h]
  | file k c rest ih =>
    simp only [put]
    split
    · next hk => subst hk; simp [find_cons, find, Ne.symm h]
    · simp [find, ih]
  | dir k sub rest _ ih =>
    simp only [put]
    split
    · next hk => subst hk; simp [find_cons, find, Ne.symm h]
    · simp [find, ih]

theorem put_cons_same (n : Str) (x y : Node) (rest : Forest) :
    (cons n y rest).put n x = cons n x rest := by
  cases y <;> simp [cons, put]

theorem put_put_same (n : Str) (x y : Node) (f : Forest) : (f.put n y).put n x = f.put n x := by
  induction f with
  | nil => simp only [put]; exact put_cons_same _ _ _ _
  | file m c rest ih =>
    simp only [put]
    split
    · next h => subst h; exact put_cons_same _ _ _ _
    · next h => simp [put, h, ih]
  | dir m sub rest _ ih =>
    simp only [put]
    split
    · next h => subst h; exact put_cons_same _ _ _ _
    · next h => simp [put, h, ih]

theorem put_same (n : Str) (x : Node) (f : Forest) (h : f.find n = some x) : f.put n x = f := by
  induction f with
  | nil => simp [find] at h
  | file m c rest ih =>
    simp only [find] at h
    simp only [put]
    split at h
    · next hm => cases h; simp [hm, cons]
    · next hm => simp [hm, ih h]
  | dir m sub rest _ ih =>
    simp only [find] at h
    simp only [put]
    split at h
    · next hm => cases h; simp [hm, cons]
    · next hm => simp [hm, ih h]

theorem put_cons_ne (n m : Str) (x y : Node) (rest : Forest) (h : m ≠ n) :
    (cons m y rest).put n x = cons m y (rest.put n x) := by
  cases y <;> simp [cons, put, h]

theorem put_comm (a b : Str) (x y : Node) (f : Forest) (hab : a ≠ b)
    (hp : f.find a ≠ none ∨ f.find b ≠ none) :
    (f.put b y).put a x = (f.put a x).put b y := by
  induction f with
  | nil => simp [find] at hp
  | file m c rest ih =>
    by_cases hma : m = a
    · subst hma
      have hmb : m ≠ b := hab
      simp only [put, hmb, if_false, if_true]
      rw [put_cons_ne _ _ _ _ _ hmb]
    · by_cases hmb : m = b
      · subst hmb
        simp only [put, hma, if_false, if_true]
        rw [put_cons_ne _ _ _ _ _ hma]
      · simp only [put, hma, hmb, if_false]
        congr 1
        apply ih
        simpa [find, hma, hmb] using hp
  | dir m sub rest _ ih =>
    by_cases hma : m = a
    · subst hma
      have hmb : m ≠ b := hab
      simp only [put, hmb, if_false, if_true]
      rw [put_cons_ne _ _ _ _ _ hmb]
    · by_cases hmb : m = b
      · subst hmb
        simp only [put, hma, if_false, if_true]
        rw [put_cons_ne _ _ _ _ _ hma]
      · simp only [put, hma, hmb, if_false]
        congr 1
        apply ih
        simpa [find, hma, hmb] using hp

theorem find_of_mem_names (n : Str) (f : Forest) (h : n ∈ f.names) : ∃ x, f.find n = some x := by
  induction f with
  | nil => simp [names] at h
  | file m c rest ih =>
    simp only [names, List.mem_cons] at h
    simp only [find]
    split
    · exact ⟨_, rfl⟩
    · next hm =>
      rcases h with h | h
      · exact absurd h.symm hm
      · exact ih h
  | dir m sub rest _ ih =>
    simp only [names, List.mem_cons] at h
    simp only [find]
    split
    · exact ⟨_, rfl⟩
    · next hm =>
      rcases h with h | h
      · exact absurd h.symm hm
      · exact ih h

theorem mem_names_of_find (n : Str) (f : Forest) (x : Node) (h : f.find n = some x) :
    n ∈ f.names := by
  induction f with
  | nil => simp [find] at h
  | file m c rest ih =>
    simp only [find] at h
    simp only [names, List.mem_cons]
    split at h
    · next hm => exact Or.inl hm.symm
    · exact Or.inr (ih h)
  | dir m sub rest _ ih =>
    simp only [find] at h
    simp only [names, List.mem_cons]
    split at h
    · next hm => exact Or.inl hm.symm
    · exact Or.inr (ih h)

end Forest

theorem mem_insertName (n m : Str) (l : List Str) : m ∈ insertName n l ↔ m = n ∨ m ∈ l := by
  induction l with
  | nil => simp [insertName]
  | cons a as ih =>
    simp only [insertName]
    split
    · simp
    · simp only [List.mem_cons, ih]
      tauto

theorem mem_sortNames (m : Str) (l : List Str) : m ∈ sortNames l ↔ m ∈ l := by
  induction l with
  | nil => simp [sortNames]
  | cons a as ih => simp [sortNames, mem_insertName, ih]

end

section

open Strings Filepath

namespace Forest

theorem lookup_cons (n : Str) (rest : Path) (f : Forest) :
    lookup (n :: rest) f =
      match f.find n with
      | none => .error .ENOENT
      | some (.file c) => if rest = [] then .ok (.file c) else .error .ENOTDIR
      | some (.dir sub) => lookup rest sub := rfl

theorem writeAt_single (n c : Str) (f : Forest) :
    writeAt [n] c f =
      match f.find n with
      | some (.dir _) => .error .EISDIR
      | _ => .ok (f.put n (.file c)) := rfl

theorem writeAt_cons_cons (n m : Str) (rest : Path) (c : Str) (f : Forest) :
    writeAt (n :: m :: rest) c f =
      match f.find n with
      | none => .error .ENOENT
      | some (.file _) => .error .ENOTDIR
      | some (.dir sub) =>
        match writeAt (m :: rest) c sub with
        | .ok sub1 => .ok (f.put n (.dir sub1))
        | .error e => .error e := rfl

/-- Writing twice at a path is writing the second content. -/
theorem writeAt_writeAt (t : Path) (c c1 : Str) (f f1 : Forest) (h : writeAt t c f = .ok f1) :
    writeAt t c1 f1 = writeAt t c1 f := by
  induction t generalizing f f1 with
  | nil => cases h
  | cons n rest ih =>
    cases rest with
    | nil =>
      rw [writeAt_single] at h
      rw [writeAt_single, writeAt_single]
      cases hf : f.find n with
      | none =>
        rw [hf] at h
        simp only [Except.ok.injEq] at h
        subst h
        simp [find_put_same, put_put_same]
      | some x =>
        cases x with
        | dir sub => rw [hf] at h; cases h
        | file d =>
          rw [hf] at h
          simp only [Except.ok.injEq] at h
          subst h
          simp [find_put_same, put_put_same]
    | cons m rest2 =>
      rw [writeAt_cons_cons] at h
      rw [writeAt_cons_cons, writeAt_cons_cons]
      cases hf : f.find n with
      | none => rw [hf] at h; cases h
      | some x =>
        cases x with
        | file d => rw [hf] at h; cases h
        | dir sub =>
          rw [hf] at h
          simp only at h
          cases hw : writeAt (m :: rest2) c sub with
          | error e => rw [hw] at h; cases h
          | ok sub1 =>
            rw [hw] at h
            simp only [Except.ok.injEq] at h
            subst h
            simp only [find_put_same]
            rw [ih sub sub1 hw]
            cases writeAt (m :: rest2) c1 sub with
            | error e => rfl
            | ok sub2 => simp [put_put_same]

/-- Writing a file leaves every other node of the tree what it was: a
directory stays a directory, a file stays a file. -/
theorem lookup_writeAt (t : Path) (c : Str) (f f1 : Forest) (h : writeAt t c f = .ok f1)
    (s : Path) (x : Node) (hx : lookup s f = .ok x) :
    ∃ x1, lookup s f1 = .ok x1 ∧ x1.isDir = x.isDir := by
  induction t generalizing f f1 s x with
  | nil => cases h
  | cons n rest ih =>
    cases s with
    | nil => cases hx; exact ⟨.dir f1, rfl, rfl⟩
    | cons k srest =>
      rw [lookup_cons] at hx ⊢
      cases rest with
      | nil =>
        rw [writeAt_single] at h
        have hf1 : f1 = f.put n (.file c) := by
          cases hf : f.find n with
          | none => rw [hf] at h; simp only [Except.ok.injEq] at h; exact h.symm
          | some y =>
            cases y with
            | dir sub => rw [hf] at h; cases h
            | file d => rw [hf] at h; simp only [Except.ok.injEq] at h; exact h.symm
        subst hf1
        by_cases hk : k = n
        · subst hk
          rw [find_put_same]
          cases hf : f.find k with
          | none => rw [hf] at hx; cases hx
          | some y =>
            cases y with
            | dir sub => rw [hf] at h; cases h
            | file d =>
              rw [hf] at hx
              simp only at hx ⊢
              split at hx
              · next hs => cases hx; exact ⟨.file c, by simp [hs], rfl⟩
              · cases hx
        · rw [find_put_ne _ _ _ _ hk]
          exact ⟨x, hx, rfl⟩
      | cons m rest2 =>
        rw [writeAt_cons_cons] at h
        cases hf : f.find n with
        | none => rw [hf] at h; cases h
        | some y =>
          cases y with
          | file d => rw [hf] at h; cases h
          | dir sub =>
            rw [hf] at h
            simp only at h
            cases hw : writeAt (m :: rest2) c sub with
            | error e => rw [hw] at h; cases h
            | ok sub1 =>
              rw [hw] at h
              simp only [Except.ok.injEq] at h
              subst h
              by_cases hk : k = n
              · subst hk
                rw [find_put_same]
                rw [hf] at hx
                exact ih sub sub1 hw srest x hx
              · rw [find_put_ne _ _ _ _ hk]
                exact ⟨x, hx, rfl⟩

theorem mkdirAll_cons (n : Str) (rest : Path) (f : Forest) :
    mkdirAll (n :: rest) f =
      match f.find n with
      | none =>
        match mkdirAll rest .nil with
        | .ok sub => .ok (f.put n (.dir sub))
        | .error e => .error e
      | some (.file _) => .error .ENOTDIR
      | some (.dir sub) =>
        match mkdirAll rest sub with
        | .ok sub1 => .ok (f.put n (.dir sub1))
        | .error e => .error e := rfl

/-- After `MkdirAll` the path is a directory. -/
theorem lookup_mkdirAll_self (p : Path) (f f1 : Forest) (h : mkdirAll p f = .ok f1) :
    ∃ g, lookup p f1 = .ok (.dir g) := by
  induction p generalizing f f1 with
  | nil => exact ⟨f1, rfl⟩
  | cons n rest ih =>
    rw [mkdirAll_cons] at h
    rw [lookup_cons]
    cases hf : f.find n with
    | none =>
      rw [hf] at h
      simp only at h
      cases hm : mkdirAll rest .nil with
      | error e => rw [hm] at h; cases h
      | ok sub =>
        rw [hm] at h
        simp only [Except.ok.injEq] at h
        subst h
        rw [find_put_same]
        exact ih _ _ hm
    | some y =>
      cases y with
      | file d => rw [hf] at h; cases h
      | dir sub0 =>
        rw [hf] at h
        simp only at h
        cases hm : mkdirAll rest sub0 with
        | error e => rw [hm] at h; cases h
        | ok sub =>
          rw [hm] at h
          simp only [Except.ok.injEq] at h
          subst h
          rw [find_put_same]
          exact ih _ _ hm

/-- `MkdirAll` on a directory changes nothing. -/
theorem mkdirAll_of_dir (p : Path) (f g : Forest) (h : lookup p f = .ok (.dir g)) :
    mkdirAll p f = .ok f := by
  induction p generalizing f with
  | nil => rfl
  | cons n rest ih =>
    rw [lookup_cons] at h
    rw [mkdirAll_cons]
    cases hf : f.find n with
    | none => rw [hf] at h; cases h
    | some y =>
      cases y with
      | file d =>
        rw [hf] at h
        simp only at h
        split at h <;> cases h
      | dir sub =>
        rw [hf] at h
        simp only at h ⊢
        rw [ih sub h]
        simp [put_same _ _ _ hf]

/-- `MkdirAll` leaves every node that exists what it was. -/
theorem lookup_mkdirAll (p : Path) (f f1 : Forest) (h : mkdirAll p f = .ok f1)
    (s : Path) (x : Node) (hx : lookup s f = .ok x) :
    ∃ x1, lookup s f1 = .ok x1 ∧ x1.isDir = x.isDir := by
  induction p generalizing f f1 s x with
  | nil => cases h; exact ⟨x, hx, rfl⟩
  | cons n rest ih =>
    cases s with
    | nil => cases hx; exact ⟨.dir f1, rfl, rfl⟩
    | cons k srest =>
      rw [lookup_cons] at hx ⊢
      rw [mkdirAll_cons] at h
      cases hf : f.find n with
      | none =>
        rw [hf] at h
        simp only at h
        cases hm : mkdirAll rest .nil with
        | error e => rw [hm] at h; cases h
        | ok sub =>
          rw [hm] at h
          simp only [Except.ok.injEq] at h
          subst h
          by_cases hk : k = n
          · subst hk; rw [hf] at hx; cases hx
          · rw [find_put_ne _ _ _ _ hk]; exact ⟨x, hx, rfl⟩
      | some y =>
        cases y with
        | file d => rw [hf] at h; cases h
        | dir sub0 =>
          rw [hf] at h
          simp only at h
          cases hm : mkdirAll rest sub0 with
          | error e => rw [hm] at h; cases h
          | ok sub =>
            rw [hm] at h
            simp only [Except.ok.injEq] at h
            subst h
            by_cases hk : k = n
            · subst hk
              rw [find_put_same]
              rw [hf] at hx
              exact ih _ _ hm srest x hx
            · rw [find_put_ne _ _ _ _ hk]; exact ⟨x, hx, rfl⟩

end Forest

end

section

open Strings Filepath

/-! ## Copying a file twice -/

theorem resolve_cwd (fs fs1 : FS) (h : fs1.cwd = fs.cwd) (p : Str) :
    Os.resolve fs1 p = Os.resolve fs p := by
  simp [Os.resolve, h]

theorem MkdirAll_facts (fs fs1 : FS) (p : Str) (h : Os.MkdirAll fs p = .ok fs1) :
    fs1.cwd = fs.cwd ∧ Os.MkdirAll fs1 p = .ok fs1 ∧
      ∀ q x, Os.node fs q = .ok x → ∃ x1, Os.node fs1 q = .ok x1 ∧ x1.isDir = x.isDir := by
  unfold Os.MkdirAll at h
  split at h
  · cases h
  · next hp =>
    cases hm : fs.root.mkdirAll (Os.resolve fs p) with
    | error e => rw [hm] at h; cases h
    | ok r =>
      rw [hm] at h
      simp only [Except.ok.injEq] at h
      subst h
      refine ⟨rfl, ?_, ?_⟩
      · obtain ⟨g, hg⟩ := Forest.lookup_mkdirAll_self _ _ _ hm
        unfold Os.MkdirAll
        rw [if_neg hp]
        have : Os.resolve { fs with root := r } p = Os.resolve fs p := resolve_cwd _ _ rfl _
        rw [this]
        simp only
        rw [Forest.mkdirAll_of_dir _ _ _ hg]
      · intro q x hq
        unfold Os.node at hq ⊢
        split at hq
        · cases hq
        · next hqe =>
          rw [if_neg hqe]
          have : Os.resolve { fs with root := r } q = Os.resolve fs q := resolve_cwd _ _ rfl _
          rw [this]
          exact Forest.lookup_mkdirAll _ _ _ hm _ _ hq

theorem WriteFile_facts (fs fs1 : FS) (p c : Str) (h : Os.WriteFile fs p c = .ok fs1) :
    fs1.cwd = fs.cwd ∧ (∀ c1, Os.WriteFile fs1 p c1 = Os.WriteFile fs p c1) ∧
      (∀ q x, Os.node fs q = .ok x → ∃ x1, Os.node fs1 q = .ok x1 ∧ x1.isDir = x.isDir) ∧
      (∀ q, Os.MkdirAll fs q = .ok fs → Os.MkdirAll fs1 q = .ok fs1) := by
  unfold Os.WriteFile at h
  split at h
  · cases h
  · next hp =>
    cases hw : fs.root.writeAt (Os.resolve fs p) c with
    | error e => rw [hw] at h; cases h
    | ok r =>
      rw [hw] at h
      simp only [Except.ok.injEq] at h
      subst h
      have hnode : ∀ q x, Os.node fs q = .ok x →
          ∃ x1, Os.node { fs with root := r } q = .ok x1 ∧ x1.isDir = x.isDir := by
        intro q x hq
        unfold Os.node at hq ⊢
        split at hq
        · cases hq
        · next hqe =>
          rw [if_neg hqe]
          have : Os.resolve { fs with root := r } q = Os.resolve fs q := resolve_cwd _ _ rfl _
          rw [this]
          exact Forest.lookup_writeAt _ _ _ _ hw _ _ hq
      refine ⟨rfl, ?_, hnode, ?_⟩
      · intro c1
        unfold Os.WriteFile
        rw [if_neg hp, if_neg hp]
        have : Os.resolve { fs with root := r } p = Os.resolve fs p := resolve_cwd _ _ rfl _
        rw [this]
        simp only
        rw [Forest.writeAt_writeAt _ _ c1 _ _ hw]
      · intro q hq
        unfold Os.MkdirAll at hq ⊢
        split at hq
        · cases hq
        · next hqe =>
          rw [if_neg hqe]
          have hres : Os.resolve { fs with root := r } q = Os.resolve fs q := resolve_cwd _ _ rfl _
          rw [hres]
          cases hm : fs.root.mkdirAll (Os.resolve fs q) with
          | error e => rw [hm] at hq; cases hq
          | ok r1 =>
            obtain ⟨g, hg⟩ := Forest.lookup_mkdirAll_self _ _ _ hm
            rw [hm] at hq
            simp only [Except.ok.injEq] at hq
            have hr1 : r1 = fs.root := by
              have := congrArg FS.root hq
              simpa using this
            rw [hr1] at hg
            obtain ⟨x1, hx1, hd⟩ := Forest.lookup_writeAt _ _ _ _ hw _ _ hg
            cases x1 with
            | file d => simp [Node.isDir] at hd
            | dir g1 =>
              simp only
              rw [Forest.mkdirAll_of_dir _ _ _ hx1]

theorem read_ok_node (fs : FS) (p data : Str) (h : Os.read fs p = .ok data) :
    Os.node fs p = .ok (.file data) := by
  unfold Os.read at h
  cases hn : Os.node fs p with
  | error e => rw [hn] at h; cases h
  | ok x =>
    cases x with
    | dir g => rw [hn] at h; cases h
    | file d => rw [hn] at h; simp only [Except.ok.injEq] at h; rw [h]

theorem Open_eq (fs : FS) (p : Str) :
    Os.Open fs p = match Os.node fs p with
      | .ok x => .ok x
      | .error e => .error ⟨"open".toList, p, e⟩ := rfl

/-- Source: `copyFile`.  A second copy of the same file to the same place
leaves the file system as the first copy left it. -/
theorem copyFile_idem (src dst : Str) (fs : FS) :
    (copyFile src dst (copyFile src dst fs).2).2 = (copyFile src dst fs).2 := by
  cases hopen : Os.Open fs src with
  | error e => simp [copyFile, hopen]
  | ok x0 =>
    cases hmk : Os.MkdirAll fs (Dir dst) with
    | error e => simp [copyFile, hopen, hmk]
    | ok fs1 =>
      obtain ⟨-, hmk1, hn1⟩ := MkdirAll_facts _ _ _ hmk
      have hopen1 : ∃ x1, Os.Open fs1 src = .ok x1 := by
        rw [Open_eq] at hopen
        cases hn : Os.node fs src with
        | error e => rw [hn] at hopen; cases hopen
        | ok x =>
          obtain ⟨x1, hx1, -⟩ := hn1 _ _ hn
          exact ⟨x1, by rw [Open_eq, hx1]⟩
      obtain ⟨x1, hopen1⟩ := hopen1
      cases hcr : Os.Create fs1 dst with
      | error e =>
        have h1 : (copyFile src dst fs).2 = fs1 := by simp [copyFile, hopen, hmk, hcr]
        rw [h1]
        simp [copyFile, hopen1, hmk1, hcr]
      | ok fs2 =>
        obtain ⟨-, hov2, hn2, hmkp2⟩ := WriteFile_facts _ _ _ _ hcr
        have hmk2 := hmkp2 _ hmk1
        have hcr2 : Os.Create fs2 dst = .ok fs2 := by
          unfold Os.Create at hcr ⊢
          rw [hov2, hcr]
        cases hrd : Os.read fs2 src with
        | error e =>
          have h1 : (copyFile src dst fs).2 = fs2 := by simp [copyFile, hopen, hmk, hcr, hrd]
          rw [h1]
          cases hopen2 : Os.Open fs2 src with
          | error e2 => simp [copyFile, hopen2]
          | ok x2 => simp [copyFile, hopen2, hmk2, hcr2, hrd]
        | ok data =>
          have hnode2 := read_ok_node _ _ _ hrd
          have hopen2 : Os.Open fs2 src = .ok (.file data) := by rw [Open_eq, hnode2]
          cases hwr : Os.WriteFile fs2 dst data with
          | error e =>
            have h1 : (copyFile src dst fs).2 = fs2 := by simp [copyFile, hopen, hmk, hcr, hrd, hwr]
            rw [h1]
            simp [copyFile, hopen2, hmk2, hcr2, hrd, hwr]
          | ok fs3 =>
            have h1 : (copyFile src dst fs).2 = fs3 := by simp [copyFile, hopen, hmk, hcr, hrd, hwr]
            rw [h1]
            obtain ⟨-, hov3, hn3, hmkp3⟩ := WriteFile_facts _ _ _ _ hwr
            have hmk3 := hmkp3 _ hmk2
            obtain ⟨x3, hx3, -⟩ := hn3 _ _ hnode2
            have hopen3 : Os.Open fs3 src = .ok x3 := by rw [Open_eq, hx3]
            have hcr3 : Os.Create fs3 dst = .ok fs2 := by
              unfold Os.Create at hcr2 ⊢
              rw [hov3, hcr2]
            simp [copyFile, hopen3, hmk3, hcr3, hrd, hwr]

end

section

open Strings Filepath

/-! ## Resolving the paths the program builds -/

theorem IsAbs_append (x t : Str) (h : x ≠ []) : IsAbs (x ++ t) = IsAbs x := by
  cases x with
  | nil => exact absurd rfl h
  | cons _ _ => rfl

theorem resolve_eq (fs : FS) (p : Str) :
    Os.resolve fs p =
      ((Split '/' p).foldl (cleanStep true)
        ((if IsAbs p then [] else fs.cwd).foldl (cleanStep true) [])).reverse := by
  unfold Os.resolve cleanElems
  split <;> simp [List.foldl_append]

/-- Names appended to a path are appended to what it resolves to. -/
theorem resolve_append (fs : FS) (x t : Str) (hx : x ≠ []) (ht : ∀ n ∈ Split '/' t, Normal n) :
    Os.resolve fs (x ++ '/' :: t) = Os.resolve fs x ++ Split '/' t := by
  rw [resolve_eq, resolve_eq, IsAbs_append x _ hx, Split_append_sep, List.foldl_append,
    foldl_normal true _ _ ht]
  simp

theorem resolve_append_slash (fs : FS) (x : Str) (hx : x ≠ []) :
    Os.resolve fs (x ++ ['/']) = Os.resolve fs x := by
  rw [resolve_eq, resolve_eq, IsAbs_append x _ hx, Split_append_sep, List.foldl_append]
  simp [Split, cleanStep_empty]

theorem IsAbs_Clean (p : Str) (hp : p ≠ []) : IsAbs (Clean p) = IsAbs p := by
  unfold Clean
  rw [if_neg hp]
  exact IsAbs_render _ _ (fun x hx => (kept_cleanElems _ _ x hx).1)
    (fun x hx => Split_elems_nosep '/' p x (mem_cleanElems _ _ _ hx))

/-- A path and its cleaned form resolve to the same node. -/
theorem resolve_Clean (fs : FS) (p : Str) (hp : p ≠ []) :
    Os.resolve fs (Clean p) = Os.resolve fs p := by
  rw [resolve_eq, resolve_eq, IsAbs_Clean p hp]
  have hs : ∀ x ∈ cleanElems (IsAbs p) (Split '/' p), '/' ∉ x :=
    fun x hx => Split_elems_nosep '/' p x (mem_cleanElems _ _ _ hx)
  unfold Clean
  rw [if_neg hp]
  generalize hE : cleanElems (IsAbs p) (Split '/' p) = E at hs
  cases hr : IsAbs p with
  | true =>
    rw [hr] at hE
    simp only [if_true, List.foldl_nil]
    by_cases hEe : E = []
    · subst hEe
      have : (Split '/' p).foldl (cleanStep true) [] = [] := by
        have := congrArg List.reverse hE
        simpa [cleanElems] using this
      rw [this]
      simp [render, joinSlash, Split, cleanStep_empty]
    · rw [Split_render true E hEe hs]
      simp only [if_true, List.foldl_cons, cleanStep_empty]
      have h1 : cleanElems true E = E := by rw [← hE]; exact cleanElems_idem _ _
      have h2 : cleanElems true (Split '/' p) = E := hE
      unfold cleanElems at h1 h2
      rw [h1, h2]
  | false =>
    rw [hr] at hE
    simp only [Bool.false_eq_true, if_false]
    have key := foldl_cleanElems_false true (fs.cwd.foldl (cleanStep true) []) (Split '/' p)
    rw [hE] at key
    rw [← key]
    by_cases hEe : E = []
    · subst hEe
      simp [render, Split, cleanStep_dot]
    · rw [Split_render false E hEe hs]
      simp

theorem resolve_nil (fs : FS) : Os.resolve fs [] = cleanElems true fs.cwd := by
  simp [Os.resolve, IsAbs, Split, cleanElems, List.foldl_append, cleanStep_empty]

/-- `filepath.Join` of a path and a name resolves to the entry of that name in
what the path resolves to. -/
theorem resolve_Join_name (fs : FS) (a n : Str) (hn : Name n) :
    Os.resolve fs (Join [a, n]) = Os.resolve fs a ++ [n] := by
  have hsp : Split '/' n = [n] := Split_nosep '/' n hn.2.2.2
  by_cases ha : a = []
  · subst ha
    have : Join [[], n] = Clean n := by
      simp [Join, List.dropWhile, hn.1, joinSlash]
    rw [this, resolve_Clean fs n hn.1, resolve_nil]
    have habs : IsAbs n = false := by
      have := hn.2.2.2
      cases n with
      | nil => rfl
      | cons c cs =>
        simp only [List.mem_cons, not_or] at this
        simp only [IsAbs, List.head?_cons, Option.some.injEq, decide_eq_false_iff_not]
        exact fun e => this.1 e.symm
    unfold Os.resolve
    rw [habs, hsp]
    simp only [Bool.false_eq_true, if_false]
    rw [cleanElems_append_normal _ _ _ (by simpa using hn.normal)]
  · have : Join [a, n] = Clean (a ++ '/' :: n) := by
      simp only [Join, List.dropWhile, ha, decide_False]
      rw [joinSlash_cons _ _ (List.cons_ne_nil _ _)]; rfl
    rw [this, resolve_Clean fs _ (by simp), resolve_append fs a n ha (Split_name n hn), hsp]

/-- The last element of `filepath.Join` of a path and a name is the name. -/
theorem basename_Join_name (a n : Str) (hn : Name n) : Os.basename (Join [a, n]) = n := by
  obtain ⟨r, E, hj, -, -⟩ := Join_name_form a n hn
  have hform : ∃ pre : Str, Join [a, n] = pre ++ n ∧ (pre = [] ∨ pre.getLast? = some '/') := by
    rw [hj]
    by_cases hE : E = []
    · subst hE
      cases r with
      | true => exact ⟨['/'], by simp [render, joinSlash], Or.inr rfl⟩
      | false => exact ⟨[], by simp [render, joinSlash], Or.inl rfl⟩
    · refine ⟨render r E ++ ['/'], ?_, Or.inr (by simp)⟩
      rw [render_append r E [n] hE (by simp)]
      simp [joinSlash]
  obtain ⟨pre, hp, hpre⟩ := hform
  rw [hp]
  unfold Os.basename
  have hns : ∀ c ∈ n.reverse, c ≠ '/' := by
    intro c hc heq
    subst heq
    exact hn.2.2.2 (List.mem_reverse.mp hc)
  have hrev : n.reverse ≠ [] := by simpa using hn.1
  have h1 : (pre ++ n).reverse.dropWhile (fun c => decide (c = '/')) = n.reverse ++ pre.reverse := by
    rw [List.reverse_append]
    cases hnr : n.reverse with
    | nil => exact absurd hnr hrev
    | cons c cs =>
      have : c ≠ '/' := hns c (by rw [hnr]; simp)
      simp [List.dropWhile, this]
  rw [h1]
  have h2 : (n.reverse ++ pre.reverse).takeWhile (fun c => decide (c ≠ '/')) = n.reverse := by
    rw [List.takeWhile_append_of_pos (by simpa using hns)]
    rcases hpre with h | h
    · subst h; simp
    · have : pre.reverse.head? = some '/' := by simpa using h
      cases hpr : pre.reverse with
      | nil => rw [hpr] at this; cases this
      | cons c cs =>
        rw [hpr] at this
        simp only [List.head?_cons, Option.some.injEq] at this
        subst this
        simp
  cases hnr : n.reverse ++ pre.reverse with
  | nil =>
    have : n.reverse = [] := (List.append_eq_nil.mp hnr).1
    exact absurd this hrev
  | cons c cs =>
    simp only
    rw [← hnr, h2]
    simp

/-- The directory of a name joined to a cleaned path resolves to that path. -/
theorem resolve_Dir_Join (fs : FS) (x n : Str) (hx : CleanPath x) (hn : Name n) :
    Os.resolve fs (Dir (Join [x, n])) = Os.resolve fs x ∧ Dir (Join [x, n]) ≠ [] := by
  rw [Join_cleanPath_name x n hx hn]
  have hns : ∀ c ∈ n.reverse, c ≠ '/' := by
    intro c hc heq
    subst heq
    exact hn.2.2.2 (List.mem_reverse.mp hc)
  have h1 : ((x ++ '/' :: n).reverse.dropWhile (fun c => decide (c ≠ '/'))).reverse = x ++ ['/'] := by
    have : (x ++ '/' :: n).reverse = n.reverse ++ '/' :: x.reverse := by simp
    rw [this, List.dropWhile_append_of_pos (by simpa using hns)]
    simp [List.dropWhile]
  unfold Dir
  rw [h1]
  exact ⟨by rw [resolve_Clean fs _ (by simp), resolve_append_slash fs x hx.ne_nil], Clean_ne_nil _⟩

end

section

open Strings Filepath

namespace Forest

theorem lookup_append (d q : Path) (f g : Forest) (h : lookup d f = .ok (.dir g)) :
    lookup (d ++ q) f = lookup q g := by
  induction d generalizing f with
  | nil => cases h; rfl
  | cons n rest ih =>
    rw [lookup_cons] at h
    rw [List.cons_append, lookup_cons]
    cases hf : f.find n with
    | none => rw [hf] at h; cases h
    | some y =>
      cases y with
      | file c => rw [hf] at h; simp only at h; split at h <;> cases h
      | dir sub => rw [hf] at h; exact ih sub h

theorem lookup_modifyAt (d : Path) (h : Forest → Forest) (f g : Forest)
    (hd : lookup d f = .ok (.dir g)) : lookup d (modifyAt d h f) = .ok (.dir (h g)) := by
  induction d generalizing f with
  | nil => cases hd; rfl
  | cons n rest ih =>
    rw [lookup_cons] at hd
    cases hf : f.find n with
    | none => rw [hf] at hd; cases hd
    | some y =>
      cases y with
      | file c => rw [hf] at hd; simp only at hd; split at hd <;> cases hd
      | dir sub =>
        rw [hf] at hd
        simp only [modifyAt, hf]
        rw [lookup_cons, find_put_same]
        exact ih sub hd

theorem modifyAt_modifyAt (d : Path) (h1 h2 : Forest → Forest) (f g : Forest)
    (hd : lookup d f = .ok (.dir g)) :
    modifyAt d h2 (modifyAt d h1 f) = modifyAt d (fun x => h2 (h1 x)) f := by
  induction d generalizing f with
  | nil => rfl
  | cons n rest ih =>
    rw [lookup_cons] at hd
    cases hf : f.find n with
    | none => rw [hf] at hd; cases hd
    | some y =>
      cases y with
      | file c => rw [hf] at hd; simp only at hd; split at hd <;> cases hd
      | dir sub =>
        rw [hf] at hd
        simp only [modifyAt, hf, find_put_same, put_put_same]
        rw [ih sub hd]

theorem modifyAt_id (d : Path) (h : Forest → Forest) (f g : Forest)
    (hd : lookup d f = .ok (.dir g)) (hg : h g = g) : modifyAt d h f = f := by
  induction d generalizing f with
  | nil => cases hd; exact hg
  | cons n rest ih =>
    rw [lookup_cons] at hd
    cases hf : f.find n with
    | none => rw [hf] at hd; cases hd
    | some y =>
      cases y with
      | file c => rw [hf] at hd; simp only at hd; split at hd <;> cases hd
      | dir sub =>
        rw [hf] at hd
        simp only [modifyAt, hf]
        rw [ih sub hd]
        exact put_same _ _ _ hf

theorem modifyAt_congr (d : Path) (h1 h2 : Forest → Forest) (f g : Forest)
    (hd : lookup d f = .ok (.dir g)) (hg : h1 g = h2 g) : modifyAt d h1 f = modifyAt d h2 f := by
  induction d generalizing f with
  | nil => cases hd; exact hg
  | cons n rest ih =>
    rw [lookup_cons] at hd
    cases hf : f.find n with
    | none => rw [hf] at hd; cases hd
    | some y =>
      cases y with
      | file c => rw [hf] at hd; simp only at hd; split at hd <;> cases hd
      | dir sub =>
        rw [hf] at hd
        simp only [modifyAt, hf]
        rw [ih sub hd]

theorem isDirAt_of_find (g : Forest) (b : Str) (sub : Forest) (h : g.find b = some (.dir sub)) :
    g.isDirAt b = true := by
  simp [isDirAt, h]

theorem find_of_isDirAt (g : Forest) (b : Str) (h : g.isDirAt b = true) :
    ∃ sub, g.find b = some (.dir sub) := by
  unfold isDirAt at h
  cases hf : g.find b with
  | none => rw [hf] at h; cases h
  | some y =>
    cases y with
    | file c => rw [hf] at h; cases h
    | dir sub => exact ⟨sub, rfl⟩

theorem isDirAt_put_ne (g : Forest) (n m : Str) (x : Node) (h : m ≠ n) :
    (g.put n x).isDirAt m = g.isDirAt m := by
  simp [isDirAt, find_put_ne _ _ _ _ h]

theorem isDirAt_put_file (g : Forest) (n c : Str) : (g.put n (.file c)).isDirAt n = false := by
  simp [isDirAt, find_put_same]

/-- Writing an entry of a directory, when that entry is not a directory. -/
theorem writeAt_entry (d : Path) (b c : Str) (f g : Forest) (hd : lookup d f = .ok (.dir g))
    (hb : g.isDirAt b = false) :
    writeAt (d ++ [b]) c f = .ok (modifyAt d (fun x => x.put b (.file c)) f) := by
  induction d generalizing f with
  | nil =>
    cases hd
    rw [List.nil_append, writeAt_single]
    unfold isDirAt at hb
    cases hf : find b g with
    | none => rfl
    | some y =>
      cases y with
      | file c0 => rfl
      | dir sub => rw [hf] at hb; cases hb
  | cons n rest ih =>
    rw [lookup_cons] at hd
    have hne : rest ++ [b] ≠ [] := by simp
    obtain ⟨m, tl, hmt⟩ : ∃ m tl, rest ++ [b] = m :: tl := by
      cases hr : rest ++ [b] with
      | nil => exact absurd hr hne
      | cons m tl => exact ⟨m, tl, rfl⟩
    rw [List.cons_append, hmt, writeAt_cons_cons, ← hmt]
    cases hf : f.find n with
    | none => rw [hf] at hd; cases hd
    | some y =>
      cases y with
      | file c0 => rw [hf] at hd; simp only at hd; split at hd <;> cases hd
      | dir sub =>
        rw [hf] at hd
        simp only [modifyAt, hf]
        rw [ih sub hd]

/-- Writing an entry of a directory fails when that entry is a directory. -/
theorem writeAt_entry_dir (d : Path) (b c : Str) (f g : Forest)
    (hd : lookup d f = .ok (.dir g)) (hb : g.isDirAt b = true) :
    writeAt (d ++ [b]) c f = .error .EISDIR := by
  obtain ⟨sub, hsub⟩ := find_of_isDirAt g b hb
  induction d generalizing f with
  | nil =>
    cases hd
    rw [List.nil_append, writeAt_single, hsub]
  | cons n rest ih =>
    rw [lookup_cons] at hd
    have hne : rest ++ [b] ≠ [] := by simp
    obtain ⟨m, tl, hmt⟩ : ∃ m tl, rest ++ [b] = m :: tl := by
      cases hr : rest ++ [b] with
      | nil => exact absurd hr hne
      | cons m tl => exact ⟨m, tl, rfl⟩
    rw [List.cons_append, hmt, writeAt_cons_cons, ← hmt]
    cases hf : f.find n with
    | none => rw [hf] at hd; cases hd
    | some y =>
      cases y with
      | file c0 => rw [hf] at hd; simp only at hd; split at hd <;> cases hd
      | dir sub0 =>
        rw [hf] at hd
        simp only
        rw [ih sub0 hd]

theorem find_wr_ne (g : Forest) (w : Str × Str) (m : Str) (h : m ≠ w.1) :
    (wr g w).find m = g.find m := by
  unfold wr
  split
  · rfl
  · exact find_put_ne _ _ _ _ h

theorem isDirAt_wr (g : Forest) (w : Str × Str) (m : Str) :
    (wr g w).isDirAt m = g.isDirAt m := by
  unfold wr
  by_cases hd : g.isDirAt w.1 = true
  · rw [if_pos hd]
  · rw [if_neg hd]
    by_cases hm : m = w.1
    · subst hm
      rw [isDirAt_put_file]
      simpa using hd
    · exact isDirAt_put_ne _ _ _ _ hm

theorem find_wr_isSome (g : Forest) (w : Str × Str) (m : Str) (h : g.find m ≠ none) :
    (wr g w).find m ≠ none := by
  by_cases hm : m = w.1
  · unfold wr
    split
    · exact h
    · rw [hm, find_put_same]; simp
  · rw [find_wr_ne _ _ _ hm]; exact h

theorem find_wr_self (g : Forest) (w : Str × Str) : (wr g w).find w.1 ≠ none := by
  unfold wr
  split
  · next h =>
    obtain ⟨sub, hs⟩ := find_of_isDirAt _ _ h
    rw [hs]; simp
  · rw [find_put_same]; simp

theorem find_wr_dir (g : Forest) (w : Str × Str) (m : Str) (sub : Forest)
    (h : g.find m = some (.dir sub)) : (wr g w).find m = some (.dir sub) := by
  by_cases hm : m = w.1
  · unfold wr
    rw [← hm, if_pos (isDirAt_of_find _ _ _ h)]
    exact h
  · rw [find_wr_ne _ _ _ hm]; exact h

theorem wr_wr_same (g : Forest) (b c c1 : Str) : wr (wr g (b, c1)) (b, c) = wr g (b, c) := by
  have h1 := isDirAt_wr g (b, c1) b
  unfold wr at h1 ⊢
  by_cases hd : g.isDirAt b = true
  · simp only [hd, if_true]
  · simp only [hd] at h1 ⊢
    simp only [Bool.false_eq_true, if_false] at h1 ⊢
    rw [if_neg (by simpa using h1), put_put_same]

theorem wr_comm (g : Forest) (a b x y : Str) (hab : a ≠ b) (ha : g.find a ≠ none) :
    wr (wr g (b, y)) (a, x) = wr (wr g (a, x)) (b, y) := by
  have h1 := isDirAt_wr g (b, y) a
  have h2 := isDirAt_wr g (a, x) b
  have ea : ∀ g1 : Forest, wr g1 (a, x) = if g1.isDirAt a then g1 else g1.put a (.file x) :=
    fun _ => rfl
  have eb : ∀ g1 : Forest, wr g1 (b, y) = if g1.isDirAt b then g1 else g1.put b (.file y) :=
    fun _ => rfl
  rw [ea (wr g (b, y)), eb (wr g (a, x)), h1, h2, ea g, eb g]
  by_cases hda : g.isDirAt a = true <;> by_cases hdb : g.isDirAt b = true <;>
    simp only [hda, hdb, if_true, if_false]
  exact put_comm a b _ _ g hab (Or.inl ha)

theorem foldl_wr_find_isSome (g : Forest) (ws : List (Str × Str)) (m : Str) (h : g.find m ≠ none) :
    (ws.foldl wr g).find m ≠ none := by
  induction ws generalizing g with
  | nil => exact h
  | cons w ws ih => exact ih _ (find_wr_isSome g w m h)

theorem foldl_wr_find_dir (g : Forest) (ws : List (Str × Str)) (m : Str) (sub : Forest)
    (h : g.find m = some (.dir sub)) : (ws.foldl wr g).find m = some (.dir sub) := by
  induction ws generalizing g with
  | nil => exact h
  | cons w ws ih => exact ih _ (find_wr_dir g w m sub h)

theorem foldl_wr_find_other (g : Forest) (ws : List (Str × Str)) (m : Str)
    (h : ∀ w ∈ ws, w.1 ≠ m) : (ws.foldl wr g).find m = g.find m := by
  induction ws generalizing g with
  | nil => rfl
  | cons w ws ih =>
    rw [List.foldl_cons, ih _ (fun v hv => h v (by simp [hv]))]
    exact find_wr_ne _ _ _ (Ne.symm (h w (by simp)))

/-- A copy that a later copy in the list overwrites changes nothing in the end. -/
theorem foldl_wr_absorb (g : Forest) (ws : List (Str × Str)) (b c : Str) (hb : g.find b ≠ none)
    (hmem : ∃ w ∈ ws, w.1 = b) : ws.foldl wr (wr g (b, c)) = ws.foldl wr g := by
  induction ws generalizing g with
  | nil => simp at hmem
  | cons w ws ih =>
    obtain ⟨w1, w2⟩ := w
    simp only [List.foldl_cons]
    by_cases hw : w1 = b
    · subst hw; rw [wr_wr_same]
    · have hmem2 : ∃ v ∈ ws, v.1 = b := by
        obtain ⟨v, hv, hvb⟩ := hmem
        rcases List.mem_cons.mp hv with h | h
        · subst h; exact absurd hvb hw
        · exact ⟨v, h, hvb⟩
      rw [← wr_comm g b w1 c w2 (Ne.symm hw) hb]
      exact ih _ (find_wr_isSome _ _ _ hb) hmem2

/-- The same list of copies made a second time changes nothing. -/
theorem foldl_wr_idem (g : Forest) (ws : List (Str × Str)) :
    ws.foldl wr (ws.foldl wr g) = ws.foldl wr g := by
  induction ws generalizing g with
  | nil => rfl
  | cons w ws ih =>
    obtain ⟨b, c⟩ := w
    simp only [List.foldl_cons]
    have hih := ih (wr g (b, c))
    generalize hg1 : ws.foldl wr (wr g (b, c)) = g1 at hih ⊢
    have hb1 : g1.find b ≠ none := by
      rw [← hg1]; exact foldl_wr_find_isSome _ _ _ (find_wr_self g (b, c))
    by_cases hmem : ∃ v ∈ ws, v.1 = b
    · rw [foldl_wr_absorb g1 ws b c hb1 hmem]; exact hih
    · have hother : ∀ v ∈ ws, v.1 ≠ b := fun v hv hvb => hmem ⟨v, hv, hvb⟩
      have hfind : g1.find b = (wr g (b, c)).find b := by
        rw [← hg1]; exact foldl_wr_find_other _ _ _ hother
      have hfix : wr g1 (b, c) = g1 := by
        have e1 : wr g1 (b, c) = if g1.isDirAt b then g1 else g1.put b (.file c) := rfl
        rw [e1]
        by_cases hd : g1.isDirAt b = true
        · rw [if_pos hd]
        · rw [if_neg hd]
          apply put_same
          rw [hfind]
          have hdg : g.isDirAt b = false := by
            have h3 : g1.isDirAt b = (wr g (b, c)).isDirAt b := by
              simp only [isDirAt, hfind]
            rw [isDirAt_wr] at h3
            rw [← h3]; simpa using hd
          simp [wr, hdg, find_put_same]
      rw [hfix]; exact hih

end Forest

end

section

open Strings Filepath

theorem Forest.WF_find (f : Forest) (m : Str) (y : Node) (hf : f.WF) (h : f.find m = some y) :
    Name m ∧ y.WF := by
  induction f with
  | nil => simp [Forest.find] at h
  | file k c rest ih =>
    simp only [Forest.find] at h
    split at h
    · next hk => cases h; subst hk; exact ⟨hf.1, trivial⟩
    · exact ih hf.2 h
  | dir k sub rest _ ih =>
    simp only [Forest.find] at h
    split at h
    · next hk => cases h; subst hk; exact ⟨hf.1, hf.2.1⟩
    · exact ih hf.2.2 h

theorem Forest.WF_lookup (q : Path) (f : Forest) (x : Node) (hf : f.WF)
    (h : Forest.lookup q f = .ok x) : x.WF := by
  induction q generalizing f with
  | nil => cases h; exact hf
  | cons n rest ih =>
    rw [Forest.lookup_cons] at h
    cases hfn : f.find n with
    | none => rw [hfn] at h; cases h
    | some y =>
      cases y with
      | file c =>
        rw [hfn] at h; simp only at h
        split at h
        · cases h; trivial
        · cases h
      | dir sub =>
        rw [hfn] at h
        exact ih sub (Forest.WF_find f n _ hf hfn).2 h

theorem HasSub.modify {d : Path} {b : Str} {sub root : Forest} (h : HasSub d b sub root)
    (ws : List (Str × Str)) :
    HasSub d b sub (Forest.modifyAt d (fun g => ws.foldl Forest.wr g) root) := by
  obtain ⟨g, hg, hb⟩ := h
  exact ⟨_, Forest.lookup_modifyAt d _ root g hg, Forest.foldl_wr_find_dir g ws _ sub hb⟩

theorem HasSub.lookup {d : Path} {b : Str} {sub root : Forest} (h : HasSub d b sub root)
    (q : Path) : Forest.lookup (d ++ b :: q) root = Forest.lookup q sub := by
  obtain ⟨g, hg, hb⟩ := h
  rw [Forest.lookup_append d _ root g hg, Forest.lookup_cons, hb]

theorem modify_nil (d : Path) (root g : Forest) (hg : Forest.lookup d root = .ok (.dir g)) :
    Forest.modifyAt d (fun g => ([] : List (Str × Str)).foldl Forest.wr g) root = root :=
  Forest.modifyAt_id d _ root g hg rfl

theorem modify_append (d : Path) (root g : Forest) (hg : Forest.lookup d root = .ok (.dir g))
    (w1 w2 : List (Str × Str)) :
    Forest.modifyAt d (fun g => w2.foldl Forest.wr g)
        (Forest.modifyAt d (fun g => w1.foldl Forest.wr g) root) =
      Forest.modifyAt d (fun g => (w1 ++ w2).foldl Forest.wr g) root := by
  rw [Forest.modifyAt_modifyAt d _ _ root g hg]
  simp only [List.foldl_append]

/-- One regular file below a directory `b` of the debug directory copied to
the top of the debug directory: the effect on the file system. -/
theorem copyFile_flatten (dd ps name c b : Str) (fs : FS) (sub : Forest) (q : Path)
    (hdd : CleanPath dd) (hname : Name name) (hps : ps ≠ [])
    (hres : Os.resolve fs ps = Os.resolve fs dd ++ b :: q)
    (hb : HasSub (Os.resolve fs dd) b sub fs.root)
    (hq : Forest.lookup q sub = .ok (.file c)) :
    (copyFile ps (Join [dd, name]) fs).2 =
      ⟨Forest.modifyAt (Os.resolve fs dd) (fun g => [(name, c)].foldl Forest.wr g) fs.root,
        fs.cwd⟩ := by
  obtain ⟨g, hg, hbid⟩ := hb
  have hlook : ∀ r : Forest, HasSub (Os.resolve fs dd) b sub r →
      Forest.lookup (Os.resolve fs ps) r = .ok (.file c) := by
    intro r hr
    rw [hres, hr.lookup q, hq]
  have hopen : Os.Open fs ps = .ok (.file c) := by
    rw [Open_eq]
    simp only [Os.node, if_neg hps, hlook fs.root ⟨g, hg, hbid⟩]
  obtain ⟨hdir, hdirne⟩ := resolve_Dir_Join fs dd name hdd hname
  have hmk : Os.MkdirAll fs (Dir (Join [dd, name])) = .ok fs := by
    simp only [Os.MkdirAll, if_neg hdirne, hdir, Forest.mkdirAll_of_dir _ _ _ hg]
  have hdst : Os.resolve fs (Join [dd, name]) = Os.resolve fs dd ++ [name] :=
    resolve_Join_name fs dd name hname
  have hdstne : Join [dd, name] ≠ [] := (Join_name_cleanPath dd name hname).ne_nil
  simp only [List.foldl_cons, List.foldl_nil]
  by_cases hd : g.isDirAt name = true
  · -- the destination is a directory: nothing is written
    have hcr : ∃ e, Os.Create fs (Join [dd, name]) = .error e := by
      simp only [Os.Create, Os.WriteFile, if_neg hdstne, hdst,
        Forest.writeAt_entry_dir _ name [] fs.root g hg hd]
      exact ⟨_, rfl⟩
    obtain ⟨e, hcr⟩ := hcr
    simp only [copyFile, hopen, hmk, hcr]
    have : Forest.modifyAt (Os.resolve fs dd) (fun g => Forest.wr g (name, c)) fs.root = fs.root :=
      Forest.modifyAt_id _ _ _ g hg (by simp [Forest.wr, hd])
    rw [this]
  · have hd' : g.isDirAt name = false := by simpa using hd
    have hne : name ≠ b := by
      intro h
      rw [h, Forest.isDirAt_of_find _ _ _ hbid] at hd'
      cases hd'
    let root2 := Forest.modifyAt (Os.resolve fs dd) (fun x => x.put name (.file [])) fs.root
    have hcr : Os.Create fs (Join [dd, name]) = .ok { fs with root := root2 } := by
      simp only [Os.Create, Os.WriteFile, if_neg hdstne, hdst,
        Forest.writeAt_entry _ name [] fs.root g hg hd', root2]
    have hg2 : Forest.lookup (Os.resolve fs dd) root2 = .ok (.dir (g.put name (.file []))) :=
      Forest.lookup_modifyAt _ _ _ g hg
    have hb2 : HasSub (Os.resolve fs dd) b sub root2 :=
      ⟨_, hg2, by rw [Forest.find_put_ne _ _ _ _ (Ne.symm hne)]; exact hbid⟩
    have hrd : Os.read { fs with root := root2 } ps = .ok c := by
      have hr2 : Os.resolve { fs with root := root2 } ps = Os.resolve fs ps := resolve_cwd _ _ rfl _
      simp only [Os.read, Os.node, if_neg hps, hr2, hlook root2 hb2]
    have hwr : Os.WriteFile { fs with root := root2 } (Join [dd, name]) c =
        .ok ⟨Forest.modifyAt (Os.resolve fs dd) (fun g => Forest.wr g (name, c)) fs.root,
          fs.cwd⟩ := by
      have hr2 : Os.resolve { fs with root := root2 } (Join [dd, name]) = Os.resolve fs dd ++ [name] :=
        (resolve_cwd { fs with root := root2 } fs rfl (Join [dd, name])).trans hdst
      simp only [Os.WriteFile, if_neg hdstne, hr2,
        Forest.writeAt_entry _ name c root2 _ hg2 (Forest.isDirAt_put_file _ _ _)]
      have e1 : Forest.modifyAt (Os.resolve fs dd) (fun x => x.put name (.file c)) root2 =
          Forest.modifyAt (Os.resolve fs dd) (fun g => Forest.wr g (name, c)) fs.root := by
        simp only [root2]
        rw [Forest.modifyAt_modifyAt _ _ _ _ g hg]
        apply Forest.modifyAt_congr _ _ _ _ g hg
        simp [Forest.wr, hd', Forest.put_put_same]
      rw [e1]
    simp only [copyFile, hopen, hmk, hcr, hrd, hwr]

end

section

open Strings Filepath

theorem flattenFn_dir (dd path name : Str) (s : St) :
    flattenFn dd path (some ⟨name, true⟩) none s = .ok () s := rfl

theorem flattenFn_file (dd path name : Str) (s : St) :
    ∃ out, flattenFn dd path (some ⟨name, false⟩) none s =
      .ok () ⟨(copyFile path (Join [dd, name]) s.fs).2, out⟩ := by
  simp only [flattenFn, Bool.false_eq_true, if_false, Prog.bind_apply, getSt_apply, setFS_apply,
    logFail]
  cases (copyFile path (Join [dd, name]) s.fs).1 with
  | none => exact ⟨_, rfl⟩
  | some e => exact ⟨_, rfl⟩

theorem Lstat_of_node (fs : FS) (p : Str) (x : Node) (h : Os.node fs p = .ok x) :
    Os.Lstat fs p = .ok ⟨Os.basename p, x.isDir⟩ := by
  unfold Os.Lstat
  rw [h]
  cases x <;> rfl

/-- The walk below `.build-id` changes the file system by the copies of the
files it finds, and nothing else. -/
theorem walk_spec (dd : Str) (hdd : CleanPath dd) (sub : Forest) (n : Nat) :
    ∀ (ps : Str) (q : Path) (x : Node) (st : St),
      HasBuildId (Os.resolve st.fs dd) sub st.fs.root →
      Forest.lookup q sub = .ok x → x.WF → ps ≠ [] →
      Os.resolve st.fs ps = Os.resolve st.fs dd ++ ".build-id".toList :: q →
      Name (Os.basename ps) →
      ∃ out, walk (flattenFn dd) n ps ⟨Os.basename ps, x.isDir⟩ st =
        .ok () ⟨⟨Forest.modifyAt (Os.resolve st.fs dd)
          (fun g => (found n x (Os.basename ps)).foldl Forest.wr g) st.fs.root, st.fs.cwd⟩, out⟩ := by
  induction n with
  | zero =>
    intro ps q x st hb _ _ _ _ _
    obtain ⟨g, hg, -⟩ := hb
    refine ⟨st.out, ?_⟩
    simp only [walk, found]
    rw [modify_nil _ _ g hg]
    rfl
  | succ n ih =>
    intro ps q x st hb hq hwf hps hres hname
    rw [walk]
    cases x with
    | file c =>
      simp only [Node.isDir, Bool.not_false, if_true, found]
      obtain ⟨out, ho⟩ := flattenFn_file dd ps (Os.basename ps) st
      refine ⟨out, ?_⟩
      rw [ho, copyFile_flatten dd ps _ c _ st.fs sub q hdd hname hps hres hb hq]
    | dir f =>
      simp only [Node.isDir, Bool.not_true, Bool.false_eq_true, if_false, Prog.bind_apply,
        getSt_apply]
      have hnode : Os.node st.fs ps = .ok (.dir f) := by
        simp only [Os.node, if_neg hps, hres, hb.lookup q, hq]
      have hrd : Os.ReadDir st.fs ps = .ok (sortNames f.names) := by
        simp only [Os.ReadDir, hnode]
      rw [hrd]
      simp only [Prog.bind_apply, flattenFn_dir]
      -- the loop over the names of the directory
      have loop : ∀ (body : Str → Prog Unit),
          (∀ name s1, body name s1 =
            match Os.Lstat s1.fs (Join [ps, name]) with
            | .error e => flattenFn dd (Join [ps, name]) none (some e) s1
            | .ok fileInfo => walk (flattenFn dd) n (Join [ps, name]) fileInfo s1) →
          ∀ (ms : List Str), (∀ m ∈ ms, m ∈ f.names) → ∀ (st1 : St),
          st1.fs.cwd = st.fs.cwd → HasBuildId (Os.resolve st.fs dd) sub st1.fs.root →
          ∃ out, forEach ms body st1 =
            .ok () ⟨⟨Forest.modifyAt (Os.resolve st.fs dd)
              (fun g => (gather (fun m => match f.find m with
                | some y => found n y m
                | none => []) ms).foldl Forest.wr g) st1.fs.root, st.fs.cwd⟩, out⟩ := by
        intro body hbody ms
        induction ms with
        | nil =>
          intro _ st1 hcwd hb1
          obtain ⟨g, hg, -⟩ := hb1
          refine ⟨st1.out, ?_⟩
          simp only [forEach, gather, Prog.pure_apply]
          rw [modify_nil _ _ g hg, ← hcwd]
        | cons m ms ihm =>
          intro hms st1 hcwd hb1
          have hm : m ∈ f.names := hms m (by simp)
          obtain ⟨y, hy⟩ := Forest.find_of_mem_names m f hm
          obtain ⟨hmname, hywf⟩ := Forest.WF_find f m y hwf hy
          have hres1 : ∀ p, Os.resolve st1.fs p = Os.resolve st.fs p :=
            fun p => resolve_cwd _ _ hcwd p
          have hjres : Os.resolve st1.fs (Join [ps, m]) =
              Os.resolve st1.fs dd ++ ".build-id".toList :: (q ++ [m]) := by
            rw [resolve_Join_name _ _ _ hmname, hres1 ps, hres1 dd, hres]
            simp
          have hjne : Join [ps, m] ≠ [] := (Join_name_cleanPath ps m hmname).ne_nil
          have hqm : Forest.lookup (q ++ [m]) sub = .ok y := by
            rw [Forest.lookup_append q [m] sub f hq, Forest.lookup_cons, hy]
            cases y <;> rfl
          have hb1' : HasBuildId (Os.resolve st1.fs dd) sub st1.fs.root := by
            rw [hres1 dd]; exact hb1
          have hnode1 : Os.node st1.fs (Join [ps, m]) = .ok y := by
            simp only [Os.node, if_neg hjne, hjres, hb1'.lookup (q ++ [m]), hqm]
          have hbase : Os.basename (Join [ps, m]) = m := basename_Join_name ps m hmname
          obtain ⟨out1, ho1⟩ := ih (Join [ps, m]) (q ++ [m]) y st1 hb1' hqm hywf hjne hjres
            (by rw [hbase]; exact hmname)
          simp only [forEach, Prog.bind, hbody, Lstat_of_node _ _ _ hnode1, ho1]
          have hb2 := hb1.modify (found n y m)
          obtain ⟨g1, hg1, -⟩ := hb1
          obtain ⟨out2, ho2⟩ := ihm (fun k hk => hms k (by simp [hk]))
            ⟨⟨Forest.modifyAt (Os.resolve st.fs dd)
              (fun g => (found n y m).foldl Forest.wr g) st1.fs.root, st1.fs.cwd⟩, out1⟩ hcwd hb2
          refine ⟨out2, ?_⟩
          rw [hres1 dd, hbase, ho2]
          simp only [gather, hy]
          rw [modify_append _ _ g1 hg1]
      simp only [found]
      refine loop _ (fun name s1 => ?_) (sortNames f.names)
        (fun m hm => (mem_sortNames m f.names).mp hm) st rfl hb
      show (getSt >>= _) s1 = _
      rw [Prog.bind_apply, getSt_apply]
      dsimp only
      cases Os.Lstat s1.fs (Join [ps, name]) <;> rfl

end

section

open Strings Filepath

/-! ## Relocating debug symbols twice -/

/-- The file system a copy leaves is one of five, by how far the copy gets. -/
theorem copyFile_cases (src dst : Str) (fs : FS) :
    (copyFile src dst fs).2 = fs ∨
    (∃ fs1, Os.MkdirAll fs (Dir dst) = .ok fs1 ∧ ((copyFile src dst fs).2 = fs1 ∨
      ∃ fs2, Os.Create fs1 dst = .ok fs2 ∧ ((copyFile src dst fs).2 = fs2 ∨
        ∃ data fs3, Os.WriteFile fs2 dst data = .ok fs3 ∧ (copyFile src dst fs).2 = fs3))) := by
  cases hopen : Os.Open fs src with
  | error e => left; simp only [copyFile, hopen]
  | ok x0 =>
    cases hmk : Os.MkdirAll fs (Dir dst) with
    | error e => left; simp only [copyFile, hopen, hmk]
    | ok fs1 =>
      right
      refine ⟨fs1, rfl, ?_⟩
      cases hcr : Os.Create fs1 dst with
      | error e => left; simp only [copyFile, hopen, hmk, hcr]
      | ok fs2 =>
        right
        refine ⟨fs2, rfl, ?_⟩
        cases hrd : Os.read fs2 src with
        | error e => left; simp only [copyFile, hopen, hmk, hcr, hrd]
        | ok data =>
          cases hwr : Os.WriteFile fs2 dst data with
          | error e => left; simp only [copyFile, hopen, hmk, hcr, hrd, hwr]
          | ok fs3 =>
            right
            exact ⟨data, fs3, hwr, by simp only [copyFile, hopen, hmk, hcr, hrd, hwr]⟩

theorem copyFile_cwd (src dst : Str) (fs : FS) : (copyFile src dst fs).2.cwd = fs.cwd := by
  rcases copyFile_cases src dst fs with h | ⟨fs1, hmk, h | ⟨fs2, hcr, h | ⟨data, fs3, hwr, h⟩⟩⟩
  · rw [h]
  · rw [h]; exact (MkdirAll_facts _ _ _ hmk).1
  · rw [h]; exact (WriteFile_facts _ _ _ _ hcr).1.trans (MkdirAll_facts _ _ _ hmk).1
  · rw [h]
    exact (WriteFile_facts _ _ _ _ hwr).1.trans
      ((WriteFile_facts _ _ _ _ hcr).1.trans (MkdirAll_facts _ _ _ hmk).1)

/-- A copy leaves every node that exists what it was: a directory or a file. -/
theorem copyFile_node (src dst : Str) (fs : FS) (q : Str) (x : Node) (hx : Os.node fs q = .ok x) :
    ∃ x1, Os.node (copyFile src dst fs).2 q = .ok x1 ∧ x1.isDir = x.isDir := by
  rcases copyFile_cases src dst fs with h | ⟨fs1, hmk, h | ⟨fs2, hcr, h | ⟨data, fs3, hwr, h⟩⟩⟩
  · rw [h]; exact ⟨x, hx, rfl⟩
  · rw [h]; exact (MkdirAll_facts _ _ _ hmk).2.2 q x hx
  · rw [h]
    obtain ⟨x1, hx1, hd1⟩ := (MkdirAll_facts _ _ _ hmk).2.2 q x hx
    obtain ⟨x2, hx2, hd2⟩ := (WriteFile_facts _ _ _ _ hcr).2.2.1 q x1 hx1
    exact ⟨x2, hx2, hd2.trans hd1⟩
  · rw [h]
    obtain ⟨x1, hx1, hd1⟩ := (MkdirAll_facts _ _ _ hmk).2.2 q x hx
    obtain ⟨x2, hx2, hd2⟩ := (WriteFile_facts _ _ _ _ hcr).2.2.1 q x1 hx1
    obtain ⟨x3, hx3, hd3⟩ := (WriteFile_facts _ _ _ _ hwr).2.2.1 q x2 hx2
    exact ⟨x3, hx3, hd3.trans (hd2.trans hd1)⟩

theorem Forest.lookup_append_single (d : Path) (b : Str) (f : Forest) (x : Node)
    (h : Forest.lookup (d ++ [b]) f = .ok x) :
    ∃ g, Forest.lookup d f = .ok (.dir g) ∧ g.find b = some x := by
  induction d generalizing f with
  | nil =>
    rw [List.nil_append, Forest.lookup_cons] at h
    refine ⟨f, rfl, ?_⟩
    cases hf : f.find b with
    | none => rw [hf] at h; cases h
    | some y =>
      rw [hf] at h
      cases y with
      | file c => simp only [if_true] at h; cases h; rfl
      | dir sub => cases h; rfl
  | cons n rest ih =>
    rw [List.cons_append, Forest.lookup_cons] at h
    rw [Forest.lookup_cons]
    cases hf : f.find n with
    | none => rw [hf] at h; cases h
    | some y =>
      rw [hf] at h
      cases y with
      | file c =>
        simp only at h
        rw [if_neg (by simp)] at h
        cases h
      | dir sub => exact ih sub h

theorem buildId_name : Name ".build-id".toList := by decide

theorem debug_name : Name ".debug".toList := by decide

/-- The path `fixDebugSymbols` gives to `filepath.Walk`. -/
theorem walkRoot_facts (fs : FS) (dd : Str) (hdd : CleanPath dd) :
    dd ++ "/.build-id".toList = Join [dd, ".build-id".toList] ∧
      dd ++ "/.build-id".toList ≠ [] ∧
      Os.resolve fs (dd ++ "/.build-id".toList) = Os.resolve fs dd ++ [".build-id".toList] ∧
      Os.basename (dd ++ "/.build-id".toList) = ".build-id".toList := by
  have h1 : dd ++ "/.build-id".toList = Join [dd, ".build-id".toList] :=
    (Join_cleanPath_name dd _ hdd buildId_name).symm
  refine ⟨h1, by simp, ?_, ?_⟩
  · rw [h1]; exact resolve_Join_name fs dd _ buildId_name
  · rw [h1]; exact basename_Join_name dd _ buildId_name

/-- The file system `filepath.Walk` leaves, by what `.build-id` is. -/
theorem Walk_fs (dd : Str) (hdd : CleanPath dd) (s : St) :
    (∀ e, Os.node s.fs (dd ++ "/.build-id".toList) = .error e →
      (Walk (dd ++ "/.build-id".toList) (flattenFn dd) s).st.fs = s.fs) ∧
    (∀ c, Os.node s.fs (dd ++ "/.build-id".toList) = .ok (.file c) →
      (Walk (dd ++ "/.build-id".toList) (flattenFn dd) s).st.fs =
        (copyFile (dd ++ "/.build-id".toList) (dd ++ "/.build-id".toList) s.fs).2) ∧
    (∀ sub, Os.node s.fs (dd ++ "/.build-id".toList) = .ok (.dir sub) → sub.WF →
      HasBuildId (Os.resolve s.fs dd) sub s.fs.root ∧
      (Walk (dd ++ "/.build-id".toList) (flattenFn dd) s).st.fs =
        ⟨Forest.modifyAt (Os.resolve s.fs dd)
          (fun g => (found (sub.height + 2) (.dir sub) ".build-id".toList).foldl Forest.wr g)
          s.fs.root, s.fs.cwd⟩) := by
  obtain ⟨hjoin, hne, hres, hbase⟩ := walkRoot_facts s.fs dd hdd
  refine ⟨?_, ?_, ?_⟩
  · intro e he
    simp only [Walk, Prog.bind_apply, getSt_apply, Os.Lstat, he]
    rfl
  · intro c hc
    simp only [Walk, Prog.bind_apply, getSt_apply, Lstat_of_node _ _ _ hc, hc, walkFuel, walk,
      Node.isDir, Bool.not_false, if_true, hbase]
    obtain ⟨out, ho⟩ := flattenFn_file dd (dd ++ "/.build-id".toList) ".build-id".toList s
    rw [ho, ← hjoin]
    rfl
  · intro sub hsub hwf
    have hlook : Forest.lookup (Os.resolve s.fs dd ++ [".build-id".toList]) s.fs.root =
        .ok (.dir sub) := by
      simpa only [Os.node, if_neg hne, hres] using hsub
    obtain ⟨g, hg, hb⟩ := Forest.lookup_append_single _ _ _ _ hlook
    have hbid : HasBuildId (Os.resolve s.fs dd) sub s.fs.root := ⟨g, hg, hb⟩
    refine ⟨hbid, ?_⟩
    simp only [Walk, Prog.bind_apply, getSt_apply, Lstat_of_node _ _ _ hsub, hsub, walkFuel]
    obtain ⟨out, ho⟩ := walk_spec dd hdd sub (sub.height + 2) (dd ++ "/.build-id".toList) []
      (.dir sub) s hbid rfl hwf hne hres (by rw [hbase]; exact buildId_name)
    rw [ho, hbase]
    rfl

/-- Source: `fixDebugSymbols`, the branch from 2.30 on.  A walk that starts in
the file system a first walk left changes nothing. -/
theorem Walk_idem (dd : Str) (hdd : CleanPath dd) (s : St) (hwf : s.fs.root.WF) (s1 : St)
    (hs1 : s1.fs = (Walk (dd ++ "/.build-id".toList) (flattenFn dd) s).st.fs) :
    (Walk (dd ++ "/.build-id".toList) (flattenFn dd) s1).st.fs = s1.fs := by
  obtain ⟨hjoin, hne, hres, hbase⟩ := walkRoot_facts s.fs dd hdd
  obtain ⟨herr, hfile, hdir⟩ := Walk_fs dd hdd s
  obtain ⟨herr1, hfile1, hdir1⟩ := Walk_fs dd hdd s1
  rw [← hs1] at herr hfile hdir
  cases hnode : Os.node s.fs (dd ++ "/.build-id".toList) with
  | error e =>
    have h1 := herr e hnode
    rw [h1] at herr1 hfile1 hdir1 ⊢
    exact herr1 e hnode
  | ok x =>
    cases x with
    | file c =>
      have h1 := hfile c hnode
      obtain ⟨x1, hx1, hd1⟩ := copyFile_node (dd ++ "/.build-id".toList)
        (dd ++ "/.build-id".toList) s.fs _ _ hnode
      rw [← h1] at hx1
      cases x1 with
      | dir g => simp [Node.isDir] at hd1
      | file c1 =>
        rw [hfile1 c1 hx1, h1]
        exact copyFile_idem _ _ _
    | dir sub =>
      have hsubwf : sub.WF := by
        have hlook : Forest.lookup (Os.resolve s.fs (dd ++ "/.build-id".toList)) s.fs.root =
            .ok (.dir sub) := by
          simpa only [Os.node, if_neg hne] using hnode
        exact Forest.WF_lookup _ _ _ hwf hlook
      obtain ⟨hbid, h1⟩ := hdir sub hnode hsubwf
      have hcwd : s1.fs.cwd = s.fs.cwd := by rw [h1]
      have hr1 : ∀ p, Os.resolve s1.fs p = Os.resolve s.fs p := fun p => resolve_cwd _ _ hcwd p
      have hbid1 : HasBuildId (Os.resolve s1.fs dd) sub s1.fs.root := by
        rw [hr1 dd, h1]
        exact hbid.modify _
      have hnode1 : Os.node s1.fs (dd ++ "/.build-id".toList) = .ok (.dir sub) := by
        simp only [Os.node, if_neg hne, hr1, hres]
        have := hbid1.lookup []
        rw [hr1 dd] at this
        exact this
      obtain ⟨-, h2⟩ := hdir1 sub hnode1 hsubwf
      rw [h2, hr1 dd, h1]
      obtain ⟨g, hg, -⟩ := hbid
      simp only
      rw [modify_append _ _ g hg]
      congr 1
      apply Forest.modifyAt_congr _ _ _ _ g hg
      rw [List.foldl_append, Forest.foldl_wr_idem]

end

section

open Strings Filepath

/-! ## The depth bound of the walk is enough -/

theorem gather_congr (g1 g2 : Str → List (Str × Str)) (ms : List Str)
    (h : ∀ m ∈ ms, g1 m = g2 m) : gather g1 ms = gather g2 ms := by
  induction ms with
  | nil => rfl
  | cons m ms ih =>
    simp only [gather]
    rw [h m (by simp), ih (fun k hk => h k (by simp [hk]))]

theorem Forest.height_find (f : Forest) (m : Str) (sub : Forest)
    (h : f.find m = some (.dir sub)) : sub.height + 1 ≤ f.height := by
  induction f with
  | nil => simp [Forest.find] at h
  | file k c rest ih =>
    simp only [Forest.find] at h
    split at h
    · cases h
    · simp only [Forest.height]; exact ih h
  | dir k s rest _ ih =>
    simp only [Forest.find] at h
    simp only [Forest.height]
    split at h
    · cases h; exact le_max_left _ _
    · exact le_trans (ih h) (le_max_right _ _)

/-- More depth than a node needs finds the same files. -/
theorem found_succ (k : Nat) : ∀ (x : Node) (name : Str), x.depth ≤ k →
    found (k + 1) x name = found k x name := by
  induction k with
  | zero =>
    intro x name h
    cases x <;> simp [Node.depth] at h
  | succ k ih =>
    intro x name h
    cases x with
    | file c => rfl
    | dir f =>
      simp only [Node.depth] at h
      simp only [found]
      apply gather_congr
      intro m _
      cases hf : f.find m with
      | none => rfl
      | some y =>
        simp only
        apply ih
        cases y with
        | file c => simp only [Node.depth]; omega
        | dir sub =>
          have := Forest.height_find f m sub hf
          simp only [Node.depth]; omega

theorem found_enough (x : Node) (name : Str) (n : Nat) (h : x.depth ≤ n) :
    found n x name = found x.depth x name := by
  induction n with
  | zero =>
    have : x.depth = 0 := by omega
    rw [this]
  | succ n ih =>
    by_cases hn : x.depth ≤ n
    · rw [found_succ n x name hn, ih hn]
    · have : x.depth = n + 1 := by omega
      rw [this]

/-- The recursion of `walk` is bounded in the model; the bound `Walk` uses is
enough: with any larger bound the walk leaves the same file system. -/
theorem walk_depth_enough (dd : Str) (hdd : CleanPath dd) (s : St) (sub : Forest)
    (hnode : Os.node s.fs (dd ++ "/.build-id".toList) = .ok (.dir sub)) (hwf : sub.WF)
    (n : Nat) (hn : sub.height + 2 ≤ n) :
    ∃ out, walk (flattenFn dd) n (dd ++ "/.build-id".toList) ⟨".build-id".toList, true⟩ s =
      .ok () ⟨(Walk (dd ++ "/.build-id".toList) (flattenFn dd) s).st.fs, out⟩ := by
  obtain ⟨-, hne, hres, hbase⟩ := walkRoot_facts s.fs dd hdd
  obtain ⟨hbid, hfs⟩ := (Walk_fs dd hdd s).2.2 sub hnode hwf
  obtain ⟨out, ho⟩ := walk_spec dd hdd sub n (dd ++ "/.build-id".toList) []
    (.dir sub) s hbid rfl hwf hne hres (by rw [hbase]; exact buildId_name)
  rw [hbase] at ho
  refine ⟨out, ?_⟩
  have hf : found n (.dir sub) ".build-id".toList =
      found (sub.height + 2) (.dir sub) ".build-id".toList := found_enough (.dir sub) _ n hn
  rw [hfs, ← hf]
  exact ho

/-! ## Relocation twice -/

theorem copyNested_fs (version d arch : Str) (s : St) :
    (copyNested version d arch s).st.fs =
      (copyFile (Join [d, "lib/".toList ++ arch ++ "-linux-gnu".toList,
          "libc-".toList ++ version ++ ".so".toList])
        (Join [d, "libc-".toList ++ version ++ ".so".toList]) s.fs).2 := by
  simp only [copyNested, Prog.bind_apply, getSt_apply, setFS_apply, logFail, logSuccess]
  cases (copyFile (Join [d, "lib/".toList ++ arch ++ "-linux-gnu".toList,
      "libc-".toList ++ version ++ ".so".toList])
    (Join [d, "libc-".toList ++ version ++ ".so".toList]) s.fs).1 <;> rfl

theorem flattenBuildId_fs (d : Str) (s : St) :
    (flattenBuildId d s).st.fs = (Walk (d ++ "/.build-id".toList) (flattenFn d) s).st.fs := by
  obtain ⟨s1, h1, h2, -⟩ := flattenBuildId_last d s
  rw [h1]; exact h2

end

section

open Strings Filepath

theorem CombinedOutput_apply (env : Env) (argv : List Str) (s : St) :
    CombinedOutput env argv s =
      match (env.run argv s.fs).startErr with
      | some e => .ok ([], some e) { s with out := s.out ++ [.exec argv] }
      | none => .ok ((env.run argv s.fs).output, (env.run argv s.fs).waitErr)
          { fs := (env.run argv s.fs).fs, out := s.out ++ [.exec argv] } := rfl

theorem CombinedOutput_eq (env : Env) (argv : List Str) (s : St) :
    CombinedOutput env argv s =
      .ok (procOutput (env.run argv s.fs), procError (env.run argv s.fs))
        { fs := procFS (env.run argv s.fs) s.fs, out := s.out ++ [.exec argv] } := by
  rw [CombinedOutput_apply]
  unfold procOutput procError procFS
  cases (env.run argv s.fs).startErr <;> rfl

/-- When the patch tool fails, `executePatchelf` reports it and returns: the
diagnostic tool is not started. -/
theorem executePatchelf_fail (env : Env) (file ld glibPath : Str) (s : St) (err : Str)
    (h : procError (env.run (patchArgv file ld glibPath) s.fs) = some err) :
    executePatchelf env file ld glibPath s =
      .ok () { fs := procFS (env.run (patchArgv file ld glibPath) s.fs) s.fs,
               out := s.out ++ [.logInfo "Applying patchelf...".toList,
                 .exec (patchArgv file ld glibPath),
                 .logFail ("Error executing patchelf: ".toList ++ err ++ [Char.ofNat 10] ++
                   procOutput (env.run (patchArgv file ld glibPath) s.fs))] } := by
  have h1 : procError (env.run ["patchelf".toList, "--set-interpreter".toList, ld,
      "--set-rpath".toList, glibPath, file] s.fs) = some err := h
  simp only [executePatchelf, logInfo, logFail, Prog.bind_apply, emit_apply, CombinedOutput_eq, h1,
    patchArgv, List.append_assoc, List.cons_append, List.nil_append]

/-- When the patch tool succeeds, the diagnostic tool runs, and its outcome is
reported. -/
theorem executePatchelf_ok (env : Env) (file ld glibPath : Str) (s : St)
    (h : procError (env.run (patchArgv file ld glibPath) s.fs) = none) :
    executePatchelf env file ld glibPath s =
      .ok () (afterLdd env file (afterPatch env file ld glibPath s)) := by
  have h1 : procError (env.run ["patchelf".toList, "--set-interpreter".toList, ld,
      "--set-rpath".toList, glibPath, file] s.fs) = none := h
  simp only [executePatchelf, logInfo, logFail, logSuccess, Prog.bind_apply, emit_apply,
    CombinedOutput_eq, h1, afterPatch, afterLdd, patchArgv, List.append_assoc, List.cons_append,
    List.nil_append]
  generalize procError (env.run ["ldd".toList, file] _) = pe
  cases pe <;> simp only [emit_apply, List.append_assoc, List.cons_append, List.nil_append]

/-- The relocation of debug symbols goes on to its end and starts no process. -/
theorem fixDebugSymbols_silent (version glibPath : Str) (s : St) :
    ∃ s1 evs, fixDebugSymbols version glibPath s = .ok () s1 ∧ s1.out = s.out ++ evs ∧
      evs ≠ [] ∧ ∀ argv, Event.exec argv ∉ evs := by
  unfold fixDebugSymbols
  simp only
  split
  · exact ⟨_, [_], rfl, rfl, by simp, by simp⟩
  · split
    · exact ⟨_, [_], rfl, rfl, by simp, by simp⟩
    · split
      · simp only [copyNested, Prog.bind_apply, getSt_apply, setFS_apply, logFail, logSuccess]
        generalize (copyFile _ _ s.fs).1 = r1
        cases r1 with
        | some e => exact ⟨_, [_], rfl, rfl, by simp, by simp⟩
        | none => exact ⟨_, [_], rfl, rfl, by simp, by simp⟩
      · obtain ⟨s1, h1, evs, ho, hev⟩ := Walk_quiet (Join [glibPath, ".debug".toList])
          (Join [glibPath, ".debug".toList] ++ "/.build-id".toList) s
        refine ⟨{ s1 with out := s1.out ++ [flattenedReport] }, evs ++ [flattenedReport], ?_, ?_,
          by simp, ?_⟩
        · simp only [flattenBuildId, Prog.bind_apply, h1, logSuccess, emit_apply, flattenedReport]
        · simp [ho]
        · intro argv hmem
          rcases List.mem_append.mp hmem with h | h
          · obtain ⟨p, hp⟩ := hev _ h
            cases hp
          · simp [flattenedReport] at h

end

section

open Strings Filepath

theorem getArchitecture_ok (env : Env) (file : Str) (s : St) (bytes : Str) (machine : Nat)
    (hfile : Os.ReadFile s.fs file = .ok bytes) (hm : env.elfMachine bytes = .ok machine) :
    getArchitecture env file s = .ok (archOf machine) s := by
  simp only [getArchitecture, Prog.bind_apply, getSt_apply, hfile, hm, checkErr_ok, archOf]
  split
  · rfl
  · split <;> rfl

theorem ReadFile_ok_Stat (fs : FS) (p data : Str) (op : Str) (h : Os.ReadFile fs p = .ok data) :
    ∃ x, Os.Stat op fs p = .ok x := by
  unfold Os.ReadFile Os.Open Os.Stat at h
  unfold Os.Stat
  cases hn : Os.node fs p with
  | error e => rw [hn] at h; cases h
  | ok x => exact ⟨x, rfl⟩

theorem libs_ne_nil (base : Str) : Join [base, "libs".toList] ≠ [] :=
  Join_ne_nil _ ⟨"libs".toList, by simp, by simp⟩

theorem glibScan_some (libPath version arch : Str) (entries : List Str) (D : Str)
    (h : glibScan libPath version arch entries = some D) :
    ∃ e ∈ entries, version <+: e ∧ arch <:+ e ∧ D = Join [libPath, e] := by
  rw [glibScan_eq] at h
  cases hf : entries.find? (fun e => decide (version <+: e ∧ arch <:+ e)) with
  | none => rw [hf] at h; cases h
  | some e =>
    rw [hf] at h
    simp only [Option.map_some', Option.some.injEq] at h
    have h1 := List.find?_some hf
    have h2 := List.mem_of_find?_eq_some hf
    simp only [decide_eq_true_eq] at h1
    exact ⟨e, h2, h1.1, h1.2, h.symm⟩

theorem glibScan_ne_nil (base version arch : Str) (entries : List Str) (D : Str)
    (h : glibScan (Join [base, "libs".toList]) version arch entries = some D) : D ≠ [] := by
  obtain ⟨e, -, -, -, hD⟩ := glibScan_some _ _ _ _ _ h
  rw [hD]
  exact Join_ne_nil _ ⟨_, by simp, libs_ne_nil base⟩

/-- Source: `executeLdd`, on a cache hit: the run is the patch, the diagnostic
and the relocation, for the directory the cache index resolved. -/
theorem executeLdd_hit (env : Env) (file version : Str) (s : St) (home data bytes : Str)
    (entries : List Str) (machine : Nat) (D : Str)
    (hfile : Os.ReadFile s.fs file = .ok bytes) (hm : env.elfMachine bytes = .ok machine)
    (hhome : env.home = .ok home)
    (hcfg : Os.ReadFile s.fs (Join [home, ".cpwn".toList]) = .ok data)
    (hdir : Os.ReadDir s.fs (Join [TrimSpace data, "libs".toList]) = .ok entries)
    (hD : glibScan (Join [TrimSpace data, "libs".toList]) version (archOf machine) entries =
      some D) :
    executeLdd env file version s =
      patchThenFix env file version (archOf machine) D
        { s with out := s.out ++ [.logInfo ("File architecture: ".toList ++ archOf machine)] } := by
  obtain ⟨x, hx⟩ := ReadFile_ok_Stat s.fs file bytes "stat".toList hfile
  have hne : D ≠ [] := glibScan_ne_nil _ _ _ _ _ hD
  have hglib := glib_eq env version (archOf machine)
    { s with out := s.out ++ [.logInfo ("File architecture: ".toList ++ archOf machine)] }
    home data entries hhome hcfg hdir
  rw [hD] at hglib
  simp only [executeLdd, Prog.bind_apply, getSt_apply, hx, Bool.false_eq_true, if_false,
    readCpwnBasePath_ok env s home data hhome hcfg, getArchitecture_ok env file s bytes machine hfile hm,
    logInfo, emit_apply, hglib, hne, patchThenFix, Prog.bind]
  try rfl

/-- Source: `executeDownloadCommand`, after a download that succeeded and a
cache index that then resolved a directory: the run ends with the same three
stages. -/
theorem executeDownloadCommand_resolved (env : Env) (base command selected file version : Str)
    (s : St) (home data bytes : Str) (entries : List Str) (machine : Nat) (D : Str)
    (hok : procError (env.run (downloadArgv env base command selected) s.fs) = none)
    (hfile : Os.ReadFile (downloadFS env base command selected s) file = .ok bytes)
    (hm : env.elfMachine bytes = .ok machine)
    (hhome : env.home = .ok home)
    (hcfg : Os.ReadFile (downloadFS env base command selected s)
      (Join [home, ".cpwn".toList]) = .ok data)
    (hdir : Os.ReadDir (downloadFS env base command selected s)
      (Join [TrimSpace data, "libs".toList]) = .ok entries)
    (hD : glibScan (Join [TrimSpace data, "libs".toList]) version (archOf machine) entries =
      some D) :
    ∃ s1 : St, s1.fs = downloadFS env base command selected s ∧
      s1.out = s.out ++ [.logInfo ("Executing: ".toList ++ (Join [base, command] ++ " ".toList ++
          selected)),
        .exec (downloadArgv env base command selected),
        .logSuccess "Download completed.".toList,
        .print (procOutput (env.run (downloadArgv env base command selected) s.fs) ++
          [Char.ofNat 10])] ∧
      executeDownloadCommand env base command selected file version s =
        patchThenFix env file version (archOf machine) D s1 := by
  have hne : D ≠ [] := glibScan_ne_nil _ _ _ _ _ hD
  have hok' : procError (env.run [if HasSuffix (if env.shell = [] then "bash".toList else env.shell)
      "zsh".toList then "zsh".toList else "bash".toList,
    "-c".toList, Join [base, command] ++ " ".toList ++ selected] s.fs) = none := hok
  simp only [executeDownloadCommand, logInfo, logSuccess, logFail, Prog.bind_apply, emit_apply,
    CombinedOutput_eq, hok']
  generalize hst : St.mk (procFS _ _) _ = st
  have hfs : st.fs = downloadFS env base command selected s := by rw [← hst]; rfl
  have hout : st.out = s.out ++ [.logInfo ("Executing: ".toList ++ (Join [base, command] ++
        " ".toList ++ selected)),
      .exec (downloadArgv env base command selected),
      .logSuccess "Download completed.".toList,
      .print (procOutput (env.run (downloadArgv env base command selected) s.fs) ++
        [Char.ofNat 10])] := by
    rw [← hst]
    simp only [downloadArgv, List.append_assoc, List.cons_append, List.nil_append]
  rw [← hfs] at hfile hcfg hdir
  have hglib := glib_eq env version (archOf machine) st home data entries hhome hcfg hdir
  rw [hD] at hglib
  have hga := getArchitecture_ok env file st bytes machine hfile hm
  refine ⟨st, hfs, hout, ?_⟩
  simp only [hga, hglib, hne, if_false, patchThenFix, Prog.bind]
  rfl

end

section

open Strings Filepath

/-- The processes of the last two calls of a run: the patch tool first, with
the interpreter and the search root of the resolved directory, and after it
nothing but the diagnostic tool. -/
theorem patchThenFix_trace (env : Env) (file version arch D : Str) (s : St) :
    ∃ post, (patchThenFix env file version arch D s).st.out =
        s.out ++ [.logInfo "Applying patchelf...".toList,
          .exec (patchArgv file (getLdPath D arch) D)] ++ post ∧
      ∀ argv, Event.exec argv ∈ post → argv = ["ldd".toList, file] := by
  cases herr : procError (env.run (patchArgv file (getLdPath D arch) D) s.fs) with
  | some err =>
    have hp := executePatchelf_fail env file (getLdPath D arch) D s err herr
    obtain ⟨s1, evs, h1, h2, -, h4⟩ := fixDebugSymbols_silent version D
      (St.mk (procFS (env.run (patchArgv file (getLdPath D arch) D) s.fs) s.fs)
        (s.out ++ [.logInfo "Applying patchelf...".toList,
          .exec (patchArgv file (getLdPath D arch) D),
          .logFail ("Error executing patchelf: ".toList ++ err ++ [Char.ofNat 10] ++
            procOutput (env.run (patchArgv file (getLdPath D arch) D) s.fs))]))
    refine ⟨.logFail ("Error executing patchelf: ".toList ++ err ++ [Char.ofNat 10] ++
        procOutput (env.run (patchArgv file (getLdPath D arch) D) s.fs)) :: evs, ?_, ?_⟩
    · have e : patchThenFix env file version arch D s = fixDebugSymbols version D
          (St.mk (procFS (env.run (patchArgv file (getLdPath D arch) D) s.fs) s.fs)
            (s.out ++ [.logInfo "Applying patchelf...".toList,
              .exec (patchArgv file (getLdPath D arch) D),
              .logFail ("Error executing patchelf: ".toList ++ err ++ [Char.ofNat 10] ++
                procOutput (env.run (patchArgv file (getLdPath D arch) D) s.fs))])) := by
        simp only [patchThenFix, Prog.bind, hp]
      rw [e, h1]
      simp only [Res.st]
      rw [h2]
      simp only [List.append_assoc, List.cons_append, List.nil_append]
    · intro argv hmem
      rcases List.mem_cons.mp hmem with h | h
      · cases h
      · exact absurd h (h4 argv)
  | none =>
    have hp := executePatchelf_ok env file (getLdPath D arch) D s herr
    obtain ⟨s1, evs, h1, h2, -, h4⟩ := fixDebugSymbols_silent version D
      (afterLdd env file (afterPatch env file (getLdPath D arch) D s))
    refine ⟨[.logSuccess "Patchelf patched successfully.".toList,
        .print (procOutput (env.run (patchArgv file (getLdPath D arch) D) s.fs) ++
          [Char.ofNat 10]),
        .logInfo "Running ldd on patched file:".toList,
        .exec ["ldd".toList, file],
        match procError (env.run ["ldd".toList, file]
            (afterPatch env file (getLdPath D arch) D s).fs) with
        | some err => .logFail ("Error executing ldd: ".toList ++ err ++ [Char.ofNat 10] ++
            procOutput (env.run ["ldd".toList, file]
              (afterPatch env file (getLdPath D arch) D s).fs))
        | none => .print (procOutput (env.run ["ldd".toList, file]
            (afterPatch env file (getLdPath D arch) D s).fs) ++ [Char.ofNat 10])] ++ evs, ?_, ?_⟩
    · have e : patchThenFix env file version arch D s = fixDebugSymbols version D
          (afterLdd env file (afterPatch env file (getLdPath D arch) D s)) := by
        simp only [patchThenFix, Prog.bind, hp]
      rw [e, h1]
      simp only [Res.st]
      rw [h2]
      simp only [afterLdd, afterPatch, List.append_assoc, List.cons_append, List.nil_append]
    · intro argv hmem
      rcases List.mem_append.mp hmem with h | h
      · simp only [List.mem_cons, List.not_mem_nil, or_false] at h
        rcases h with h | h | h | h | h
        · cases h
        · cases h
        · cases h
        · cases h; rfl
        · generalize procError _ = pe at h
          cases pe <;> cases h
      · exact absurd h (h4 argv)

end

section

open Strings Filepath

/-! ## The paths of the nested copy -/

theorem joinSlash_suffix (E : List Str) (n : Str) : n <:+ joinSlash (E ++ [n]) := by
  cases E with
  | nil => exact List.suffix_refl _
  | cons e es =>
    rw [joinSlash_append_single _ _ (List.cons_ne_nil _ _)]
    exact (List.suffix_cons '/' n).trans (List.suffix_append _ _)

/-- The path `filepath.Join` returns for a directory and a name ends with the
name. -/
theorem Join_name_suffix (a n : Str) (hn : Name n) : n <:+ Join [a, n] := by
  obtain ⟨r, E, hj, -, -⟩ := Join_name_form a n hn
  rw [hj]
  unfold render
  cases r with
  | true =>
    simp only [if_true]
    exact (joinSlash_suffix E n).trans (List.suffix_cons _ _)
  | false =>
    simp only [Bool.false_eq_true, if_false]
    rw [if_neg (by simp)]
    exact joinSlash_suffix E n

/-- The name of the symbol file of a version without a separator. -/
theorem libc_name (version : Str) (h : '/' ∉ version) :
    Name ("libc-".toList ++ version ++ ".so".toList) := by
  refine ⟨by simp, ?_, ?_, ?_⟩
  · intro e
    have := congrArg List.head? e
    simp at this
  · intro e
    have := congrArg List.head? e
    simp at this
  · intro hmem
    simp only [List.append_assoc, List.mem_append] at hmem
    rcases hmem with h1 | h1 | h1
    · revert h1; decide
    · exact h h1
    · revert h1; decide

/-- Three elements joined, the first a cleaned path and the others made of
names: the elements with separators between them. -/
theorem Join_three (x a b : Str) (hx : CleanPath x) (ha : ∀ n ∈ Split '/' a, Normal n)
    (hb : Name b) : Join [x, a, b] = x ++ '/' :: (a ++ '/' :: b) := by
  have hne := hx.ne_nil
  simp only [Join, List.dropWhile, hne, decide_False]
  rw [joinSlash_cons _ _ (List.cons_ne_nil _ _), joinSlash_cons _ _ (List.cons_ne_nil _ _)]
  simp only [joinSlash]
  refine (Clean_append x (a ++ '/' :: b) hx ?_).1
  rw [Split_append_sep]
  intro n hmem
  rcases List.mem_append.mp hmem with h | h
  · exact ha n h
  · exact Split_name b hb n h

/-- What the cache index resolves: a cleaned path that ends with an entry the
version is a prefix of and the architecture a suffix of. -/
theorem glibScan_resolved (libPath version arch : Str) (entries : List Str) (D : Str)
    (hD : glibScan libPath version arch entries = some D) (hnames : ∀ e ∈ entries, Name e) :
    CleanPath D ∧ '/' ∉ version ∧ Contains D arch = true := by
  obtain ⟨e, he, hv, ha, hDe⟩ := glibScan_some _ _ _ _ _ hD
  have hn := hnames e he
  refine ⟨?_, ?_, ?_⟩
  · rw [hDe]; exact Join_name_cleanPath _ _ hn
  · intro hmem
    exact hn.2.2.2 (hv.subset hmem)
  · rw [Contains_iff, hDe]
    exact (ha.trans (Join_name_suffix libPath e hn)).isInfix

/-- Source: `fixDebugSymbols`, lines 317 to 325: what the nested copy leaves. -/
theorem copyNested_run (version d arch : Str) (s : St) :
    (copyNested version d arch s).st.out = s.out ++
      [copyReport (copyFile (Join [d, "lib/".toList ++ arch ++ "-linux-gnu".toList,
          "libc-".toList ++ version ++ ".so".toList])
        (Join [d, "libc-".toList ++ version ++ ".so".toList]) s.fs).1
        (Join [d, "libc-".toList ++ version ++ ".so".toList])] := by
  simp only [copyNested, Prog.bind_apply, getSt_apply, setFS_apply, logFail, logSuccess,
    copyReport]
  cases (copyFile (Join [d, "lib/".toList ++ arch ++ "-linux-gnu".toList,
      "libc-".toList ++ version ++ ".so".toList])
    (Join [d, "libc-".toList ++ version ++ ".so".toList]) s.fs).1 <;> rfl

end

section

open Strings Filepath

theorem grows_pure {α : Type} (a : α) : Grows (pure a : Prog α) :=
  fun s => ⟨[], by simp [Res.st]⟩

theorem grows_bind {α β : Type} {m : Prog α} {f : α → Prog β} (hm : Grows m)
    (hf : ∀ a, Grows (f a)) : Grows (m >>= f) := by
  intro s
  obtain ⟨e1, h1⟩ := hm s
  rw [Prog.bind_apply]
  cases hms : m s with
  | exit s1 =>
    rw [hms] at h1
    exact ⟨e1, h1⟩
  | ok a s1 =>
    rw [hms] at h1
    obtain ⟨e2, h2⟩ := hf a s1
    refine ⟨e1 ++ e2, ?_⟩
    simp only [Res.st] at h1
    simp only [h2, h1, List.append_assoc]

theorem grows_emit (e : Event) : Grows (emit e) := fun _ => ⟨[e], rfl⟩

theorem grows_getSt : Grows getSt := fun _ => ⟨[], by simp [Res.st]⟩

theorem grows_setFS (fs : FS) : Grows (setFS fs) := fun _ => ⟨[], by simp [Res.st]⟩

theorem grows_checkErr {α : Type} (msg : Str) (r : Except Str α) : Grows (checkErr msg r) := by
  intro s
  cases r with
  | ok a => exact ⟨[], by simp [checkErr_ok, Res.st]⟩
  | error e => exact ⟨[_, _], rfl⟩

theorem grows_CombinedOutput (env : Env) (argv : List Str) : Grows (CombinedOutput env argv) := by
  intro s
  rw [CombinedOutput_eq]
  exact ⟨[_], rfl⟩

theorem grows_getArchitecture (env : Env) (file : Str) : Grows (getArchitecture env file) := by
  unfold getArchitecture
  refine grows_bind grows_getSt (fun s => grows_bind (grows_checkErr _ _) (fun m => ?_))
  split
  · exact grows_pure _
  · split <;> exact grows_pure _

theorem grows_readCpwnBasePath (env : Env) : Grows (readCpwnBasePath env) := by
  unfold readCpwnBasePath getCpwnPath
  exact grows_bind (grows_bind (grows_checkErr _ _) (fun _ => grows_pure _))
    (fun _ => grows_bind grows_getSt
      (fun _ => grows_bind (grows_checkErr _ _) (fun _ => grows_pure _)))

theorem grows_glib (env : Env) (version arch : Str) : Grows (glib env version arch) := by
  unfold glib
  refine grows_bind (grows_readCpwnBasePath env) (fun base => grows_bind grows_getSt
    (fun s => grows_bind ?_ (fun _ => grows_bind grows_getSt
      (fun s1 => grows_bind (grows_checkErr _ _) (fun entries => ?_)))))
  · split
    · split
      · exact grows_bind (grows_checkErr _ _) (fun _ => grows_setFS _)
      · exact grows_pure _
    · exact grows_pure _
  · split
    · exact grows_pure _
    · exact grows_bind (grows_emit _) (fun _ => grows_pure _)

theorem grows_fixDebugSymbols (version glibPath : Str) :
    Grows (fixDebugSymbols version glibPath) := by
  intro s
  obtain ⟨s1, evs, h1, h2, -, -⟩ := fixDebugSymbols_silent version glibPath s
  exact ⟨evs, by rw [h1]; exact h2⟩

theorem grows_executePatchelf (env : Env) (file ld glibPath : Str) :
    Grows (executePatchelf env file ld glibPath) := by
  unfold executePatchelf
  refine grows_bind (grows_emit _) (fun _ => grows_bind (grows_CombinedOutput _ _) (fun r => ?_))
  split
  · exact grows_emit _
  · refine grows_bind (grows_emit _) (fun _ => grows_bind (grows_emit _) (fun _ =>
      grows_bind (grows_emit _) (fun _ => grows_bind (grows_CombinedOutput _ _) (fun l => ?_))))
    split
    · exact grows_emit _
    · exact grows_emit _

theorem trace_two (env : Env) (X : Str) (argv : List Str)
    (K : Str × Option Str → Prog Unit) (hK : ∀ r, Grows (K r)) (s : St) :
    ∃ post, ((logInfo X >>= fun _ => CombinedOutput env argv >>= fun r => K r) s).st.out =
      s.out ++ [.logInfo X, .exec argv] ++ post := by
  simp only [Prog.bind_apply, logInfo, emit_apply, CombinedOutput_eq]
  obtain ⟨evs, h⟩ := hK (procOutput (env.run argv s.fs), procError (env.run argv s.fs))
    (St.mk (procFS (env.run argv s.fs) s.fs) (s.out ++ [.logInfo X] ++ [.exec argv]))
  refine ⟨evs, ?_⟩
  rw [h]
  simp only [List.append_assoc, List.cons_append, List.nil_append]

/-- Source: `executeDownloadCommand`: the run announces the command line,
starts the shell with it, and whatever follows is written after these two
events. -/
theorem executeDownloadCommand_trace (env : Env) (base command selected file version : Str)
    (s : St) :
    ∃ post, (executeDownloadCommand env base command selected file version s).st.out =
      s.out ++ [.logInfo ("Executing: ".toList ++ (Join [base, command] ++ " ".toList ++
          selected)),
        .exec [if HasSuffix (if env.shell = [] then "bash".toList else env.shell) "zsh".toList
            then "zsh".toList else "bash".toList,
          "-c".toList, Join [base, command] ++ " ".toList ++ selected]] ++ post := by
  refine trace_two env _ _ _ ?_ s
  intro r
  split
  · exact grows_emit _
  · refine grows_bind (grows_emit _) (fun _ => grows_bind (grows_emit _) (fun _ =>
      grows_bind (grows_getArchitecture _ _) (fun arch =>
        grows_bind (grows_glib _ _ _) (fun glibPath => ?_))))
    split
    · exact grows_emit _
    · exact grows_bind (grows_executePatchelf _ _ _ _) (fun _ => grows_fixDebugSymbols _ _)

end

section

open Strings Filepath Strconv Spec

theorem menu_eq (vs : List Str) (k : Nat) :
    menu k vs = (List.range vs.length).map (fun i =>
      Event.print ("  ".toList ++ [Char.ofNat 27] ++ "[1;32m[".toList ++ Nat.toDigits 10 (k + i) ++
        "]".toList ++ [Char.ofNat 27] ++ "[0m ".toList ++ vs.getD i [] ++ [Char.ofNat 10])) := by
  induction vs generalizing k with
  | nil => rfl
  | cons v vs ih =>
    rw [menu, ih (k + 1), List.length_cons, List.range_succ_eq_map, List.map_cons, List.map_map]
    refine congrArg₂ List.cons rfl (List.map_congr_left ?_)
    intro i _
    have h : k + 1 + i = k + (i + 1) := by omega
    simp only [Function.comp, h, Itoa]
    rfl

theorem promptState_eq (vs : List Str) (s : St) :
    promptState vs s = ⟨s.fs, s.out ++ presented vs⟩ := by
  simp only [promptState, presented, menu_eq, Nat.zero_add, List.append_assoc]

end

section

open Strings Filepath Strconv Spec

theorem Split_length_le (sep : Char) (s : Str) : (Split sep s).length ≤ s.length + 1 := by
  induction s with
  | nil => simp [Split]
  | cons c cs ih =>
    by_cases hc : c = sep
    · subst hc
      rw [Split_cons_sep]
      simp only [List.length_cons]
      omega
    · rw [Split_cons_ne _ _ _ hc]
      have hne := Split_ne_nil sep cs
      cases hs : Split sep cs with
      | nil => exact absurd hs hne
      | cons w ws =>
        rw [hs] at ih
        simp only [List.length_cons, List.tail_cons] at ih ⊢
        omega

/-- A manifest of fewer than 2^63 bytes has at most 2^63 candidates. -/
theorem candidates_length_le (content version arch : Str) (h : content.length < 2 ^ 63) :
    (candidates content version arch).length ≤ 2 ^ 63 := by
  have h1 := Split_length_le (Char.ofNat 10) content
  have h2 : (candidates content version arch).length ≤ (Split (Char.ofNat 10) content).length :=
    List.length_filter_le _ _
  omega

theorem filterLines_eq_candidates (content version arch : Str) :
    filterLines (Split (Char.ofNat 10) content) version arch = candidates content version arch := by
  simp only [filterLines, candidates, matches_eq_decide]

/-- Source: `selectVersion`, for an answer that is not the index of a
candidate: the candidates are presented, the answer is refused, and the run
returns. -/
theorem selectVersion_invalid (env : Env) (versions : List Str) (base command file version : Str)
    (s : St) (hN : versions.length ≤ 2 ^ 63)
    (h : ¬ validChoice (TrimSpace (ReadString env.stdin)) versions.length) :
    selectVersion env versions base command file version s =
      .ok () ⟨s.fs, s.out ++ presented versions ++ [.logFail "Invalid selection.".toList]⟩ := by
  have hacc := atoi_accepts_iff (TrimSpace (ReadString env.stdin)) versions.length hN
  rw [selectVersion_eq]
  simp only
  rw [if_pos, promptState_eq]
  by_contra hcon
  simp only [not_or, not_not, not_lt, ge_iff_le, not_le, ne_eq] at hcon
  exact h (hacc.mp ⟨hcon.1, hcon.2.1, hcon.2.2⟩)

/-- Source: `selectVersion`, for an answer that is the index of a candidate:
the candidates are presented, the choice is reported, and the download runs
for the candidate at that index. -/
theorem selectVersion_valid (env : Env) (versions : List Str) (base command file version : Str)
    (s : St) (hN : versions.length ≤ 2 ^ 63) (i : Nat) (hi : i < versions.length)
    (hint : isInteger (TrimSpace (ReadString env.stdin)) = true)
    (hval : intValue (TrimSpace (ReadString env.stdin)) = (i : Int)) :
    selectVersion env versions base command file version s =
      executeDownloadCommand env base command (versions.get ⟨i, hi⟩) file version
        ⟨s.fs, s.out ++ presented versions ++
          [.logInfo ("You selected: ".toList ++ versions.get ⟨i, hi⟩)]⟩ := by
  have hv : validChoice (TrimSpace (ReadString env.stdin)) versions.length := by
    refine ⟨hint, ?_, ?_⟩
    · rw [hval]; exact Int.ofNat_nonneg i
    · rw [hval]; exact_mod_cast hi
  have hat := atoi_value_of_valid _ _ hN hv
  rw [selectVersion_eq]
  simp only [hat, hval]
  rw [if_neg, promptState_eq]
  · simp only [Int.toNat_ofNat]
    have hget : versions.getD i [] = versions.get ⟨i, hi⟩ := by
      simp [List.getD, List.getElem?_eq_getElem hi]
    rw [hget]
  · simp only [ne_eq, not_true_eq_false, false_or, not_or, not_lt, ge_iff_le, not_le]
    exact ⟨Int.ofNat_nonneg i, by exact_mod_cast hi⟩

/-- Source: `handleVersionSelection`, with both manifests read: which list
goes to the selection, and with which script. -/
theorem handleVersionSelection_run (env : Env) (base version arch file : Str) (s : St)
    (current legacy : Str)
    (hc : Os.ReadFile s.fs (Join [base, "list".toList]) = .ok current)
    (hl : Os.ReadFile s.fs (Join [base, "old_list".toList]) = .ok legacy) :
    handleVersionSelection env base version arch file s =
      if candidates current version arch ≠ [] then
        selectVersion env (candidates current version arch) base "download".toList file version
          ⟨s.fs, s.out ++ [.logInfo "Searching for matching version...".toList]⟩
      else if candidates legacy version arch ≠ [] then
        selectVersion env (candidates legacy version arch) base "download_old".toList file version
          ⟨s.fs, s.out ++ [.logInfo "Searching for matching version...".toList,
              .logInfo "New version not found, trying old version:".toList]⟩
      else
        .ok () ⟨s.fs, s.out ++ [.logInfo "Searching for matching version...".toList,
          .logFail "No matching versions found.".toList]⟩ := by
  simp only [handleVersionSelection, logInfo, logFail, Prog.bind_apply, emit_apply, getSt_apply,
    hc, hl, filterLines_eq_candidates]
  generalize candidates current version arch = C
  generalize candidates legacy version arch = L
  by_cases h1 : C = []
  · by_cases h2 : L = []
    · simp [h1, h2]
    · have : 0 < L.length := List.length_pos.mpr h2
      simp [h1, h2, this]
  · have : 0 < C.length := List.length_pos.mpr h1
    simp [h1, this]

/-- What follows the list that `selectVersion` is given, when the answer is
the index of a candidate: the choice, the command line and the shell started
with it. -/
theorem selectVersion_trace (env : Env) (versions : List Str) (base command file version : Str)
    (s : St) (hN : versions.length ≤ 2 ^ 63) (i : Nat) (hi : i < versions.length)
    (hint : isInteger (TrimSpace (ReadString env.stdin)) = true)
    (hval : intValue (TrimSpace (ReadString env.stdin)) = (i : Int)) :
    ∃ post, (selectVersion env versions base command file version s).st.out =
      s.out ++ presented versions ++
        [.logInfo ("You selected: ".toList ++ versions.get ⟨i, hi⟩),
          .logInfo ("Executing: ".toList ++
            (Join [base, command] ++ " ".toList ++ versions.get ⟨i, hi⟩)),
          .exec [if HasSuffix (if env.shell = [] then "bash".toList else env.shell) "zsh".toList
              then "zsh".toList else "bash".toList,
            "-c".toList, Join [base, command] ++ " ".toList ++ versions.get ⟨i, hi⟩]] ++ post := by
  rw [selectVersion_valid env versions base command file version s hN i hi hint hval]
  obtain ⟨post, h⟩ := executeDownloadCommand_trace env base command (versions.get ⟨i, hi⟩)
    file version ⟨s.fs, s.out ++ presented versions ++
      [.logInfo ("You selected: ".toList ++ versions.get ⟨i, hi⟩)]⟩
  refine ⟨post, ?_⟩
  rw [h]
  simp only [List.append_assoc, List.cons_append, List.nil_append]

end

section

open Strings Filepath

/-! ## Stages that end a run -/

/-- Source: `executeLdd`, lines 145 to 148: a target that does not exist. -/
theorem executeLdd_missing (env : Env) (file version : Str) (s : St) (e : PathError)
    (hstat : Os.Stat "stat".toList s.fs file = .error e) (hne : Os.IsNotExist e = true) :
    executeLdd env file version s =
      .ok () ⟨s.fs, s.out ++ [.logFail ("No file found: ".toList ++ file)]⟩ := by
  simp only [executeLdd, Prog.bind_apply, getSt_apply, hstat, hne, if_true, logFail, emit_apply]

/-- Source: `executeLdd`, line 151: a target that is not an ELF file ends the
process. -/
theorem executeLdd_notElf (env : Env) (file version : Str) (s : St) (home data bytes e : Str)
    (hfile : Os.ReadFile s.fs file = .ok bytes) (hm : env.elfMachine bytes = .error e)
    (hhome : env.home = .ok home)
    (hcfg : Os.ReadFile s.fs (Join [home, ".cpwn".toList]) = .ok data) :
    executeLdd env file version s =
      .exit ⟨s.fs, s.out ++ [.logFail ("Error opening ELF file: ".toList ++ e), .exit 1]⟩ := by
  obtain ⟨x, hx⟩ := ReadFile_ok_Stat s.fs file bytes "stat".toList hfile
  simp only [executeLdd, Prog.bind_apply, getSt_apply, hx, Bool.false_eq_true, if_false,
    readCpwnBasePath_ok env s home data hhome hcfg, getArchitecture, hfile, hm, checkErr_error]
  rfl

/-- Source: `executeDownloadCommand`, lines 254 to 258: a download that fails
is reported and the run returns. -/
theorem executeDownloadCommand_failed (env : Env) (base command selected file version : Str)
    (s : St) (err : Str)
    (herr : procError (env.run (downloadArgv env base command selected) s.fs) = some err) :
    executeDownloadCommand env base command selected file version s =
      .ok () ⟨procFS (env.run (downloadArgv env base command selected) s.fs) s.fs,
        s.out ++ [.logInfo ("Executing: ".toList ++ (Join [base, command] ++ " ".toList ++
            selected)),
          .exec (downloadArgv env base command selected),
          .logFail ("Error executing download command: ".toList ++ err ++ [Char.ofNat 10] ++
            procOutput (env.run (downloadArgv env base command selected) s.fs))]⟩ := by
  have herr' : procError (env.run [if HasSuffix (if env.shell = [] then "bash".toList
      else env.shell) "zsh".toList then "zsh".toList else "bash".toList,
    "-c".toList, Join [base, command] ++ " ".toList ++ selected] s.fs) = some err := herr
  simp only [executeDownloadCommand, logInfo, logFail, Prog.bind_apply, emit_apply,
    CombinedOutput_eq, herr']
  simp only [downloadArgv, List.append_assoc, List.cons_append, List.nil_append]

/-- Source: `executeDownloadCommand`, lines 262 to 267: after a download that
succeeded, a cache that still has no match is reported and the run returns. -/
theorem executeDownloadCommand_unresolved (env : Env)
    (base command selected file version : Str)
    (s : St) (home data bytes : Str) (entries : List Str) (machine : Nat)
    (hok : procError (env.run (downloadArgv env base command selected) s.fs) = none)
    (hfile : Os.ReadFile (downloadFS env base command selected s) file = .ok bytes)
    (hm : env.elfMachine bytes = .ok machine)
    (hhome : env.home = .ok home)
    (hcfg : Os.ReadFile (downloadFS env base command selected s)
      (Join [home, ".cpwn".toList]) = .ok data)
    (hdir : Os.ReadDir (downloadFS env base command selected s)
      (Join [TrimSpace data, "libs".toList]) = .ok entries)
    (hD : glibScan (Join [TrimSpace data, "libs".toList]) version (archOf machine) entries =
      none) :
    executeDownloadCommand env base command selected file version s =
      .ok () ⟨downloadFS env base command selected s,
        s.out ++ [.logInfo ("Executing: ".toList ++ (Join [base, command] ++ " ".toList ++
            selected)),
          .exec (downloadArgv env base command selected),
          .logSuccess "Download completed.".toList,
          .print (procOutput (env.run (downloadArgv env base command selected) s.fs) ++
            [Char.ofNat 10]),
          .logFail "No matching glibc found.".toList,
          .logFail "No suitable glib path found, cannot execute patchelf.".toList]⟩ := by
  have hok' : procError (env.run [if HasSuffix (if env.shell = [] then "bash".toList
      else env.shell) "zsh".toList then "zsh".toList else "bash".toList,
    "-c".toList, Join [base, command] ++ " ".toList ++ selected] s.fs) = none := hok
  simp only [executeDownloadCommand, logInfo, logSuccess, logFail, Prog.bind_apply, emit_apply,
    CombinedOutput_eq, hok']
  generalize hst : St.mk (procFS _ _) _ = st
  have hfs : st.fs = downloadFS env base command selected s := by rw [← hst]; rfl
  have hout : st.out = s.out ++ [.logInfo ("Executing: ".toList ++ (Join [base, command] ++
        " ".toList ++ selected)),
      .exec (downloadArgv env base command selected),
      .logSuccess "Download completed.".toList,
      .print (procOutput (env.run (downloadArgv env base command selected) s.fs) ++
        [Char.ofNat 10])] := by
    rw [← hst]
    simp only [downloadArgv, List.append_assoc, List.cons_append, List.nil_append]
  rw [← hfs] at hfile hcfg hdir
  have hglib := glib_eq env version (archOf machine) st home data entries hhome hcfg hdir
  rw [hD] at hglib
  have hga := getArchitecture_ok env file st bytes machine hfile hm
  simp only [hga, hglib, if_true, emit_apply, hout, hfs, List.append_assoc, List.cons_append,
    List.nil_append]

/-- Source: `executePatchelf` and the call after it: when the patch tool
fails, the failure is reported after the call of the tool, and no process is
started after it. -/
theorem patchThenFix_failed (env : Env) (file version arch D : Str) (s : St) (err : Str)
    (herr : procError (env.run (patchArgv file (getLdPath D arch) D) s.fs) = some err) :
    ∃ post, (patchThenFix env file version arch D s).st.out =
        s.out ++ [.logInfo "Applying patchelf...".toList,
          .exec (patchArgv file (getLdPath D arch) D),
          .logFail ("Error executing patchelf: ".toList ++ err ++ [Char.ofNat 10] ++
            procOutput (env.run (patchArgv file (getLdPath D arch) D) s.fs))] ++ post ∧
      ∀ argv, Event.exec argv ∉ post := by
  have hp := executePatchelf_fail env file (getLdPath D arch) D s err herr
  obtain ⟨s1, evs, h1, h2, -, h4⟩ := fixDebugSymbols_silent version D
    (St.mk (procFS (env.run (patchArgv file (getLdPath D arch) D) s.fs) s.fs)
      (s.out ++ [.logInfo "Applying patchelf...".toList,
        .exec (patchArgv file (getLdPath D arch) D),
        .logFail ("Error executing patchelf: ".toList ++ err ++ [Char.ofNat 10] ++
          procOutput (env.run (patchArgv file (getLdPath D arch) D) s.fs))]))
  refine ⟨evs, ?_, h4⟩
  have e : patchThenFix env file version arch D s = fixDebugSymbols version D
      (St.mk (procFS (env.run (patchArgv file (getLdPath D arch) D) s.fs) s.fs)
        (s.out ++ [.logInfo "Applying patchelf...".toList,
          .exec (patchArgv file (getLdPath D arch) D),
          .logFail ("Error executing patchelf: ".toList ++ err ++ [Char.ofNat 10] ++
            procOutput (env.run (patchArgv file (getLdPath D arch) D) s.fs))])) := by
    simp only [patchThenFix, Prog.bind, hp]
  rw [e, h1]
  exact h2

end

section

open Strings Filepath Spec Strconv

/-! ## The claims -/

/-- C1. Runtime Cache Index (`glib`): when the configuration is readable and
the cache root lists `entries`, `glib` returns without ending the process and
without touching the file system; the path it returns is non-empty exactly when
some entry has the version as a prefix and the architecture as a suffix; it is
then the cache root joined with the first such entry of the listing; with no
such entry it is empty, and the miss is reported. -/
theorem glib_first_match (env : Env) (version arch : Str) (s : St) (home data : Str)
    (entries : List Str) (hhome : env.home = .ok home)
    (hcfg : Os.ReadFile s.fs (Join [home, ".cpwn".toList]) = .ok data)
    (hdir : Os.ReadDir s.fs (Join [TrimSpace data, "libs".toList]) = .ok entries) :
    ∃ path s1, glib env version arch s = .ok path s1 ∧ s1.fs = s.fs ∧
      (path ≠ [] ↔ ∃ e ∈ entries, version <+: e ∧ arch <:+ e) ∧
      (∀ e, entries.find? (fun e => decide (version <+: e ∧ arch <:+ e)) = some e →
        path = Join [Join [TrimSpace data, "libs".toList], e] ∧ s1 = s) ∧
      (entries.find? (fun e => decide (version <+: e ∧ arch <:+ e)) = none →
        path = [] ∧ s1.out = s.out ++ [.logFail "No matching glibc found.".toList]) := by
  have h := glib_eq env version arch s home data entries hhome hcfg hdir
  rw [glibScan_eq] at h
  cases hf : entries.find? (fun e => decide (version <+: e ∧ arch <:+ e)) with
  | none =>
    rw [hf] at h
    refine ⟨[], _, h, rfl, ?_, ?_, ?_⟩
    · constructor
      · intro hne; exact absurd rfl hne
      · rintro ⟨e, he, hm⟩
        have := List.find?_eq_none.mp hf e he
        simp only [decide_eq_true_eq] at this
        exact absurd hm this
    · intro e he; cases he
    · intro _; exact ⟨rfl, rfl⟩
  | some e =>
    rw [hf] at h
    refine ⟨Join [Join [TrimSpace data, "libs".toList], e], s, h, rfl, ?_, ?_, ?_⟩
    · constructor
      · intro _
        have h1 := List.find?_some hf
        simp only [decide_eq_true_eq] at h1
        exact ⟨e, List.mem_of_find?_eq_some hf, h1⟩
      · intro _
        exact Join_ne_nil _ ⟨Join [TrimSpace data, "libs".toList], by simp, libs_ne_nil _⟩
    · intro e1 he1
      cases he1
      exact ⟨rfl, rfl⟩
    · intro hn; cases hn

set_option maxRecDepth 100000 in
/-- C1, at the sample cache: version 2.3 and amd64 match both entries, and the
first of the listing is returned. -/
theorem glib_first_match_witness :
    (Sample.env [] "" []).home = .ok "/home/u".toList ∧
    Os.ReadFile Sample.cacheFS (Join ["/home/u".toList, ".cpwn".toList]) = .ok "/opt/g\n".toList ∧
    Os.ReadDir Sample.cacheFS (Join [TrimSpace "/opt/g\n".toList, "libs".toList]) =
      .ok ["2.27-amd64".toList, "2.31-amd64".toList] ∧
    ∃ path s1, glib (Sample.env [] "" []) "2.".toList "amd64".toList ⟨Sample.cacheFS, []⟩ =
        .ok path s1 ∧ s1.fs = Sample.cacheFS ∧
      (path ≠ [] ↔ ∃ e ∈ ["2.27-amd64".toList, "2.31-amd64".toList],
        "2.".toList <+: e ∧ "amd64".toList <:+ e) ∧
      (∀ e, ["2.27-amd64".toList, "2.31-amd64".toList].find?
          (fun e => decide ("2.".toList <+: e ∧ "amd64".toList <:+ e)) = some e →
        path = Join [Join [TrimSpace "/opt/g\n".toList, "libs".toList], e] ∧
          s1 = ⟨Sample.cacheFS, []⟩) ∧
      (["2.27-amd64".toList, "2.31-amd64".toList].find?
          (fun e => decide ("2.".toList <+: e ∧ "amd64".toList <:+ e)) = none →
        path = [] ∧ s1.out = [] ++ [.logFail "No matching glibc found.".toList]) :=
  ⟨by decide, by decide, by decide,
    glib_first_match (Sample.env [] "" []) "2.".toList "amd64".toList ⟨Sample.cacheFS, []⟩
      "/home/u".toList "/opt/g\n".toList ["2.27-amd64".toList, "2.31-amd64".toList]
      (by decide) (by decide) (by decide)⟩

/-- C2, as stated, fails: the line `2.31-0ubuntu9_amd64` is matched with the
version `2.31` and is not matched with the version `0`, which matches only
lines that begin with the character `0`. -/
theorem version_zero_counterexample :
    filterLines ["2.31-0ubuntu9_amd64".toList] "2.31".toList "amd64".toList =
        ["2.31-0ubuntu9_amd64".toList] ∧
      filterLines ["2.31-0ubuntu9_amd64".toList] "0".toList "amd64".toList = [] ∧
      ¬ (filterLines ["2.31-0ubuntu9_amd64".toList] "2.31".toList "amd64".toList).Sublist
        (filterLines ["2.31-0ubuntu9_amd64".toList] "0".toList "amd64".toList) ∧
      (glibScan "/opt/g/libs".toList "2.31".toList "amd64".toList ["2.31-amd64".toList]).isSome
        = true ∧
      (glibScan "/opt/g/libs".toList "0".toList "amd64".toList ["2.31-amd64".toList]).isSome
        = false := by
  decide

/-- C2, amended. Version filtering is monotonic towards shorter versions: when
`w` is a prefix of `v`, every manifest line matched with `v` is matched with
`w`, so `filterLines lines v a` is a sub-list of `filterLines lines w a`, and a
cache listing that has a match for `v` has one for `w`. -/
theorem version_filter_monotone (lines entries : List Str) (libPath v w a : Str)
    (h : w <+: v) :
    (filterLines lines v a).Sublist (filterLines lines w a) ∧
      ((glibScan libPath v a entries).isSome = true →
        (glibScan libPath w a entries).isSome = true) := by
  refine ⟨filterLines_sublist_shorter lines v w a h, ?_⟩
  rw [glibScan_eq, glibScan_eq]
  simp only [Option.isSome_map', List.find?_isSome, decide_eq_true_eq]
  rintro ⟨e, he, h1, h2⟩
  exact ⟨e, he, h.trans h1, h2⟩

/-- C2, amended, for the prefix `2` of the version `2.31`. -/
theorem version_filter_monotone_witness :
    "2".toList <+: "2.31".toList ∧
    (filterLines ["2.31-0ubuntu9_amd64".toList, "2.35-0ubuntu3_amd64".toList] "2.31".toList
        "amd64".toList).Sublist
      (filterLines ["2.31-0ubuntu9_amd64".toList, "2.35-0ubuntu3_amd64".toList] "2".toList
        "amd64".toList) ∧
    ((glibScan "/opt/g/libs".toList "2.31".toList "amd64".toList ["2.31-amd64".toList]).isSome
        = true →
      (glibScan "/opt/g/libs".toList "2".toList "amd64".toList ["2.31-amd64".toList]).isSome
        = true) :=
  ⟨by decide, version_filter_monotone _ _ _ _ _ _ (by decide)⟩

end

section

open Strings Filepath Spec Strconv

/-- C3. Interactive selection (`selectVersion`), for a candidate list that fits
a Go slice: with the line read from standard input trimmed, the selection ends
with the report `Invalid selection.` and starts nothing whenever the input is
not a decimal integer in `[0, N)`; for every `i` in `[0, N)` written as a
decimal integer it goes on to `executeDownloadCommand` with the candidate
`versions[i]`; an empty list rejects every input. -/
theorem selectVersion_validates (env : Env) (versions : List Str)
    (base command file version : Str) (s : St) (hN : versions.length < 2 ^ 63) :
    (¬ validChoice (TrimSpace (ReadString env.stdin)) versions.length →
      selectVersion env versions base command file version s =
        .ok () { promptState versions s with
          out := (promptState versions s).out ++ [.logFail "Invalid selection.".toList] }) ∧
    (∀ (i : Nat) (hi : i < versions.length),
      isInteger (TrimSpace (ReadString env.stdin)) = true →
      intValue (TrimSpace (ReadString env.stdin)) = (i : Int) →
      selectVersion env versions base command file version s =
        executeDownloadCommand env base command (versions.get ⟨i, hi⟩) file version
          { promptState versions s with
            out := (promptState versions s).out ++
              [.logInfo ("You selected: ".toList ++ versions.get ⟨i, hi⟩)] }) ∧
    (versions = [] →
      selectVersion env versions base command file version s =
        .ok () { promptState versions s with
          out := (promptState versions s).out ++ [.logFail "Invalid selection.".toList] }) := by
  have hacc := atoi_accepts_iff (TrimSpace (ReadString env.stdin)) versions.length (le_of_lt hN)
  have hinv : ¬ validChoice (TrimSpace (ReadString env.stdin)) versions.length →
      selectVersion env versions base command file version s =
        .ok () { promptState versions s with
          out := (promptState versions s).out ++ [.logFail "Invalid selection.".toList] } := by
    intro hnv
    rw [selectVersion_eq]
    simp only
    rw [if_pos]
    by_contra hcon
    simp only [not_or, not_not, not_lt, ge_iff_le, not_le, ne_eq] at hcon
    exact hnv (hacc.mp ⟨hcon.1, hcon.2.1, hcon.2.2⟩)
  refine ⟨hinv, ?_, ?_⟩
  · intro i hi hint hval
    have hv : validChoice (TrimSpace (ReadString env.stdin)) versions.length := by
      refine ⟨hint, ?_, ?_⟩
      · rw [hval]; exact Int.ofNat_nonneg i
      · rw [hval]; exact_mod_cast hi
    have hat := atoi_value_of_valid _ _ (le_of_lt hN) hv
    rw [selectVersion_eq]
    simp only [hat, hval]
    rw [if_neg]
    · simp only [Int.toNat_ofNat]
      have hget : versions.getD i [] = versions.get ⟨i, hi⟩ := by
        simp [List.getD, List.getElem?_eq_getElem hi]
      rw [hget]
    · simp only [ne_eq, not_true_eq_false, false_or, not_or, not_lt, ge_iff_le, not_le]
      exact ⟨Int.ofNat_nonneg i, by exact_mod_cast hi⟩
  · intro hnil
    apply hinv
    rintro ⟨-, h0, hlt⟩
    rw [hnil] at hlt
    simp at hlt
    omega

set_option maxRecDepth 100000 in
/-- C3, for two candidates and the input line `1`. -/
theorem selectVersion_validates_witness :
    ["2.35-0ubuntu3_amd64".toList, "2.36-0ubuntu4_amd64".toList].length < 2 ^ 63 ∧
    isInteger (TrimSpace (ReadString (Sample.env [] " 1\n" []).stdin)) = true ∧
    intValue (TrimSpace (ReadString (Sample.env [] " 1\n" []).stdin)) = ((1 : Nat) : Int) ∧
    selectVersion (Sample.env [] " 1\n" [])
        ["2.35-0ubuntu3_amd64".toList, "2.36-0ubuntu4_amd64".toList]
        "/opt/g".toList "download".toList "/home/u/a.out".toList "2.3".toList
        ⟨Sample.manifestFS, []⟩ =
      executeDownloadCommand (Sample.env [] " 1\n" []) "/opt/g".toList "download".toList
        "2.36-0ubuntu4_amd64".toList "/home/u/a.out".toList "2.3".toList
        { promptState ["2.35-0ubuntu3_amd64".toList, "2.36-0ubuntu4_amd64".toList]
            ⟨Sample.manifestFS, []⟩ with
          out := (promptState ["2.35-0ubuntu3_amd64".toList, "2.36-0ubuntu4_amd64".toList]
              ⟨Sample.manifestFS, []⟩).out ++
            [.logInfo ("You selected: ".toList ++ "2.36-0ubuntu4_amd64".toList)] } :=
  ⟨by decide, by decide, by decide,
    (selectVersion_validates (Sample.env [] " 1\n" [])
      ["2.35-0ubuntu3_amd64".toList, "2.36-0ubuntu4_amd64".toList]
      "/opt/g".toList "download".toList "/home/u/a.out".toList "2.3".toList
      ⟨Sample.manifestFS, []⟩ (by decide)).2.1 1 (by decide) (by decide) (by decide)⟩

/-- C6. Version Resolver policy (`handleVersionSelection`): when both manifests
are readable, with `C` and `L` the lines of the current and of the legacy
manifest that start with the version and end with the architecture, in manifest
order: if `C` is not empty the candidates presented, each with its index, are
exactly `C`, an answer that is not an index of `C` is refused with nothing
started, and for the answer `i` the shell is started with the script
`download` of the base directory and `C[i]`; else if `L` is not empty the same
holds of `L` and the script `download_old`; else the run reports
`No matching versions found.` and ends: nothing is prompted and no process is
started. -/
theorem handleVersionSelection_policy (env : Env) (base version arch file : Str) (s : St)
    (current legacy : Str)
    (hc : Os.ReadFile s.fs (Join [base, "list".toList]) = .ok current)
    (hl : Os.ReadFile s.fs (Join [base, "old_list".toList]) = .ok legacy)
    (hcN : current.length < 2 ^ 63) (hlN : legacy.length < 2 ^ 63) :
    (candidates current version arch ≠ [] →
      (¬ validChoice (TrimSpace (ReadString env.stdin)) (candidates current version arch).length →
        handleVersionSelection env base version arch file s =
          .ok () ⟨s.fs, s.out ++ [.logInfo "Searching for matching version...".toList] ++
            presented (candidates current version arch) ++ [.logFail "Invalid selection.".toList]⟩) ∧
      (∀ (i : Nat) (hi : i < (candidates current version arch).length),
        isInteger (TrimSpace (ReadString env.stdin)) = true →
        intValue (TrimSpace (ReadString env.stdin)) = (i : Int) →
        ∃ post, (handleVersionSelection env base version arch file s).st.out =
          s.out ++ [.logInfo "Searching for matching version...".toList] ++
            presented (candidates current version arch) ++
            [.logInfo ("You selected: ".toList ++ (candidates current version arch).get ⟨i, hi⟩),
              .logInfo ("Executing: ".toList ++ (Join [base, "download".toList] ++ " ".toList ++
                (candidates current version arch).get ⟨i, hi⟩)),
              .exec [if HasSuffix (if env.shell = [] then "bash".toList else env.shell)
                  "zsh".toList then "zsh".toList else "bash".toList,
                "-c".toList, Join [base, "download".toList] ++ " ".toList ++
                  (candidates current version arch).get ⟨i, hi⟩]] ++ post)) ∧
    (candidates current version arch = [] → candidates legacy version arch ≠ [] →
      (¬ validChoice (TrimSpace (ReadString env.stdin)) (candidates legacy version arch).length →
        handleVersionSelection env base version arch file s =
          .ok () ⟨s.fs, s.out ++ [.logInfo "Searching for matching version...".toList,
            .logInfo "New version not found, trying old version:".toList] ++
            presented (candidates legacy version arch) ++ [.logFail "Invalid selection.".toList]⟩) ∧
      (∀ (i : Nat) (hi : i < (candidates legacy version arch).length),
        isInteger (TrimSpace (ReadString env.stdin)) = true →
        intValue (TrimSpace (ReadString env.stdin)) = (i : Int) →
        ∃ post, (handleVersionSelection env base version arch file s).st.out =
          s.out ++ [.logInfo "Searching for matching version...".toList,
            .logInfo "New version not found, trying old version:".toList] ++
            presented (candidates legacy version arch) ++
            [.logInfo ("You selected: ".toList ++ (candidates legacy version arch).get ⟨i, hi⟩),
              .logInfo ("Executing: ".toList ++ (Join [base, "download_old".toList] ++ " ".toList ++
                (candidates legacy version arch).get ⟨i, hi⟩)),
              .exec [if HasSuffix (if env.shell = [] then "bash".toList else env.shell)
                  "zsh".toList then "zsh".toList else "bash".toList,
                "-c".toList, Join [base, "download_old".toList] ++ " ".toList ++
                  (candidates legacy version arch).get ⟨i, hi⟩]] ++ post)) ∧
    (candidates current version arch = [] → candidates legacy version arch = [] →
      handleVersionSelection env base version arch file s =
        .ok () ⟨s.fs, s.out ++ [.logInfo "Searching for matching version...".toList,
          .logFail "No matching versions found.".toList]⟩) := by
  have hrun := handleVersionSelection_run env base version arch file s current legacy hc hl
  have hC := candidates_length_le current version arch hcN
  have hL := candidates_length_le legacy version arch hlN
  refine ⟨fun h1 => ?_, fun h1 h2 => ?_, fun h1 h2 => ?_⟩
  · rw [if_pos h1] at hrun
    refine ⟨fun hinv => ?_, fun i hi hint hval => ?_⟩
    · rw [hrun, selectVersion_invalid _ _ _ _ _ _ _ hC hinv]
    · rw [hrun]
      exact selectVersion_trace _ _ _ _ _ _ _ hC i hi hint hval
  · rw [if_neg (not_not.mpr h1), if_pos h2] at hrun
    refine ⟨fun hinv => ?_, fun i hi hint hval => ?_⟩
    · rw [hrun, selectVersion_invalid _ _ _ _ _ _ _ hL hinv]
    · rw [hrun]
      exact selectVersion_trace _ _ _ _ _ _ _ hL i hi hint hval
  · rw [if_neg (not_not.mpr h1), if_neg (not_not.mpr h2)] at hrun
    exact hrun

set_option maxRecDepth 100000 in
/-- C6, for the sample manifests: the version 2.3 has two candidates in the
current manifest, and the answer 1 starts `download` with the second; the
version 2.23 for i386 is listed only in the legacy manifest, and the answer 0
starts `download_old` with it; an answer out of range is refused; the version
9.9 is in neither manifest and the run ends with the report. -/
theorem handleVersionSelection_policy_witness :
    Os.ReadFile Sample.manifestFS (Join ["/opt/g".toList, "list".toList]) =
      .ok "2.35-0ubuntu3_amd64\n2.35-0ubuntu3_i386\n2.36-0ubuntu4_amd64\n".toList ∧
    Os.ReadFile Sample.manifestFS (Join ["/opt/g".toList, "old_list".toList]) =
      .ok "2.23-0ubuntu11_amd64\n2.23-0ubuntu11_i386\n".toList ∧
    candidates "2.35-0ubuntu3_amd64\n2.35-0ubuntu3_i386\n2.36-0ubuntu4_amd64\n".toList "2.3".toList "amd64".toList =
      ["2.35-0ubuntu3_amd64".toList, "2.36-0ubuntu4_amd64".toList] ∧
    presented ["2.35-0ubuntu3_amd64".toList, "2.36-0ubuntu4_amd64".toList] =
      [.logPrompt "Select glibc version:".toList,
        .print "  \x1b[1;32m[0]\x1b[0m 2.35-0ubuntu3_amd64\n".toList,
        .print "  \x1b[1;32m[1]\x1b[0m 2.36-0ubuntu4_amd64\n".toList,
        .print "\x1b[36mEnter your choice number: \x1b[0m".toList] ∧
    (∃ post, (handleVersionSelection (Sample.env [] " 1\n" []) "/opt/g".toList "2.3".toList
        "amd64".toList "/home/u/a.out".toList ⟨Sample.manifestFS, []⟩).st.out =
      [] ++ [.logInfo "Searching for matching version...".toList] ++
        presented (candidates "2.35-0ubuntu3_amd64\n2.35-0ubuntu3_i386\n2.36-0ubuntu4_amd64\n".toList "2.3".toList "amd64".toList) ++
        [.logInfo ("You selected: ".toList ++ (candidates "2.35-0ubuntu3_amd64\n2.35-0ubuntu3_i386\n2.36-0ubuntu4_amd64\n".toList "2.3".toList "amd64".toList).get ⟨1, by decide⟩),
          .logInfo ("Executing: ".toList ++ (Join ["/opt/g".toList, "download".toList] ++
            " ".toList ++ (candidates "2.35-0ubuntu3_amd64\n2.35-0ubuntu3_i386\n2.36-0ubuntu4_amd64\n".toList "2.3".toList "amd64".toList).get ⟨1, by decide⟩)),
          .exec [if HasSuffix (if (Sample.env [] " 1\n" []).shell = [] then "bash".toList
              else (Sample.env [] " 1\n" []).shell) "zsh".toList then "zsh".toList else "bash".toList,
            "-c".toList, Join ["/opt/g".toList, "download".toList] ++ " ".toList ++
              (candidates "2.35-0ubuntu3_amd64\n2.35-0ubuntu3_i386\n2.36-0ubuntu4_amd64\n".toList "2.3".toList "amd64".toList).get ⟨1, by decide⟩]] ++ post) ∧
    (handleVersionSelection (Sample.env [] " 1\n" []) "/opt/g".toList "2.3".toList
        "amd64".toList "/home/u/a.out".toList ⟨Sample.manifestFS, []⟩).st.out =
      [.logInfo "Searching for matching version...".toList,
        .logPrompt "Select glibc version:".toList,
        .print "  \x1b[1;32m[0]\x1b[0m 2.35-0ubuntu3_amd64\n".toList,
        .print "  \x1b[1;32m[1]\x1b[0m 2.36-0ubuntu4_amd64\n".toList,
        .print "\x1b[36mEnter your choice number: \x1b[0m".toList,
        .logInfo "You selected: 2.36-0ubuntu4_amd64".toList,
        .logInfo "Executing: /opt/g/download 2.36-0ubuntu4_amd64".toList,
        .exec ["bash".toList, "-c".toList, "/opt/g/download 2.36-0ubuntu4_amd64".toList],
        .logSuccess "Download completed.".toList, .print "out\n".toList,
        .logFail "No matching glibc found.".toList,
        .logFail "No suitable glib path found, cannot execute patchelf.".toList] ∧
    (∃ post, (handleVersionSelection (Sample.env [] "0\n" []) "/opt/g".toList "2.23".toList
        "i386".toList "/home/u/a.out".toList ⟨Sample.manifestFS, []⟩).st.out =
      [] ++ [.logInfo "Searching for matching version...".toList,
        .logInfo "New version not found, trying old version:".toList] ++
        presented (candidates "2.23-0ubuntu11_amd64\n2.23-0ubuntu11_i386\n".toList "2.23".toList "i386".toList) ++
        [.logInfo ("You selected: ".toList ++ (candidates "2.23-0ubuntu11_amd64\n2.23-0ubuntu11_i386\n".toList "2.23".toList "i386".toList).get ⟨0, by decide⟩),
          .logInfo ("Executing: ".toList ++ (Join ["/opt/g".toList, "download_old".toList] ++
            " ".toList ++ (candidates "2.23-0ubuntu11_amd64\n2.23-0ubuntu11_i386\n".toList "2.23".toList "i386".toList).get ⟨0, by decide⟩)),
          .exec [if HasSuffix (if (Sample.env [] "0\n" []).shell = [] then "bash".toList
              else (Sample.env [] "0\n" []).shell) "zsh".toList then "zsh".toList else "bash".toList,
            "-c".toList, Join ["/opt/g".toList, "download_old".toList] ++ " ".toList ++
              (candidates "2.23-0ubuntu11_amd64\n2.23-0ubuntu11_i386\n".toList "2.23".toList "i386".toList).get ⟨0, by decide⟩]] ++ post) ∧
    (handleVersionSelection (Sample.env [] "0\n" []) "/opt/g".toList "2.23".toList
        "i386".toList "/home/u/a.out".toList ⟨Sample.manifestFS, []⟩).st.out =
      [.logInfo "Searching for matching version...".toList,
        .logInfo "New version not found, trying old version:".toList,
        .logPrompt "Select glibc version:".toList,
        .print "  \x1b[1;32m[0]\x1b[0m 2.23-0ubuntu11_i386\n".toList,
        .print "\x1b[36mEnter your choice number: \x1b[0m".toList,
        .logInfo "You selected: 2.23-0ubuntu11_i386".toList,
        .logInfo "Executing: /opt/g/download_old 2.23-0ubuntu11_i386".toList,
        .exec ["bash".toList, "-c".toList, "/opt/g/download_old 2.23-0ubuntu11_i386".toList],
        .logSuccess "Download completed.".toList, .print "out\n".toList,
        .logFail "No matching glibc found.".toList,
        .logFail "No suitable glib path found, cannot execute patchelf.".toList] ∧
    handleVersionSelection (Sample.env [] "7\n" []) "/opt/g".toList "2.3".toList
        "amd64".toList "/home/u/a.out".toList ⟨Sample.manifestFS, []⟩ =
      .ok () ⟨Sample.manifestFS, [] ++ [.logInfo "Searching for matching version...".toList] ++
        presented (candidates "2.35-0ubuntu3_amd64\n2.35-0ubuntu3_i386\n2.36-0ubuntu4_amd64\n".toList
          "2.3".toList "amd64".toList) ++ [.logFail "Invalid selection.".toList]⟩ ∧
    handleVersionSelection (Sample.env [] "" []) "/opt/g".toList "9.9".toList "amd64".toList
        "/home/u/a.out".toList ⟨Sample.manifestFS, []⟩ =
      .ok () ⟨Sample.manifestFS, [] ++ [.logInfo "Searching for matching version...".toList,
        .logFail "No matching versions found.".toList]⟩ :=
  ⟨by decide, by decide, by decide, by decide,
    ((handleVersionSelection_policy (Sample.env [] " 1\n" []) "/opt/g".toList "2.3".toList
      "amd64".toList "/home/u/a.out".toList ⟨Sample.manifestFS, []⟩
      "2.35-0ubuntu3_amd64\n2.35-0ubuntu3_i386\n2.36-0ubuntu4_amd64\n".toList
      "2.23-0ubuntu11_amd64\n2.23-0ubuntu11_i386\n".toList
      (by decide) (by decide) (by decide) (by decide)).1 (by decide)).2 1 (by decide) (by decide) (by decide),
    by decide,
    ((handleVersionSelection_policy (Sample.env [] "0\n" []) "/opt/g".toList "2.23".toList
      "i386".toList "/home/u/a.out".toList ⟨Sample.manifestFS, []⟩
      "2.35-0ubuntu3_amd64\n2.35-0ubuntu3_i386\n2.36-0ubuntu4_amd64\n".toList
      "2.23-0ubuntu11_amd64\n2.23-0ubuntu11_i386\n".toList
      (by decide) (by decide) (by decide) (by decide)).2.1 (by decide) (by decide)).2 0 (by decide) (by decide)
      (by decide),
    by decide,
    ((handleVersionSelection_policy (Sample.env [] "7\n" []) "/opt/g".toList "2.3".toList
      "amd64".toList "/home/u/a.out".toList ⟨Sample.manifestFS, []⟩
      "2.35-0ubuntu3_amd64\n2.35-0ubuntu3_i386\n2.36-0ubuntu4_amd64\n".toList
      "2.23-0ubuntu11_amd64\n2.23-0ubuntu11_i386\n".toList
      (by decide) (by decide) (by decide) (by decide)).1 (by decide)).1
      (fun h => absurd h.2.2 (by decide)),
    (handleVersionSelection_policy (Sample.env [] "" []) "/opt/g".toList "9.9".toList
      "amd64".toList "/home/u/a.out".toList ⟨Sample.manifestFS, []⟩
      "2.35-0ubuntu3_amd64\n2.35-0ubuntu3_i386\n2.36-0ubuntu4_amd64\n".toList
      "2.23-0ubuntu11_amd64\n2.23-0ubuntu11_i386\n".toList
      (by decide) (by decide) (by decide) (by decide)).2.2 (by decide) (by decide)⟩

end

section

open Strings Filepath Spec Strconv

set_option maxRecDepth 100000 in
/-- C4, as stated, fails: the first component of `99999999999999999999x.0` is
not a number, so the claim counts it as zero and puts the version below
(2, 30); `strconv.Atoi` reports the overflow of its leading digits before it
reaches the `x` and returns the largest 64-bit integer, and the program
flattens `.build-id`. -/
theorem version_epoch_counterexample :
    detectArch "/opt/g/libs/2.31-amd64".toList ≠ [] ∧
    Split '.' "99999999999999999999x.0".toList = ["99999999999999999999x".toList, "0".toList] ∧
    isInteger "99999999999999999999x".toList = false ∧
    below230 (claimedValue "99999999999999999999x".toList) (claimedValue "0".toList) ∧
    Atoi "99999999999999999999x".toList = ((2 : Int) ^ 63 - 1, some .ErrRange) ∧
    (fixDebugSymbols "99999999999999999999x.0".toList "/opt/g/libs/2.31-amd64".toList
        ⟨Sample.cacheFS, []⟩).st.out = [flattenedReport] := by
  decide

/-- C4, amended. Version-epoch decision of `fixDebugSymbols` for a runtime
directory whose architecture is recognised: a version with fewer than two
dot-separated components is reported as invalid and nothing is copied;
otherwise, with major and minor the integer values of the first two components
(a component that is not a decimal integer counting as zero, unless its leading
digits overflow 64 bits, which counts as the largest 64-bit integer, or the
smallest after a minus sign), the nested-path copy runs when (major, minor) is
below (2, 30) and the flattening of `.build-id` runs otherwise; the run ends
with the report of the flattening exactly in the second case. -/
theorem fixDebugSymbols_version_epoch (version glibPath : Str) (s : St)
    (harch : detectArch glibPath ≠ []) :
    ((Split '.' version).length < 2 →
      fixDebugSymbols version glibPath s =
        .ok () { s with out := s.out ++
          [.logFail ("Invalid version string: ".toList ++ version)] }) ∧
    (2 ≤ (Split '.' version).length →
      (below230 (componentValue ((Split '.' version).getD 0 []))
          (componentValue ((Split '.' version).getD 1 [])) →
        fixDebugSymbols version glibPath s =
          copyNested version (Join [glibPath, ".debug".toList]) (detectArch glibPath) s) ∧
      (¬ below230 (componentValue ((Split '.' version).getD 0 []))
          (componentValue ((Split '.' version).getD 1 [])) →
        fixDebugSymbols version glibPath s =
          flattenBuildId (Join [glibPath, ".debug".toList]) s) ∧
      ((fixDebugSymbols version glibPath s).st.out.getLast? = some flattenedReport ↔
        ¬ below230 (componentValue ((Split '.' version).getD 0 []))
          (componentValue ((Split '.' version).getD 1 [])))) := by
  refine ⟨fixDebugSymbols_malformed version glibPath s, ?_⟩
  intro hlen
  have heq := fixDebugSymbols_epoch version glibPath hlen harch
  by_cases hb : below230 (componentValue ((Split '.' version).getD 0 []))
      (componentValue ((Split '.' version).getD 1 []))
  · rw [if_pos hb] at heq
    refine ⟨fun _ => by rw [heq], fun h => absurd hb h, ?_⟩
    obtain ⟨s1, h1, h2⟩ := copyNested_last version (Join [glibPath, ".debug".toList])
      (detectArch glibPath) s
    rw [heq, h1]
    constructor
    · intro h; exact absurd h h2
    · intro h; exact absurd hb h
  · rw [if_neg hb] at heq
    refine ⟨fun h => absurd h hb, fun _ => by rw [heq], ?_⟩
    obtain ⟨s1, h1, -, h3⟩ := flattenBuildId_last (Join [glibPath, ".debug".toList]) s
    rw [heq, h1]
    exact ⟨fun _ => hb, fun _ => h3⟩

set_option maxRecDepth 100000 in
/-- C4, amended, at the versions of the claim: `2.29.x` takes the nested-path
copy, `2.30.0` and `2.31.x` take the flattening. -/
theorem fixDebugSymbols_version_epoch_witness :
    detectArch "/opt/g/libs/2.27-amd64".toList ≠ [] ∧
    fixDebugSymbols "2.29.x".toList "/opt/g/libs/2.27-amd64".toList ⟨Sample.cacheFS, []⟩ =
      copyNested "2.29.x".toList (Join ["/opt/g/libs/2.27-amd64".toList, ".debug".toList])
        (detectArch "/opt/g/libs/2.27-amd64".toList) ⟨Sample.cacheFS, []⟩ ∧
    fixDebugSymbols "2.30.0".toList "/opt/g/libs/2.27-amd64".toList ⟨Sample.cacheFS, []⟩ =
      flattenBuildId (Join ["/opt/g/libs/2.27-amd64".toList, ".debug".toList])
        ⟨Sample.cacheFS, []⟩ ∧
    fixDebugSymbols "2.31.x".toList "/opt/g/libs/2.27-amd64".toList ⟨Sample.cacheFS, []⟩ =
      flattenBuildId (Join ["/opt/g/libs/2.27-amd64".toList, ".debug".toList])
        ⟨Sample.cacheFS, []⟩ ∧
    fixDebugSymbols "2".toList "/opt/g/libs/2.27-amd64".toList ⟨Sample.cacheFS, []⟩ =
      .ok () ⟨Sample.cacheFS, [.logFail "Invalid version string: 2".toList]⟩ :=
  ⟨by decide,
    ((fixDebugSymbols_version_epoch "2.29.x".toList "/opt/g/libs/2.27-amd64".toList
      ⟨Sample.cacheFS, []⟩ (by decide)).2 (by decide)).1 (by decide),
    ((fixDebugSymbols_version_epoch "2.30.0".toList "/opt/g/libs/2.27-amd64".toList
      ⟨Sample.cacheFS, []⟩ (by decide)).2 (by decide)).2.1 (by decide),
    ((fixDebugSymbols_version_epoch "2.31.x".toList "/opt/g/libs/2.27-amd64".toList
      ⟨Sample.cacheFS, []⟩ (by decide)).2 (by decide)).2.1 (by decide),
    (fixDebugSymbols_version_epoch "2".toList "/opt/g/libs/2.27-amd64".toList
      ⟨Sample.cacheFS, []⟩ (by decide)).1 (by decide)⟩

end

section

open Strings Filepath Spec Strconv

set_option maxRecDepth 100000 in
/-- C5, as stated, fails: in a run where the patch tool exits with status 1
the diagnostic tool is not started, but the relocation of debug symbols still
runs and copies the symbol file; and in a run where the diagnostic tool fails
the relocation runs as well. -/
theorem short_circuit_counterexample :
    (executeLdd (Sample.env [] "" ["patchelf"]) "/home/u/a.out".toList "2.27".toList
        ⟨Sample.cacheFS, []⟩).st.out =
      [.logInfo "File architecture: amd64".toList, .logInfo "Applying patchelf...".toList,
        .exec ["patchelf".toList, "--set-interpreter".toList,
          "/opt/g/libs/2.27-amd64/ld-linux-x86-64.so.2".toList, "--set-rpath".toList,
          "/opt/g/libs/2.27-amd64".toList, "/home/u/a.out".toList],
        .logFail "Error executing patchelf: exit status 1\nout".toList,
        .logSuccess "Copied debug symbol to: /opt/g/libs/2.27-amd64/.debug/libc-2.27.so".toList] ∧
    Os.ReadFile Sample.cacheFS "/opt/g/libs/2.27-amd64/.debug/libc-2.27.so".toList =
      .error ⟨"open".toList, "/opt/g/libs/2.27-amd64/.debug/libc-2.27.so".toList, .ENOENT⟩ ∧
    Os.ReadFile (executeLdd (Sample.env [] "" ["patchelf"]) "/home/u/a.out".toList "2.27".toList
        ⟨Sample.cacheFS, []⟩).st.fs "/opt/g/libs/2.27-amd64/.debug/libc-2.27.so".toList =
      .ok "SYM".toList ∧
    (executeLdd (Sample.env [] "" ["ldd"]) "/home/u/a.out".toList "2.27".toList
        ⟨Sample.cacheFS, []⟩).st.out =
      [.logInfo "File architecture: amd64".toList, .logInfo "Applying patchelf...".toList,
        .exec ["patchelf".toList, "--set-interpreter".toList,
          "/opt/g/libs/2.27-amd64/ld-linux-x86-64.so.2".toList, "--set-rpath".toList,
          "/opt/g/libs/2.27-amd64".toList, "/home/u/a.out".toList],
        .logSuccess "Patchelf patched successfully.".toList, .print "out\n".toList,
        .logInfo "Running ldd on patched file:".toList,
        .exec ["ldd".toList, "/home/u/a.out".toList],
        .logFail "Error executing ldd: exit status 1\nout".toList,
        .logSuccess "Copied debug symbol to: /opt/g/libs/2.27-amd64/.debug/libc-2.27.so".toList] := by
  decide

/-- C5, amended. A stage that fails ends the stages that come after it in the
orchestrated run (`executeLdd` and `executeDownloadCommand`), in these cases:
a target that does not exist is reported and nothing else happens; a target
that is not an ELF file ends the process; a download that fails is reported
and neither the patch tool, nor the diagnostic tool, nor the relocation runs;
a cache that has no match after the download is reported and none of the
three runs; and when the patch tool fails, in `executeLdd` on a cache hit and
in the continuation of the download, the failure is reported and no process is
started after it, so the diagnostic tool does not run.  Nothing is stated
about the relocation of debug symbols after a failure of the patch tool or of
the diagnostic tool. -/
theorem stage_failure_short_circuits (env : Env) (base command selected file version : Str)
    (s : St) :
    (∀ e : PathError, Os.Stat "stat".toList s.fs file = .error e → Os.IsNotExist e = true →
      executeLdd env file version s =
        .ok () ⟨s.fs, s.out ++ [.logFail ("No file found: ".toList ++ file)]⟩) ∧
    (∀ home data bytes e : Str, Os.ReadFile s.fs file = .ok bytes →
      env.elfMachine bytes = .error e → env.home = .ok home →
      Os.ReadFile s.fs (Join [home, ".cpwn".toList]) = .ok data →
      executeLdd env file version s =
        .exit ⟨s.fs, s.out ++ [.logFail ("Error opening ELF file: ".toList ++ e), .exit 1]⟩) ∧
    (∀ err : Str, procError (env.run (downloadArgv env base command selected) s.fs) = some err →
      executeDownloadCommand env base command selected file version s =
        .ok () ⟨procFS (env.run (downloadArgv env base command selected) s.fs) s.fs,
          s.out ++ [.logInfo ("Executing: ".toList ++ (Join [base, command] ++ " ".toList ++
              selected)),
            .exec (downloadArgv env base command selected),
            .logFail ("Error executing download command: ".toList ++ err ++ [Char.ofNat 10] ++
              procOutput (env.run (downloadArgv env base command selected) s.fs))]⟩) ∧
    (∀ (home data bytes : Str) (entries : List Str) (machine : Nat),
      procError (env.run (downloadArgv env base command selected) s.fs) = none →
      Os.ReadFile (downloadFS env base command selected s) file = .ok bytes →
      env.elfMachine bytes = .ok machine → env.home = .ok home →
      Os.ReadFile (downloadFS env base command selected s) (Join [home, ".cpwn".toList]) = .ok data →
      Os.ReadDir (downloadFS env base command selected s) (Join [TrimSpace data, "libs".toList]) = .ok entries →
      glibScan (Join [TrimSpace data, "libs".toList]) version (archOf machine) entries = none →
      executeDownloadCommand env base command selected file version s =
        .ok () ⟨(downloadFS env base command selected s),
          s.out ++ [.logInfo ("Executing: ".toList ++ (Join [base, command] ++ " ".toList ++
              selected)),
            .exec (downloadArgv env base command selected),
            .logSuccess "Download completed.".toList,
            .print (procOutput (env.run (downloadArgv env base command selected) s.fs) ++ [Char.ofNat 10]),
            .logFail "No matching glibc found.".toList,
            .logFail "No suitable glib path found, cannot execute patchelf.".toList]⟩) ∧
    (∀ (home data bytes : Str) (entries : List Str) (machine : Nat) (D err : Str),
      Os.ReadFile s.fs file = .ok bytes → env.elfMachine bytes = .ok machine →
      env.home = .ok home →
      Os.ReadFile s.fs (Join [home, ".cpwn".toList]) = .ok data →
      Os.ReadDir s.fs (Join [TrimSpace data, "libs".toList]) = .ok entries →
      glibScan (Join [TrimSpace data, "libs".toList]) version (archOf machine) entries =
        some D →
      procError (env.run (patchArgv file (getLdPath D (archOf machine)) D) s.fs) = some err →
      ∃ post, (executeLdd env file version s).st.out =
          s.out ++ [.logInfo ("File architecture: ".toList ++ archOf machine),
            .logInfo "Applying patchelf...".toList,
            .exec (patchArgv file (getLdPath D (archOf machine)) D),
            .logFail ("Error executing patchelf: ".toList ++ err ++ [Char.ofNat 10] ++
              procOutput (env.run (patchArgv file (getLdPath D (archOf machine)) D) s.fs))] ++
            post ∧
        ∀ argv, Event.exec argv ∉ post) ∧
    (∀ (home data bytes : Str) (entries : List Str) (machine : Nat) (D err : Str),
      procError (env.run (downloadArgv env base command selected) s.fs) = none →
      Os.ReadFile (downloadFS env base command selected s) file = .ok bytes →
      env.elfMachine bytes = .ok machine → env.home = .ok home →
      Os.ReadFile (downloadFS env base command selected s) (Join [home, ".cpwn".toList]) = .ok data →
      Os.ReadDir (downloadFS env base command selected s) (Join [TrimSpace data, "libs".toList]) = .ok entries →
      glibScan (Join [TrimSpace data, "libs".toList]) version (archOf machine) entries =
        some D →
      procError (env.run (patchArgv file (getLdPath D (archOf machine)) D) (downloadFS env base command selected s)) = some err →
      ∃ post, (executeDownloadCommand env base command selected file version s).st.out =
          s.out ++ [.logInfo ("Executing: ".toList ++ (Join [base, command] ++ " ".toList ++
              selected)),
            .exec (downloadArgv env base command selected),
            .logSuccess "Download completed.".toList,
            .print (procOutput (env.run (downloadArgv env base command selected) s.fs) ++ [Char.ofNat 10]),
            .logInfo "Applying patchelf...".toList,
            .exec (patchArgv file (getLdPath D (archOf machine)) D),
            .logFail ("Error executing patchelf: ".toList ++ err ++ [Char.ofNat 10] ++
              procOutput (env.run (patchArgv file (getLdPath D (archOf machine)) D) (downloadFS env base command selected s)))] ++
            post ∧
        ∀ argv, Event.exec argv ∉ post) := by
  refine ⟨fun e h1 h2 => executeLdd_missing env file version s e h1 h2,
    fun home data bytes e h1 h2 h3 h4 => executeLdd_notElf env file version s home data bytes e
      h1 h2 h3 h4,
    fun err h => executeDownloadCommand_failed env base command selected file version s err h,
    fun home data bytes entries machine h1 h2 h3 h4 h5 h6 h7 =>
      executeDownloadCommand_unresolved env base command selected file version s home data bytes
        entries machine h1 h2 h3 h4 h5 h6 h7, ?_, ?_⟩
  · intro home data bytes entries machine D err hfile hm hhome hcfg hdir hD herr
    have hhit := executeLdd_hit env file version s home data bytes entries machine D hfile hm
      hhome hcfg hdir hD
    obtain ⟨post, hpost, hexec⟩ := patchThenFix_failed env file version (archOf machine) D
      (St.mk s.fs (s.out ++ [.logInfo ("File architecture: ".toList ++ archOf machine)])) err herr
    refine ⟨post, ?_, hexec⟩
    rw [hhit]
    refine hpost.trans ?_
    simp only [List.append_assoc, List.cons_append, List.nil_append]
  · intro home data bytes entries machine D err hok hfile hm hhome hcfg hdir hD herr
    obtain ⟨s1, hfs, hout, hrun⟩ := executeDownloadCommand_resolved env base command selected
      file version s home data bytes entries machine D hok hfile hm hhome hcfg hdir hD
    rw [← hfs] at herr
    obtain ⟨post, hpost, hexec⟩ := patchThenFix_failed env file version (archOf machine) D s1 err
      herr
    refine ⟨post, ?_, hexec⟩
    rw [hrun]
    refine hpost.trans ?_
    rw [hout, hfs]
    simp only [List.append_assoc, List.cons_append, List.nil_append]

set_option maxRecDepth 100000 in
/-- C5, amended, on the sample cache: a download that fails ends the run with
its report, and a patch tool that fails, in `executeLdd` and after a download,
is followed by no process. -/
theorem stage_failure_short_circuits_witness :
    procError ((Sample.env [] "" ["bash"]).run
      (downloadArgv (Sample.env [] "" ["bash"]) "/opt/g".toList "download".toList
        "2.27-3ubuntu1_amd64".toList) Sample.cacheFS) = some "exit status 1".toList ∧
    executeDownloadCommand (Sample.env [] "" ["bash"]) "/opt/g".toList "download".toList
        "2.27-3ubuntu1_amd64".toList "/home/u/a.out".toList "2.27".toList
        ⟨Sample.cacheFS, []⟩ =
      .ok () ⟨Sample.cacheFS,
        [.logInfo "Executing: /opt/g/download 2.27-3ubuntu1_amd64".toList,
          .exec ["bash".toList, "-c".toList, "/opt/g/download 2.27-3ubuntu1_amd64".toList],
          .logFail "Error executing download command: exit status 1\nout".toList]⟩ ∧
    (∃ post, (executeLdd (Sample.env [] "" ["patchelf"]) "/home/u/a.out".toList "2.27".toList
        ⟨Sample.cacheFS, []⟩).st.out =
      [] ++ [.logInfo ("File architecture: ".toList ++ archOf 62),
        .logInfo "Applying patchelf...".toList,
        .exec (patchArgv "/home/u/a.out".toList
          (getLdPath "/opt/g/libs/2.27-amd64".toList (archOf 62))
          "/opt/g/libs/2.27-amd64".toList),
        .logFail ("Error executing patchelf: ".toList ++ "exit status 1".toList ++
          [Char.ofNat 10] ++ procOutput ((Sample.env [] "" ["patchelf"]).run (patchArgv "/home/u/a.out".toList
            (getLdPath "/opt/g/libs/2.27-amd64".toList (archOf 62))
            "/opt/g/libs/2.27-amd64".toList) Sample.cacheFS))] ++ post ∧
      ∀ argv, Event.exec argv ∉ post) ∧
    (∃ post, (executeDownloadCommand (Sample.env [] "" ["patchelf"]) "/opt/g".toList "download".toList
        "2.27-3ubuntu1_amd64".toList "/home/u/a.out".toList "2.27".toList
        ⟨Sample.cacheFS, []⟩).st.out =
      [] ++ [.logInfo ("Executing: ".toList ++ (Join ["/opt/g".toList, "download".toList] ++
          " ".toList ++ "2.27-3ubuntu1_amd64".toList)),
        .exec (downloadArgv (Sample.env [] "" ["patchelf"]) "/opt/g".toList "download".toList
          "2.27-3ubuntu1_amd64".toList),
        .logSuccess "Download completed.".toList,
        .print (procOutput ((Sample.env [] "" ["patchelf"]).run (downloadArgv (Sample.env [] "" ["patchelf"]) "/opt/g".toList "download".toList
          "2.27-3ubuntu1_amd64".toList) Sample.cacheFS) ++ [Char.ofNat 10]),
        .logInfo "Applying patchelf...".toList,
        .exec (patchArgv "/home/u/a.out".toList
          (getLdPath "/opt/g/libs/2.27-amd64".toList (archOf 62))
          "/opt/g/libs/2.27-amd64".toList),
        .logFail ("Error executing patchelf: ".toList ++ "exit status 1".toList ++
          [Char.ofNat 10] ++ procOutput ((Sample.env [] "" ["patchelf"]).run (patchArgv "/home/u/a.out".toList
            (getLdPath "/opt/g/libs/2.27-amd64".toList (archOf 62))
            "/opt/g/libs/2.27-amd64".toList)
            (downloadFS (Sample.env [] "" ["patchelf"]) "/opt/g".toList "download".toList "2.27-3ubuntu1_amd64".toList
              ⟨Sample.cacheFS, []⟩)))] ++ post ∧
      ∀ argv, Event.exec argv ∉ post) :=
  ⟨by decide,
    ((stage_failure_short_circuits (Sample.env [] "" ["bash"]) "/opt/g".toList "download".toList
      "2.27-3ubuntu1_amd64".toList "/home/u/a.out".toList "2.27".toList
      ⟨Sample.cacheFS, []⟩).2.2.1 "exit status 1".toList (by decide)).trans (by decide),
    (stage_failure_short_circuits (Sample.env [] "" ["patchelf"]) "/opt/g".toList "download".toList
      "2.27-3ubuntu1_amd64".toList "/home/u/a.out".toList "2.27".toList
      ⟨Sample.cacheFS, []⟩).2.2.2.2.1 "/home/u".toList "/opt/g\n".toList "ELF64".toList
      ["2.27-amd64".toList, "2.31-amd64".toList] 62 "/opt/g/libs/2.27-amd64".toList
      "exit status 1".toList
      (by decide) (by decide) (by decide) (by decide) (by decide) (by decide) (by decide),
    (stage_failure_short_circuits (Sample.env [] "" ["patchelf"]) "/opt/g".toList "download".toList
      "2.27-3ubuntu1_amd64".toList "/home/u/a.out".toList "2.27".toList
      ⟨Sample.cacheFS, []⟩).2.2.2.2.2 "/home/u".toList "/opt/g\n".toList "ELF64".toList
      ["2.27-amd64".toList, "2.31-amd64".toList] 62 "/opt/g/libs/2.27-amd64".toList
      "exit status 1".toList
      (by decide) (by decide) (by decide) (by decide) (by decide) (by decide) (by decide)
      (by decide)⟩

end

section

open Strings Filepath Spec Strconv

/-- C7. On a cache hit of `executeLdd`, with the cache listing made of entry
names and `D` the directory the cache index resolved: for a 64-bit target
(machine 62, `amd64`) the first process started is the patch tool with
arguments `--set-interpreter D/ld-linux-x86-64.so.2 --set-rpath D <file>`; for
a 32-bit target (machine 3, `i386`) the interpreter is `D/ld-linux.so.2`; the
only process started after it is the diagnostic tool on the file. -/
theorem patch_interpreter_on_hit (env : Env) (file version : Str) (s : St)
    (home data bytes : Str) (entries : List Str) (machine : Nat) (D : Str)
    (hfile : Os.ReadFile s.fs file = .ok bytes) (hm : env.elfMachine bytes = .ok machine)
    (hhome : env.home = .ok home)
    (hcfg : Os.ReadFile s.fs (Join [home, ".cpwn".toList]) = .ok data)
    (hdir : Os.ReadDir s.fs (Join [TrimSpace data, "libs".toList]) = .ok entries)
    (hD : glibScan (Join [TrimSpace data, "libs".toList]) version (archOf machine) entries =
      some D)
    (hnames : ∀ e ∈ entries, Name e) :
    (machine = 62 →
      getLdPath D "amd64".toList = D ++ "/ld-linux-x86-64.so.2".toList ∧
      ∃ post, (executeLdd env file version s).st.out =
          s.out ++ [.logInfo "File architecture: amd64".toList,
            .logInfo "Applying patchelf...".toList,
            .exec ["patchelf".toList, "--set-interpreter".toList,
              D ++ "/ld-linux-x86-64.so.2".toList, "--set-rpath".toList, D, file]] ++ post ∧
        ∀ argv, Event.exec argv ∈ post → argv = ["ldd".toList, file]) ∧
    (machine = 3 →
      getLdPath D "i386".toList = D ++ "/ld-linux.so.2".toList ∧
      ∃ post, (executeLdd env file version s).st.out =
          s.out ++ [.logInfo "File architecture: i386".toList,
            .logInfo "Applying patchelf...".toList,
            .exec ["patchelf".toList, "--set-interpreter".toList,
              D ++ "/ld-linux.so.2".toList, "--set-rpath".toList, D, file]] ++ post ∧
        ∀ argv, Event.exec argv ∈ post → argv = ["ldd".toList, file]) := by
  have hhit := executeLdd_hit env file version s home data bytes entries machine D hfile hm hhome
    hcfg hdir hD
  obtain ⟨e, he, -, -, hDe⟩ := glibScan_some _ _ _ _ _ hD
  have hclean : CleanPath D := by
    rw [hDe]
    exact Join_name_cleanPath _ _ (hnames e he)
  have h64 : getLdPath D "amd64".toList = D ++ "/ld-linux-x86-64.so.2".toList := by
    have := Join_cleanPath_name D "ld-linux-x86-64.so.2".toList hclean (by decide)
    simpa only [getLdPath, if_true] using this
  have h32 : getLdPath D "i386".toList = D ++ "/ld-linux.so.2".toList := by
    have := Join_cleanPath_name D "ld-linux.so.2".toList hclean (by decide)
    have hne : ¬ ("i386".toList = "amd64".toList) := by decide
    simpa only [getLdPath, hne, if_false] using this
  obtain ⟨post, hpost, hexec⟩ := patchThenFix_trace env file version (archOf machine) D
    (St.mk s.fs (s.out ++ [.logInfo ("File architecture: ".toList ++ archOf machine)]))
  have hout : (executeLdd env file version s).st.out =
      s.out ++ [.logInfo ("File architecture: ".toList ++ archOf machine),
        .logInfo "Applying patchelf...".toList,
        .exec (patchArgv file (getLdPath D (archOf machine)) D)] ++ post := by
    rw [hhit]
    refine hpost.trans ?_
    simp only [List.append_assoc, List.cons_append, List.nil_append]
  constructor
  · intro h
    subst h
    refine ⟨h64, post, ?_, hexec⟩
    have ha : archOf 62 = "amd64".toList := by decide
    rw [hout, ha, h64]
    rfl
  · intro h
    subst h
    refine ⟨h32, post, ?_, hexec⟩
    have ha : archOf 3 = "i386".toList := by decide
    rw [hout, ha, h32]
    rfl

set_option maxRecDepth 100000 in
/-- C7 for the cache entry `2.31-amd64` and the requested version `2.31`: the
interpreter is `/opt/g/libs/2.31-amd64/ld-linux-x86-64.so.2` and the search
root is `/opt/g/libs/2.31-amd64`. -/
theorem patch_interpreter_on_hit_witness :
    Os.ReadFile Sample.cacheFS "/home/u/a.out".toList = .ok "ELF64".toList ∧
    (Sample.env [] "" []).elfMachine "ELF64".toList = .ok 62 ∧
    (Sample.env [] "" []).home = .ok "/home/u".toList ∧
    Os.ReadFile Sample.cacheFS (Join ["/home/u".toList, ".cpwn".toList]) =
      .ok "/opt/g\n".toList ∧
    Os.ReadDir Sample.cacheFS (Join [TrimSpace "/opt/g\n".toList, "libs".toList]) =
      .ok ["2.27-amd64".toList, "2.31-amd64".toList] ∧
    glibScan (Join [TrimSpace "/opt/g\n".toList, "libs".toList]) "2.31".toList (archOf 62)
      ["2.27-amd64".toList, "2.31-amd64".toList] = some "/opt/g/libs/2.31-amd64".toList ∧
    (∀ e ∈ ["2.27-amd64".toList, "2.31-amd64".toList], Name e) ∧
    getLdPath "/opt/g/libs/2.31-amd64".toList "amd64".toList =
      "/opt/g/libs/2.31-amd64".toList ++ "/ld-linux-x86-64.so.2".toList ∧
    ∃ post, (executeLdd (Sample.env [] "" []) "/home/u/a.out".toList "2.31".toList
        ⟨Sample.cacheFS, []⟩).st.out =
      [] ++ [.logInfo "File architecture: amd64".toList,
        .logInfo "Applying patchelf...".toList,
        .exec ["patchelf".toList, "--set-interpreter".toList,
          "/opt/g/libs/2.31-amd64".toList ++ "/ld-linux-x86-64.so.2".toList,
          "--set-rpath".toList, "/opt/g/libs/2.31-amd64".toList, "/home/u/a.out".toList]] ++ post ∧
      ∀ argv, Event.exec argv ∈ post → argv = ["ldd".toList, "/home/u/a.out".toList] :=
  ⟨by decide, by decide, by decide, by decide, by decide, by decide, by decide,
    (patch_interpreter_on_hit (Sample.env [] "" []) "/home/u/a.out".toList
      "2.31".toList ⟨Sample.cacheFS, []⟩ "/home/u".toList "/opt/g\n".toList "ELF64".toList
      ["2.27-amd64".toList, "2.31-amd64".toList] 62 "/opt/g/libs/2.31-amd64".toList
      (by decide) (by decide) (by decide) (by decide) (by decide) (by decide) (by decide)).1 rfl⟩

end

section

open Strings Filepath Spec Strconv

set_option maxRecDepth 100000 in
/-- C8, as stated, fails: with the cache below `/srv/i386box` the cache index
resolves `/srv/i386box/libs/2.27-amd64` for a 64-bit target and version
`2.27`, the relocator finds `i386` in that path and looks for the symbol file
below `lib/i386-linux-gnu`; the file below `lib/x86_64-linux-gnu` is not
copied. -/
theorem detectArch_counterexample :
    Os.ReadDir Sample.oddFS "/srv/i386box/libs".toList = .ok ["2.27-amd64".toList] ∧
    glibScan "/srv/i386box/libs".toList "2.27".toList "amd64".toList ["2.27-amd64".toList] =
      some "/srv/i386box/libs/2.27-amd64".toList ∧
    detectArch "/srv/i386box/libs/2.27-amd64".toList = "i386".toList ∧
    Os.ReadFile Sample.oddFS
      "/srv/i386box/libs/2.27-amd64/.debug/lib/x86_64-linux-gnu/libc-2.27.so".toList =
        .ok "SYM".toList ∧
    (executeLdd (Sample.env [] "" []) "/home/u/a.out".toList "2.27".toList
        ⟨Sample.oddFS, []⟩).st =
      ⟨Sample.oddFS,
        [.logInfo "File architecture: amd64".toList, .logInfo "Applying patchelf...".toList,
          .exec ["patchelf".toList, "--set-interpreter".toList,
            "/srv/i386box/libs/2.27-amd64/ld-linux-x86-64.so.2".toList, "--set-rpath".toList,
            "/srv/i386box/libs/2.27-amd64".toList, "/home/u/a.out".toList],
          .logSuccess "Patchelf patched successfully.".toList, .print "out\n".toList,
          .logInfo "Running ldd on patched file:".toList,
          .exec ["ldd".toList, "/home/u/a.out".toList], .print "out\n".toList,
          .logFail ("Error copying debug symbol: open /srv/i386box/libs/2.27-amd64/.debug/" ++
            "lib/i386-linux-gnu/libc-2.27.so: no such file or directory").toList]⟩ := by
  decide

/-- C8, amended. For a version `V` with at least two dot-separated components
and (major, minor) below (2, 30), and a directory `D` the cache index resolved
from a listing of entry names: when `D` was resolved for `amd64` and the path
of `D` does not contain `i386`, the relocator derives `x86_64` and copies
`D/.debug/lib/x86_64-linux-gnu/libc-V.so` to `D/.debug/libc-V.so`; when `D`
was resolved for `i386` it derives `i386` and the source is
`D/.debug/lib/i386-linux-gnu/libc-V.so`. In both cases it reports the copy or
its failure. -/
theorem nested_copy_paths (libPath version arch : Str) (entries : List Str) (D : Str) (s : St)
    (hD : glibScan libPath version arch entries = some D)
    (hnames : ∀ e ∈ entries, Name e)
    (hlen : 2 ≤ (Split '.' version).length)
    (hbelow : below230 (componentValue ((Split '.' version).getD 0 []))
      (componentValue ((Split '.' version).getD 1 []))) :
    (arch = "amd64".toList → Contains D "i386".toList = false →
      detectArch D = "x86_64".toList ∧
      (fixDebugSymbols version D s).st.fs =
        (copyFile (D ++ "/.debug/lib/x86_64-linux-gnu/libc-".toList ++ version ++ ".so".toList)
          (D ++ "/.debug/libc-".toList ++ version ++ ".so".toList) s.fs).2 ∧
      (fixDebugSymbols version D s).st.out = s.out ++
        [copyReport (copyFile
            (D ++ "/.debug/lib/x86_64-linux-gnu/libc-".toList ++ version ++ ".so".toList)
            (D ++ "/.debug/libc-".toList ++ version ++ ".so".toList) s.fs).1
          (D ++ "/.debug/libc-".toList ++ version ++ ".so".toList)]) ∧
    (arch = "i386".toList →
      detectArch D = "i386".toList ∧
      (fixDebugSymbols version D s).st.fs =
        (copyFile (D ++ "/.debug/lib/i386-linux-gnu/libc-".toList ++ version ++ ".so".toList)
          (D ++ "/.debug/libc-".toList ++ version ++ ".so".toList) s.fs).2 ∧
      (fixDebugSymbols version D s).st.out = s.out ++
        [copyReport (copyFile
            (D ++ "/.debug/lib/i386-linux-gnu/libc-".toList ++ version ++ ".so".toList)
            (D ++ "/.debug/libc-".toList ++ version ++ ".so".toList) s.fs).1
          (D ++ "/.debug/libc-".toList ++ version ++ ".so".toList)]) := by
  obtain ⟨hclean, hsep, hcont⟩ := glibScan_resolved libPath version arch entries D hD hnames
  have hdbg : Join [D, ".debug".toList] = D ++ "/.debug".toList :=
    Join_cleanPath_name D _ hclean debug_name
  have hdclean : CleanPath (D ++ "/.debug".toList) := by
    rw [← hdbg]; exact Join_name_cleanPath D _ debug_name
  have hlibc := libc_name version hsep
  have hdst : Join [D ++ "/.debug".toList, "libc-".toList ++ version ++ ".so".toList] =
      D ++ "/.debug/libc-".toList ++ version ++ ".so".toList := by
    rw [Join_cleanPath_name _ _ hdclean hlibc]
    simp only [String.toList, List.append_assoc, List.cons_append, List.nil_append]
  have hsrc64 : Join [D ++ "/.debug".toList, "lib/".toList ++ "x86_64".toList ++
        "-linux-gnu".toList, "libc-".toList ++ version ++ ".so".toList] =
      D ++ "/.debug/lib/x86_64-linux-gnu/libc-".toList ++ version ++ ".so".toList := by
    rw [Join_three _ _ _ hdclean (by decide) hlibc]
    simp only [String.toList, List.append_assoc, List.cons_append, List.nil_append]
  have hsrc32 : Join [D ++ "/.debug".toList, "lib/".toList ++ "i386".toList ++
        "-linux-gnu".toList, "libc-".toList ++ version ++ ".so".toList] =
      D ++ "/.debug/lib/i386-linux-gnu/libc-".toList ++ version ++ ".so".toList := by
    rw [Join_three _ _ _ hdclean (by decide) hlibc]
    simp only [String.toList, List.append_assoc, List.cons_append, List.nil_append]
  constructor
  · intro ha hno
    subst ha
    have hdet : detectArch D = "x86_64".toList := by
      simp only [detectArch, hno, hcont, Bool.false_eq_true, if_false, true_or, if_true]
    have harch : detectArch D ≠ [] := by rw [hdet]; decide
    have heq := fixDebugSymbols_epoch version D hlen harch
    rw [if_pos hbelow, hdet, hdbg] at heq
    refine ⟨hdet, ?_, ?_⟩
    · rw [heq, copyNested_fs, hsrc64, hdst]
    · rw [heq, copyNested_run, hsrc64, hdst]
  · intro ha
    subst ha
    have hdet : detectArch D = "i386".toList := by
      simp only [detectArch, hcont, if_true]
    have harch : detectArch D ≠ [] := by rw [hdet]; decide
    have heq := fixDebugSymbols_epoch version D hlen harch
    rw [if_pos hbelow, hdet, hdbg] at heq
    refine ⟨hdet, ?_, ?_⟩
    · rw [heq, copyNested_fs, hsrc32, hdst]
    · rw [heq, copyNested_run, hsrc32, hdst]

set_option maxRecDepth 100000 in
/-- C8, amended, for version `2.27` and the cache entry `2.27-amd64`: the
symbol file below `lib/x86_64-linux-gnu` is copied to the top of `.debug`. -/
theorem nested_copy_paths_witness :
    glibScan "/opt/g/libs".toList "2.27".toList "amd64".toList
      ["2.27-amd64".toList, "2.31-amd64".toList] = some "/opt/g/libs/2.27-amd64".toList ∧
    (∀ e ∈ ["2.27-amd64".toList, "2.31-amd64".toList], Name e) ∧
    2 ≤ (Split '.' "2.27".toList).length ∧
    below230 (componentValue ((Split '.' "2.27".toList).getD 0 []))
      (componentValue ((Split '.' "2.27".toList).getD 1 [])) ∧
    Contains "/opt/g/libs/2.27-amd64".toList "i386".toList = false ∧
    Os.ReadFile (copyFile
        ("/opt/g/libs/2.27-amd64".toList ++ "/.debug/lib/x86_64-linux-gnu/libc-".toList ++
          "2.27".toList ++ ".so".toList)
        ("/opt/g/libs/2.27-amd64".toList ++ "/.debug/libc-".toList ++ "2.27".toList ++
          ".so".toList) Sample.cacheFS).2
      "/opt/g/libs/2.27-amd64/.debug/libc-2.27.so".toList = .ok "SYM".toList ∧
    (detectArch "/opt/g/libs/2.27-amd64".toList = "x86_64".toList ∧
      (fixDebugSymbols "2.27".toList "/opt/g/libs/2.27-amd64".toList
          ⟨Sample.cacheFS, []⟩).st.fs =
        (copyFile
          ("/opt/g/libs/2.27-amd64".toList ++ "/.debug/lib/x86_64-linux-gnu/libc-".toList ++
            "2.27".toList ++ ".so".toList)
          ("/opt/g/libs/2.27-amd64".toList ++ "/.debug/libc-".toList ++ "2.27".toList ++
            ".so".toList) Sample.cacheFS).2 ∧
      (fixDebugSymbols "2.27".toList "/opt/g/libs/2.27-amd64".toList
          ⟨Sample.cacheFS, []⟩).st.out = [] ++
        [copyReport (copyFile
            ("/opt/g/libs/2.27-amd64".toList ++ "/.debug/lib/x86_64-linux-gnu/libc-".toList ++
              "2.27".toList ++ ".so".toList)
            ("/opt/g/libs/2.27-amd64".toList ++ "/.debug/libc-".toList ++ "2.27".toList ++
              ".so".toList) Sample.cacheFS).1
          ("/opt/g/libs/2.27-amd64".toList ++ "/.debug/libc-".toList ++ "2.27".toList ++
                ".so".toList)]) :=
  ⟨by decide, by decide, by decide, by decide, by decide, by decide,
    (nested_copy_paths "/opt/g/libs".toList "2.27".toList "amd64".toList
      ["2.27-amd64".toList, "2.31-amd64".toList] "/opt/g/libs/2.27-amd64".toList
      ⟨Sample.cacheFS, []⟩ (by decide) (by decide) (by decide) (by decide)).1 rfl (by decide)⟩

end

section

open Strings Filepath Spec Strconv

/-- C9. Relocating debug symbols twice leaves the file system the first
relocation left, for every version and runtime directory and every file system
whose names are names of directory entries: in the single-file copy of the
versions before 2.30, in the flattening of `.build-id` from 2.30 on, and when
nothing is copied. -/
theorem fixDebugSymbols_idempotent (version glibPath : Str) (s : St) (hwf : s.fs.root.WF) :
    (fixDebugSymbols version glibPath (fixDebugSymbols version glibPath s).st).st.fs =
      (fixDebugSymbols version glibPath s).st.fs := by
  by_cases hlen : (Split '.' version).length < 2
  · have h := fixDebugSymbols_malformed version glibPath
    simp only [h _ hlen, Res.st]
  · by_cases harch : detectArch glibPath = []
    · have h : ∀ t : St, fixDebugSymbols version glibPath t =
          .ok () { t with out := t.out ++
            [.logInfo "Unknown architecture, skip fixing debug symbols.".toList] } := by
        intro t
        simp only [fixDebugSymbols, if_neg hlen, harch, if_true, logInfo, emit_apply]
      simp only [h, Res.st]
    · have heq := fixDebugSymbols_epoch version glibPath (by omega) harch
      by_cases hb : below230 (componentValue ((Split '.' version).getD 0 []))
          (componentValue ((Split '.' version).getD 1 []))
      · rw [if_pos hb] at heq
        rw [heq, copyNested_fs, copyNested_fs]
        exact copyFile_idem _ _ _
      · rw [if_neg hb] at heq
        rw [heq, flattenBuildId_fs]
        exact Walk_idem (Join [glibPath, ".debug".toList])
          (Join_name_cleanPath glibPath _ debug_name) s hwf _ (flattenBuildId_fs _ s)

set_option maxRecDepth 100000 in
/-- C9 on the sample cache: the flattening for `2.31` and the nested copy for
`2.27` change the file system, and a second relocation changes nothing. -/
theorem fixDebugSymbols_idempotent_witness :
    Sample.cacheFS.root.WF ∧
    (fixDebugSymbols "2.31".toList "/opt/g/libs/2.31-amd64".toList
      ⟨Sample.cacheFS, []⟩).st.fs ≠ Sample.cacheFS ∧
    (fixDebugSymbols "2.31".toList "/opt/g/libs/2.31-amd64".toList
      (fixDebugSymbols "2.31".toList "/opt/g/libs/2.31-amd64".toList
        ⟨Sample.cacheFS, []⟩).st).st.fs =
      (fixDebugSymbols "2.31".toList "/opt/g/libs/2.31-amd64".toList
        ⟨Sample.cacheFS, []⟩).st.fs ∧
    (fixDebugSymbols "2.27".toList "/opt/g/libs/2.27-amd64".toList
      ⟨Sample.cacheFS, []⟩).st.fs ≠ Sample.cacheFS ∧
    (fixDebugSymbols "2.27".toList "/opt/g/libs/2.27-amd64".toList
      (fixDebugSymbols "2.27".toList "/opt/g/libs/2.27-amd64".toList
        ⟨Sample.cacheFS, []⟩).st).st.fs =
      (fixDebugSymbols "2.27".toList "/opt/g/libs/2.27-amd64".toList
        ⟨Sample.cacheFS, []⟩).st.fs :=
  ⟨by decide, by decide,
    fixDebugSymbols_idempotent "2.31".toList "/opt/g/libs/2.31-amd64".toList
      ⟨Sample.cacheFS, []⟩ (by decide),
    by decide,
    fixDebugSymbols_idempotent "2.27".toList "/opt/g/libs/2.27-amd64".toList
      ⟨Sample.cacheFS, []⟩ (by decide)⟩

set_option maxRecDepth 100000 in
/-- C10 fails on the code for `cpwn -l libc.so.6`: after the scan of the
library by `Putv` the run does not end (the `-l` branch has no `return`, the
`-s` branch has one) and `executeLdd` is started with the file `-l` and the
version `libc.so.6`; here it reports that no file of that name is in the
working directory. -/
theorem main_list_mode_falls_through :
    main (Sample.env ["cpwn", "-l", "libc.so.6"] "" []) ⟨Sample.cacheFS, []⟩ =
      Prog.bind (Putv (Sample.env ["cpwn", "-l", "libc.so.6"] "" []) "/home/u/libc.so.6".toList)
        (fun _ => executeLdd (Sample.env ["cpwn", "-l", "libc.so.6"] "" [])
          "/home/u/-l".toList "libc.so.6".toList) ⟨Sample.cacheFS, []⟩ ∧
    (main (Sample.env ["cpwn", "-l", "libc.so.6"] "" []) ⟨Sample.cacheFS, []⟩).st.out =
      [.exec ["strings".toList, "/home/u/libc.so.6".toList],
        .logInfo "No Ubuntu GLIBC string found in /home/u/libc.so.6".toList,
        .logFail "No file found: /home/u/-l".toList] ∧
    (Putv (Sample.env ["cpwn", "-l", "libc.so.6"] "" []) "/home/u/libc.so.6".toList
        ⟨Sample.cacheFS, []⟩).st.out =
      [.exec ["strings".toList, "/home/u/libc.so.6".toList],
        .logInfo "No Ubuntu GLIBC string found in /home/u/libc.so.6".toList] := by
  decide

end

end Cpwn
